import Mathlib

/-!
Verification of the `trust` repository (the Advogato trust metric on top of
Ford-Fulkerson / Edmonds-Karp max flow).

The Python sources are shallowly embedded:

* Python numbers used by the programs are integers together with the float
  sentinel `float("inf")` (and, transiently, `-inf`); they are modelled by
  `EInt` below.  The IEEE indeterminate results (`inf - inf`, `inf + (-inf)`)
  never occur in any execution of the programs; `EInt` maps them to `inf`.
* Python `dict`s (which preserve insertion order, update values in place and
  append new keys at the end) are modelled by association lists
  `List (String × α)` with the operations `dget?` / `dset` / `dmod` /
  `derase`.
* Mutation is modelled by explicit state passing; `while` loops become
  fuel-indexed recursions returning `Option` (`none` = fuel exhausted), and
  operations that would raise in Python (`TypeError` in
  ff_vanilla's reverse-edge update) return `none`.
-/

/-- Extended integers: the values taken by the numeric fields of the Python
programs (`int`s plus the sentinels `float("inf")` and `float("-inf")`). -/
inductive EInt where
  | neg : EInt
  | fin : Int → EInt
  | inf : EInt
deriving DecidableEq, Repr

namespace EInt

/-- Python `+` on the modelled values.  `inf + (-inf)` is NaN in Python and
unreachable in the programs; we map it to `inf`. -/
def add : EInt → EInt → EInt
  | fin a, fin b => fin (a + b)
  | inf, _ => inf
  | _, inf => inf
  | neg, _ => neg
  | _, neg => neg

/-- Python `-` on the modelled values.  `inf - inf` and `(-inf) - (-inf)` are
NaN in Python and unreachable in the programs; we map them to `inf` / `neg`. -/
def sub : EInt → EInt → EInt
  | fin a, fin b => fin (a - b)
  | inf, fin _ => inf
  | inf, neg => inf
  | inf, inf => inf
  | neg, fin _ => neg
  | neg, inf => neg
  | neg, neg => neg
  | fin _, inf => neg
  | fin _, neg => inf

/-- Python `<` on the modelled values. -/
def blt : EInt → EInt → Bool
  | neg, neg => false
  | neg, _ => true
  | fin _, neg => false
  | fin a, fin b => decide (a < b)
  | fin _, inf => true
  | inf, _ => false

/-- A value is a (finite) integer. -/
def isFin : EInt → Prop
  | fin _ => True
  | _ => False

instance : DecidablePred isFin := by
  intro x; cases x <;> simp [isFin] <;> infer_instance

theorem add_fin (a b : Int) : add (fin a) (fin b) = fin (a + b) := rfl

theorem sub_fin (a b : Int) : sub (fin a) (fin b) = fin (a - b) := rfl

end EInt

/-! ### Insertion-ordered dictionaries (Python `dict`)

A Python `dict` is modelled as an association list in insertion order:
assigning to an existing key updates the value in place, assigning to a fresh
key appends at the end, `del` removes the entry. -/

/-- `d[k]` (as an `Option`; Python raises `KeyError` when absent). -/
def dget? {α : Type} : List (String × α) → String → Option α
  | [], _ => none
  | (k, v) :: rest, key => if k = key then some v else dget? rest key

/-- `k in d`. -/
def dmem {α : Type} (m : List (String × α)) (k : String) : Bool :=
  (dget? m k).isSome

/-- `d[k] = v`: update in place if present, append otherwise. -/
def dset {α : Type} : List (String × α) → String → α → List (String × α)
  | [], key, v => [(key, v)]
  | (k, w) :: rest, key, v =>
    if k = key then (key, v) :: rest else (k, w) :: dset rest key v

/-- Update the value at `k` by `f` when present (no-op when absent; the
callers below only use it on present keys, where Python indexes the dict). -/
def dmod {α : Type} : List (String × α) → String → (α → α) → List (String × α)
  | [], _, _ => []
  | (k, w) :: rest, key, f =>
    if k = key then (k, f w) :: rest else (k, w) :: dmod rest key f

/-- `del d[k]` (no-op when absent; Python raises `KeyError` there). -/
def derase {α : Type} : List (String × α) → String → List (String × α)
  | [], _ => []
  | (k, w) :: rest, key =>
    if k = key then rest else (k, w) :: derase rest key

/-- The key list of a dictionary, in insertion order. -/
def dkeys {α : Type} (m : List (String × α)) : List String := m.map Prod.fst

namespace Advogato

/-- `advogato.py`, class `Edge`: a directed edge of a flow network, to vertex
`v`, with capacity `c`, flow `f`, and the optional `vertex_id` tag that marks
capacity edges produced by vertex splitting. -/
structure Edge where
  v : String
  c : EInt := .fin 0
  f : EInt := .fin 0
  vertex_id : Option String := none
deriving DecidableEq, Repr

/-- `advogato.py`, class `Digraph`: `self.V` maps a vertex label to the dict
of its outedges (keyed by target label). -/
structure Digraph where
  V : List (String × List (String × Edge)) := []
deriving DecidableEq, Repr

/-- `Digraph.add_vertex`. -/
def Digraph.add_vertex (g : Digraph) (u : String) : Digraph :=
  if dmem g.V u then g else ⟨g.V ++ [(u, [])]⟩

/-- `Digraph.add_edge`: ensure `u` is known, upsert the edge keyed by `e.v`,
then ensure `e.v` is known. -/
def Digraph.add_edge (g : Digraph) (u : String) (e : Edge) : Digraph :=
  let V1 := if dmem g.V u then g.V else g.V ++ [(u, [])]
  let V2 := dmod V1 u (fun m => dset m e.v e)
  let V3 := if dmem V2 e.v then V2 else V2 ++ [(e.v, [])]
  ⟨V3⟩

/-- `Digraph.del_edge`. -/
def Digraph.del_edge (g : Digraph) (u v : String) : Digraph :=
  ⟨dmod g.V u (fun m => derase m v)⟩

/-- `Digraph.has_edge`. -/
def Digraph.has_edge (g : Digraph) (u v : String) : Bool :=
  match dget? g.V u with
  | some m => dmem m v
  | none => false

/-- Discovery colors (`class COLOR`). -/
inductive Color where
  | white
  | grey
  | black
deriving DecidableEq, Repr

/-- `class Vertex_prop`.  The Python `pi` field holds a reference to the
predecessor's `Vertex_prop` object; only its `label` is ever read after
assignment, so we store that label. -/
structure Vertex_prop where
  color : Color
  d : EInt
  pi : Option String
  label : String
deriving DecidableEq, Repr

/-- The edge-exploration loop inside `Digraph.bfs`: process the outedges of
the dequeued vertex `u` (label `ulabel`, distance `ud`), greying-and-enqueuing
each non-skipped white target. -/
def bfs_explore (skip : String → String → Bool) (ulabel : String) (ud : EInt)
    (edges : List (String × Edge))
    (st : List (String × Vertex_prop) × List String) :
    List (String × Vertex_prop) × List String :=
  edges.foldl
    (fun st p =>
      if skip ulabel p.1 then st
      else
        match dget? st.1 p.2.v with
        | none => st
        | some vp =>
          if vp.color = Color.white then
            (dset st.1 p.2.v
              { vp with color := .grey, d := ud.add (.fin 1), pi := some ulabel },
             st.2 ++ [p.2.v])
          else st)
    st

/-- The `while len(q) != 0` loop of `Digraph.bfs`.  The queue holds vertex
labels (Python holds the `Vertex_prop` objects, which are exactly the values
stored in `vprops`).  `none` = fuel exhausted. -/
def bfs_loop (g : Digraph) (skip : String → String → Bool) :
    Nat → List (String × Vertex_prop) → List String →
    Option (List (String × Vertex_prop))
  | _, vprops, [] => some vprops
  | 0, _, _ :: _ => none
  | n + 1, vprops, u :: rest =>
    match dget? vprops u with
    | none => bfs_loop g skip n vprops rest
    | some up =>
      let st := bfs_explore skip u up.d ((dget? g.V u).getD []) (vprops, rest)
      bfs_loop g skip n (dmod st.1 u (fun w => { w with color := .black })) st.2

/-- The initial `vprops` of `Digraph.bfs`: one entry per vertex of `g`; the
source holds `sp = Vertex_prop(GREY, 0, None, s)` (Python stores `None` there
until the loop ends and falls back to the shared `sp` object on lookup, which
is observationally the same).  When `s` is not a vertex of `g` the entry is
appended at the end, matching the final `vprops[sp.label] = sp`. -/
def bfs_init (g : Digraph) (s : String) : List (String × Vertex_prop) :=
  let base := g.V.map (fun p =>
    if p.1 = s then (s, Vertex_prop.mk .grey (.fin 0) none s)
    else (p.1, Vertex_prop.mk .white .inf none p.1))
  if dmem base s then base else base ++ [(s, Vertex_prop.mk .grey (.fin 0) none s)]

/-- Fuel that always suffices for `bfs_loop` (proved below). -/
def bfsFuel (g : Digraph) : Nat := g.V.length + 2

/-- `Digraph.bfs`: breadth-first search from `s`, not exploring edges on which
`skip` holds, returning the predecessor subgraph (reachable vertices only).
The Python default `skip=None` is the constantly-false predicate. -/
def Digraph.bfs (g : Digraph) (s : String) (skip : String → String → Bool) :
    Option (List (String × Vertex_prop)) :=
  match bfs_loop g skip (bfsFuel g) (bfs_init g s) [s] with
  | none => none
  | some vprops => some (vprops.filter (fun p => p.2.pi.isSome || p.1 == s))

/-- The vertex-capacity tables (`vcaps` in `advogato.py`). -/
abbrev VCaps := List (String × EInt)

/-- The label of the auxiliary vertex inserted for the antiparallel pair
rerouting `u -> v` (`f"ANTIPARALLEL_{u}->{v}"`). -/
def apLabel (u v : String) : String := "ANTIPARALLEL_" ++ u ++ "->" ++ v

/-- One check of `Digraph._fix_antiparallel`'s inner loop: the edge `v -> u`
is under scrutiny; if the reverse edge `u -> v` also exists, reroute it as
`u -> prime -> v` with an infinite-capacity auxiliary vertex. -/
def fixStep (v : String) (st : Digraph × VCaps × List String) (u : String) :
    Digraph × VCaps × List String :=
  let g := st.1
  if g.has_edge u v then
    let prime := apLabel u v
    let g := g.add_edge u { v := prime }
    let g := g.add_edge prime { v := v }
    let g := g.del_edge u v
    (g, dset st.2.1 prime .inf, prime :: st.2.2)
  else st

/-- `Digraph._fix_antiparallel`: iterate over a snapshot of the vertex keys;
for each vertex `v` iterate over the keys of its current outedge dict.
Returns the rewritten graph, the extended `vcaps` and the set (as a list) of
added auxiliary vertex labels.  (On a graph with a self-loop the Python code
mutates the dict it is iterating and raises `RuntimeError`; the theorems below
assume loop-free input.) -/
def Digraph.fix_antiparallel (g : Digraph) (vcaps : VCaps) :
    Digraph × VCaps × List String :=
  (dkeys g.V).foldl
    (fun st v => (dkeys ((dget? st.1.V v).getD [])).foldl (fixStep v) st)
    (g, vcaps, [])

/-- The capacity edge `to_flow_net` creates for vertex `v`
(`Edge(v=out_vertex, c=cap, vertex_id=v)` with `cap = vcaps[v] - 1 if v in
vcaps else 0`). -/
def capEdgeOf (vcaps : VCaps) (v : String) : Edge :=
  { v := v ++ "_OUT",
    c := match dget? vcaps v with
      | some c => c.sub (.fin 1)
      | none => .fin 0,
    vertex_id := some v }

/-- The unit drain edge `to_flow_net` creates (`Edge(supersink_label, 1)`). -/
def drainEdgeOf (supersink_label : String) : Edge :=
  { v := supersink_label, c := .fin 1 }

/-- The infinite transport edge `to_flow_net` creates for an original edge
towards `u` (`Edge(f"{u}_IN", float("inf"))`). -/
def transportEdgeOf (u : String) : Edge :=
  { v := u ++ "_IN", c := .inf }

/-- The body of `to_flow_net`'s `for v in self.V` loop (after the fix):
add `v`'s capacity edge, its drain (unless `v` is auxiliary) and one
transport edge per outedge of `v`. -/
def tfn_step (self' : Digraph) (vcaps' : VCaps) (supersink_label : String)
    (ap_vertices : List String) (g : Digraph) (v : String) : Digraph :=
  let in_vertex := v ++ "_IN"
  let out_vertex := v ++ "_OUT"
  let g := g.add_edge in_vertex (capEdgeOf vcaps' v)
  let g := if ap_vertices.contains v then g
    else g.add_edge in_vertex (drainEdgeOf supersink_label)
  (dkeys ((dget? self'.V v).getD [])).foldl
    (fun g u => g.add_edge out_vertex (transportEdgeOf u)) g

/-- `Digraph.to_flow_net`: fix antiparallel edges, then split every vertex
`v` into `v_IN`/`v_OUT` with the tagged capacity edge, give every
non-auxiliary vertex a unit drain to the supersink, and transcribe original
edges as infinite-capacity `v_OUT -> u_IN` transport edges.  Python mutates
`self` and `vcaps` and returns `(g, source_label_IN)`; we return the mutated
graph and table as extra components. -/
def Digraph.to_flow_net (self : Digraph) (vcaps : VCaps)
    (source_label supersink_label : String) :
    Digraph × VCaps × Digraph × String :=
  let fixed := self.fix_antiparallel vcaps
  let self' := fixed.1
  let vcaps' := fixed.2.1
  let ap_vertices := fixed.2.2
  let g := (dkeys self'.V).foldl
    (tfn_step self' vcaps' supersink_label ap_vertices) ⟨[]⟩
  (self', vcaps', g, source_label ++ "_IN")

/-- `_optimize`: the fused residual structure G′, holding every edge of `g`
(with flow reset to 0, as `Edge(edge.v, edge.c)` does) and its transpose with
capacity equal to the current flow. -/
def optimize (g : Digraph) : Digraph :=
  g.V.foldl
    (fun gp p =>
      p.2.foldl
        (fun gp q =>
          let gp := gp.add_edge p.1 { v := q.2.v, c := q.2.c }
          gp.add_edge q.2.v { v := p.1, c := q.2.f })
        gp)
    ⟨[]⟩

/-- `res_cap`: residual capacity of `(u, v)` in `g`. -/
def res_cap (g : Digraph) (u v : String) : EInt :=
  match dget? g.V u with
  | some m =>
    match dget? m v with
    | some e => e.c.sub e.f
    | none =>
      match dget? g.V v with
      | some m' =>
        match dget? m' u with
        | some e => e.f
        | none => .fin 0
      | none => .fin 0
  | none =>
    match dget? g.V v with
    | some m' =>
      match dget? m' u with
      | some e => e.f
      | none => .fin 0
    | none => .fin 0

/-- `_has_zero_res_cap`, the BFS skip function used by `ford_fulkerson`. -/
def has_zero_res_cap (g : Digraph) (u v : String) : Bool :=
  res_cap g u v = EInt.fin 0

/-- The path-collection loop of `ford_fulkerson`: walk predecessor links from
`label`, collecting `(pg[vprop.pi.label].label, vprop.label)` pairs, i.e. the
path in reverse (sink-to-source) order exactly as Python builds it. -/
def collect_path (pg : List (String × Vertex_prop)) :
    Nat → String → Option (List (String × String))
  | 0, _ => none
  | n + 1, label =>
    match dget? pg label with
    | none => none
    | some vp =>
      match vp.pi with
      | none => some []
      | some p =>
        match collect_path pg n p with
        | none => none
        | some rest => some ((p, label) :: rest)

/-- The per-edge update of `ford_fulkerson`'s augmentation loop, updating the
residual structure G′ and the flow network `g` together. -/
def augment_edge (st : Digraph × Digraph) (cfp : EInt) (uv : String × String) :
    Digraph × Digraph :=
  let g := st.1
  let gp := st.2
  let u := uv.1
  let v := uv.2
  if g.has_edge u v then
    let newf := (match dget? gp.V u with
      | some m => match dget? m v with
        | some e => e.f.add cfp
        | none => EInt.fin 0
      | none => EInt.fin 0)
    let gp := Digraph.mk (dmod gp.V u (fun m => dmod m v (fun e => { e with f := newf })))
    let gp := Digraph.mk (dmod gp.V v (fun m => dmod m u (fun e => { e with c := newf })))
    let g := Digraph.mk (dmod g.V u (fun m => dmod m v
      (fun e => { e with f := e.f.add cfp })))
    (g, gp)
  else
    let newf := (match dget? gp.V v with
      | some m => match dget? m u with
        | some e => e.f.sub cfp
        | none => EInt.fin 0
      | none => EInt.fin 0)
    let gp := Digraph.mk (dmod gp.V v (fun m => dmod m u (fun e => { e with f := newf })))
    let gp := Digraph.mk (dmod gp.V u (fun m => dmod m v (fun e => { e with c := newf })))
    let g := Digraph.mk (dmod g.V v (fun m => dmod m u
      (fun e => { e with f := e.f.sub cfp })))
    (g, gp)

/-- The bottleneck computation: `cfp` starts at `float("inf")` and is lowered
to every strictly smaller residual capacity along the path. -/
def path_cfp (gp : Digraph) (path : List (String × String)) : EInt :=
  path.foldl
    (fun cfp uv =>
      let new_cfp := res_cap gp uv.1 uv.2
      if new_cfp.blt cfp then new_cfp else cfp)
    .inf

/-- The `while t in pg` loop of `ford_fulkerson` (fuel-indexed).  Each
iteration re-runs BFS over G′ (skipping zero-residual edges of `g`), extracts
the augmenting path, reverses it (as the Python code does before printing),
computes the bottleneck and pushes it along the path. -/
def ff_loop (s t : String) : Nat → Digraph → Digraph → Option (Digraph × Digraph)
  | 0, _, _ => none
  | n + 1, g, gp =>
    match gp.bfs s (has_zero_res_cap g) with
    | none => none
    | some pg =>
      if dmem pg t then
        match collect_path pg (pg.length + 1) t with
        | none => none
        | some path0 =>
          let path := path0.reverse
          let cfp := path_cfp gp path
          let st := path.foldl (fun st uv => augment_edge st cfp uv) (g, gp)
          ff_loop s t n st.1 st.2
      else some (g, gp)

/-- `ford_fulkerson`: build G′ and run the augmentation loop.  Python mutates
`g` in place; we return the flowed `g` (and drop G′). -/
def ford_fulkerson (fuel : Nat) (g : Digraph) (s t : String) : Option Digraph :=
  match ff_loop s t fuel g (optimize g) with
  | none => none
  | some st => some st.1

end Advogato

namespace Advogato

/-- The score-extraction comprehension (driver code of `advogato.py` /
`tb.print_top`): all `(u, edge.v, edge.vertex_id, edge.f)` tuples whose
`vertex_id` is set (Python truthiness of a non-empty value). -/
def score_edges (g : Digraph) : List (String × String × Option String × EInt) :=
  (g.V.map (fun p => p.2.filterMap (fun q =>
    match q.2.vertex_id with
    | some vid => some (p.1, q.2.v, some vid, q.2.f)
    | none => none))).flatten

/-- Stable insertion of a tuple into a list sorted by flow descending:
the element goes in front of the first strictly smaller flow, after all
greater-or-equal ones — the order `list.sort(reverse=True, key=flow)`
produces (Python's sort is stable). -/
def insertByFlow (x : String × String × Option String × EInt) :
    List (String × String × Option String × EInt) →
    List (String × String × Option String × EInt)
  | [] => [x]
  | y :: ys => if y.2.2.2.blt x.2.2.2 then x :: y :: ys else y :: insertByFlow x ys

/-- `edges.sort(reverse=True, key=lambda x: x[3])`: stable descending sort by
flow. -/
def sortByFlow (l : List (String × String × Option String × EInt)) :
    List (String × String × Option String × EInt) :=
  l.foldl (fun acc x => insertByFlow x acc) []

/-- The sorted score table produced by the driver code / `tb.print_top`. -/
def score_table (g : Digraph) : List (String × String × Option String × EInt) :=
  sortByFlow (score_edges g)

/-- The trust score of peer `vid`: the flow of the first score edge tagged
with `vertex_id = vid`. -/
def trustOf (g : Digraph) (vid : String) : Option EInt :=
  ((score_edges g).find? (fun x => x.2.2.1 = some vid)).map (fun x => x.2.2.2)

/-- The capacity table `CAPS` of `tb.py` (also `caps` in `advogato.py`),
keyed by BFS depth. -/
def CAPS : List (Int × Int) :=
  [(0, 500), (1, 200), (2, 60), (3, 30), (4, 10), (5, 3), (6, 1)]

/-- Lookup a depth in an integer-keyed capacity table
(`caps[vprop.d] if vprop.d in caps else 1`; an infinite `d` is not a key). -/
def capFor (caps : List (Int × Int)) (d : EInt) : EInt :=
  match d with
  | .fin n =>
    match caps.find? (fun p => p.1 = n) with
    | some p => .fin p.2
    | none => .fin 1
  | _ => .fin 1

/-- `vcaps = dict(zip(pg.keys(), [caps[vprop.d] if vprop.d in caps else 1
for vprop in pg.values()]))`. -/
def mkVcaps (caps : List (Int × Int)) (pg : List (String × Vertex_prop)) : VCaps :=
  pg.foldl (fun acc p => dset acc p.1 (capFor caps p.2.d)) []

/-- `tb.recompute_trust`: BFS-label depths from `"seed"`, build `vcaps` from
the `CAPS` table, transform to a flow network and run Ford-Fulkerson.
Returns the flowed network together with the (possibly antiparallel-fixed)
source graph; `none` = a loop ran out of fuel. -/
def recompute_trust (fuel : Nat) (h : Digraph) : Option (Digraph × Digraph) :=
  recompute_trust_with CAPS fuel h
where
  /-- The same pipeline over an arbitrary depth-capacity table. -/
  recompute_trust_with (caps : List (Int × Int)) (fuel : Nat) (h : Digraph) :
      Option (Digraph × Digraph) :=
    match h.bfs "seed" (fun _ _ => false) with
    | none => none
    | some pg =>
      let vcaps := mkVcaps caps pg
      let r := h.to_flow_net vcaps "seed" "supersink"
      match ford_fulkerson fuel r.2.2.1 r.2.2.2 "supersink" with
      | none => none
      | some g => some (g, r.1)

end Advogato

namespace FFVanilla

/-!
`ff_vanilla.py`.  Its `Digraph`, `Edge`, `bfs`, `_optimize` and `res_cap` are
textually the code of `advogato.py` specialised: `Edge` has no `vertex_id`
(our shared `Edge` with the tag left `none`), `bfs(g, s)` skips exactly the
edges of `g` with zero residual capacity, and `_optimize` builds the same G′.
`ford_fulkerson` differs from `advogato.py` in its reverse-edge branch: it
sets `g_prime.V[u][v].c = g_prime.V[u][v].f` (not `.V[v][u].f`) and then runs
`g.V[v][u] -= cfp`, which subtracts an `int` from an `Edge` object and raises
`TypeError`; we model reaching that branch as `none`.
-/

open Advogato (Digraph Edge Vertex_prop res_cap optimize collect_path path_cfp)

/-- `Digraph.add_edge` of `ff_vanilla.py` (`self.V[u][v] = Edge(v, c)`). -/
def add_edge (g : Digraph) (u v : String) (c : EInt) : Digraph :=
  g.add_edge u { v := v, c := c }

/-- `bfs(g, s)` of `ff_vanilla.py`: BFS over `g` skipping zero-residual
edges of `g` itself. -/
def bfs (g : Digraph) (s : String) : Option (List (String × Vertex_prop)) :=
  g.bfs s (fun u v => res_cap g u v = EInt.fin 0)

/-- The per-edge update of `ff_vanilla.py`'s augmentation loop.  The reverse
branch raises `TypeError` in Python (`g.V[v][u] -= cfp` on an `Edge`
object); it is modelled as `none`. -/
def augment_edge (st : Digraph × Digraph) (cfp : EInt) (uv : String × String) :
    Option (Digraph × Digraph) :=
  let g := st.1
  let gp := st.2
  let u := uv.1
  let v := uv.2
  if g.has_edge u v then
    let newf := (match dget? gp.V u with
      | some m => match dget? m v with
        | some e => e.f.add cfp
        | none => EInt.fin 0
      | none => EInt.fin 0)
    let gp := Advogato.Digraph.mk (dmod gp.V u (fun m => dmod m v (fun e => { e with f := newf })))
    let gp := Advogato.Digraph.mk (dmod gp.V v (fun m => dmod m u (fun e => { e with c := newf })))
    let g := Advogato.Digraph.mk (dmod g.V u (fun m => dmod m v
      (fun e => { e with f := e.f.add cfp })))
    some (g, gp)
  else none

/-- The augmentation loop body applied along the whole path (which
`ff_vanilla.py` leaves in sink-to-source order: it never reverses it). -/
def augment_path (st : Digraph × Digraph) (cfp : EInt) :
    List (String × String) → Option (Digraph × Digraph)
  | [] => some st
  | uv :: rest =>
    match augment_edge st cfp uv with
    | none => none
    | some st' => augment_path st' cfp rest

/-- The `while t in pg` loop of `ff_vanilla.py`'s `ford_fulkerson`. -/
def ff_loop (s t : String) : Nat → Digraph → Digraph → Option (Digraph × Digraph)
  | 0, _, _ => none
  | n + 1, g, gp =>
    match bfs gp s with
    | none => none
    | some pg =>
      if dmem pg t then
        match collect_path pg (pg.length + 1) t with
        | none => none
        | some path =>
          let cfp := path_cfp gp path
          match augment_path (g, gp) cfp path with
          | none => none
          | some st => ff_loop s t n st.1 st.2
      else some (g, gp)

/-- `ford_fulkerson` of `ff_vanilla.py`. -/
def ford_fulkerson (fuel : Nat) (g : Digraph) (s t : String) : Option Digraph :=
  match ff_loop s t fuel g (optimize g) with
  | none => none
  | some st => some st.1

/-- The driver network of `ff_vanilla.py` (CLRS's textbook example). -/
def flownet : Digraph :=
  let g : Digraph := ⟨[]⟩
  let g := add_edge g "s" "v1" (.fin 16)
  let g := add_edge g "s" "v2" (.fin 13)
  let g := add_edge g "v1" "v3" (.fin 12)
  let g := add_edge g "v2" "v1" (.fin 4)
  let g := add_edge g "v2" "v4" (.fin 14)
  let g := add_edge g "v3" "v2" (.fin 9)
  let g := add_edge g "v3" "t" (.fin 20)
  let g := add_edge g "v4" "v3" (.fin 7)
  let g := add_edge g "v4" "t" (.fin 4)
  g

/-- Total flow out of vertex `v` (sum of the `f` fields of its outedges,
finite components). -/
def outflow_of (g : Digraph) (v : String) : Int :=
  (((dget? g.V v).getD []).map (fun q =>
    match q.2.f with
    | .fin n => n
    | _ => 0)).sum

/-- Total flow into vertex `v`. -/
def inflow_of (g : Digraph) (v : String) : Int :=
  (g.V.map (fun p => (p.2.map (fun q =>
    if q.2.v = v then
      match q.2.f with
      | .fin n => n
      | _ => 0
    else 0)).sum)).sum

end FFVanilla

namespace Advogato

/-! ### Concrete scenario instances -/

/-- The S2 tiny trust tree: a seed certifying two leaf peers A and B. -/
def tinyH : Digraph :=
  let h : Digraph := ⟨[]⟩
  let h := h.add_vertex "seed"
  let h := h.add_edge "seed" { v := "A" }
  h.add_edge "seed" { v := "B" }

/-- The full compute-trust pipeline on the tiny tree with
`cap_table = {0: 3, 1: 2}` (fuel 20 is ample: the run performs 3
augmentations). -/
def tinyRun : Option (Digraph × Digraph) :=
  recompute_trust.recompute_trust_with [(0, 3), (1, 2)] 20 tinyH

/-- A freshly-built certification graph with an antiparallel pair:
seed certifies A, and A and B certify each other. -/
def apH : Digraph :=
  let h : Digraph := ⟨[]⟩
  let h := h.add_vertex "seed"
  let h := h.add_edge "seed" { v := "A" }
  let h := h.add_edge "A" { v := "B" }
  h.add_edge "B" { v := "A" }

/-- First run of `recompute_trust` on `apH`. -/
def apRun1 : Option (Digraph × Digraph) := recompute_trust 40 apH

/-- Second run of `recompute_trust`, on the source graph as mutated by the
first run (no caller mutation in between). -/
def apRun2 : Option (Digraph × Digraph) :=
  apRun1.bind (fun r => recompute_trust 40 r.2)

/-- `h` has no antiparallel edge pair (and hence no self-loop): no edge
`v -> u` has a reverse edge `u -> v`. -/
def NoAP (h : Digraph) : Prop :=
  ∀ p ∈ h.V, ∀ q ∈ p.2, h.has_edge q.1 p.1 = false

instance (h : Digraph) : Decidable (NoAP h) := by
  unfold NoAP; infer_instance

/-- A one-vertex certification graph (just the seed), used as a concrete
instance for theorems with hypotheses. -/
def seedH : Digraph := ⟨[("seed", [])]⟩

/-- The flowed network `recompute_trust` produces on `seedH`: the seed's
unit drain to the supersink is saturated and its capacity edge idle. -/
def seedFlowed : Digraph :=
  ⟨[("seed_IN",
      [("seed_OUT", { v := "seed_OUT", c := .fin 499, f := .fin 0, vertex_id := some "seed" }),
       ("supersink", { v := "supersink", c := .fin 1, f := .fin 1, vertex_id := none })]),
    ("seed_OUT", []),
    ("supersink", [])]⟩

/-- Forget all flow: the graph with every edge's `f` reset to 0 and
everything else (vertices, edges, capacities, tags, order) unchanged. -/
def eraseFlows (g : Digraph) : Digraph :=
  ⟨g.V.map (fun p => (p.1, p.2.map (fun q => (q.1, { q.2 with f := EInt.fin 0 }))))⟩

/-- The unflowed transformed network of the seed-only graph `seedH`. -/
def seedNet : Digraph := eraseFlows seedFlowed

/-- Edge lookup: the edge from `x` to `k` of `g`, if any (`g.V[x][k]`). -/
def elook (g : Digraph) (x k : String) : Option Edge :=
  dget? ((dget? g.V x).getD []) k

/-- Every edge of a (partially built) transformed network is a capacity
edge, a drain edge or a transport edge of some vertex `v` of the fixed
source graph `self'`. -/
def TfnShape (self' : Digraph) (vc' : VCaps) (sink : String)
    (ap : List String) (vs : List String) (g : Digraph) : Prop :=
  ∀ x k e, elook g x k = some e →
    (∃ v ∈ vs, x = v ++ "_IN" ∧ k = v ++ "_OUT" ∧ e = capEdgeOf vc' v) ∨
    (∃ v ∈ vs, ap.contains v = false ∧ x = v ++ "_IN" ∧ k = sink ∧
      e = drainEdgeOf sink) ∨
    (∃ v ∈ vs, ∃ w ∈ dkeys ((dget? self'.V v).getD []),
      x = v ++ "_OUT" ∧ k = w ++ "_IN" ∧ e = transportEdgeOf w)

/-- Well-formedness used by the antiparallel-fix proof: every vertex's
outedge dictionary has pairwise-distinct keys. -/
def InnerNodup (g : Digraph) : Prop :=
  ∀ p ∈ g.V, (dkeys p.2).Nodup

/-- The invariant of `_fix_antiparallel`'s processing, over the original
vertex list `orig` and the unprocessed suffix `rem`: every antiparallel
pair lies among unprocessed vertices; there are no self-loops; the
auxiliary label of every still-present original edge is unused; edge
targets are vertices; inner dictionaries are duplicate-free; original
vertices persist. -/
structure FixInv (orig rem : List String) (g : Digraph) : Prop where
  pairs_rem : ∀ a b, g.has_edge a b = true → g.has_edge b a = true →
    a ∈ rem ∧ b ∈ rem
  noself : ∀ a, g.has_edge a a = false
  fresh : ∀ i o, i ∈ orig → o ∈ orig → g.has_edge i o = true →
    apLabel i o ∉ dkeys g.V
  kclosed : ∀ a b, g.has_edge a b = true → b ∈ dkeys g.V
  innernodup : InnerNodup g
  origsub : ∀ a ∈ orig, a ∈ dkeys g.V

/-- Every edge entry is keyed by its target (true of every graph the
programs build). -/
def EdgeKeyed (g : Digraph) : Prop :=
  ∀ p ∈ g.V, ∀ q ∈ p.2, q.1 = q.2.v

instance (g : Digraph) : Decidable (EdgeKeyed g) := by
  unfold EdgeKeyed
  infer_instance

/-- Invariant of the BFS loop state: labels match keys; every non-white
vertex has a finite distance and either a predecessor or is the source;
every recorded predecessor is a non-white entry one distance step below,
reached over a real non-skipped edge. -/
def BInv (g : Digraph) (skip : String → String → Bool) (s : String)
    (vprops : List (String × Vertex_prop)) : Prop :=
  ∀ k vp, dget? vprops k = some vp →
    vp.label = k ∧
    (vp.color ≠ Color.white → (∃ n : Nat, vp.d = EInt.fin n) ∧
      (vp.pi ≠ none ∨ k = s)) ∧
    (∀ p, vp.pi = some p →
      ∃ pp, dget? vprops p = some pp ∧ pp.color ≠ Color.white ∧
        (∃ n : Nat, pp.d = EInt.fin n ∧ vp.d = EInt.fin (n + 1)) ∧
        skip p k = false ∧ g.has_edge p k = true)

/-- Queue entries denote non-white vertices present in `vprops`. -/
def QInv (vprops : List (String × Vertex_prop)) (q : List String) : Prop :=
  ∀ u ∈ q, ∃ up, dget? vprops u = some up ∧ up.color ≠ Color.white

/-- What `Digraph.bfs`'s output guarantees (the fragment the Ford-Fulkerson
proofs need): labels match keys, only the source lacks a predecessor, and
predecessor links decrease the (finite) distance by one along real
non-skipped edges. -/
def PgInv (g : Digraph) (skip : String → String → Bool) (s : String)
    (pg : List (String × Vertex_prop)) : Prop :=
  ∀ k vp, dget? pg k = some vp →
    vp.label = k ∧
    (vp.pi = none → k = s) ∧
    (∀ p, vp.pi = some p →
      ∃ pp, dget? pg p = some pp ∧
        (∃ n : Nat, pp.d = EInt.fin n ∧ vp.d = EInt.fin (n + 1)) ∧
        skip p k = false ∧ g.has_edge p k = true)

/-- The integer value of a finite `EInt`, `0` otherwise.  Used to sum
flows; the invariants established below keep every summed flow finite, so
the projection loses nothing on the runs it is applied to. -/
def toIntZ : EInt → Int
  | .fin n => n
  | _ => 0

/-- Total flow into `x`: the sum of the `f` fields of all edges of `g`
whose target field is `x`. -/
def inflow_int (g : Digraph) (x : String) : Int :=
  (g.V.map (fun p =>
    ((p.2.filter (fun q => q.2.v == x)).map (fun q => toIntZ q.2.f)).sum)).sum

/-- Total flow out of `x`: the sum of the `f` fields of all outedges of
`x` in `g`. -/
def outflow_int (g : Digraph) (x : String) : Int :=
  (g.V.map (fun p =>
    if p.1 == x then (p.2.map (fun q => toIntZ q.2.f)).sum else 0)).sum

/-- Every flow field of `g` is a finite integer. -/
def FinF (g : Digraph) : Prop := ∀ p ∈ g.V, ∀ q ∈ p.2, EInt.isFin q.2.f

instance (g : Digraph) : Decidable (FinF g) := by
  unfold FinF
  infer_instance

/-- Every flow field of `g` is zero (freshly built network). -/
def FZero (g : Digraph) : Prop := ∀ p ∈ g.V, ∀ q ∈ p.2, q.2.f = EInt.fin 0

instance (g : Digraph) : Decidable (FZero g) := by
  unfold FZero
  infer_instance

/-- Every capacity of `g` is a finite integer or the infinite sentinel
(never the negative sentinel). -/
def CFinOrInf (g : Digraph) : Prop :=
  ∀ p ∈ g.V, ∀ q ∈ p.2, EInt.isFin q.2.c ∨ q.2.c = EInt.inf

instance (g : Digraph) : Decidable (CFinOrInf g) := by
  unfold CFinOrInf
  infer_instance

/-- Every edge of `g` whose target field is `t` has finite capacity (in a
transformed network the only edges into the supersink are the unit
drains). -/
def TInFinV (g : Digraph) (t : String) : Prop :=
  ∀ p ∈ g.V, ∀ q ∈ p.2, q.2.v = t → EInt.isFin q.2.c

instance (g : Digraph) (t : String) : Decidable (TInFinV g t) := by
  unfold TInFinV
  infer_instance

/-- Every edge of `g` stored under key `t` has finite capacity (the
key-based variant, maintained for the fused residual structure). -/
def TInFinK (g : Digraph) (t : String) : Prop :=
  ∀ p ∈ g.V, ∀ q ∈ p.2, q.1 = t → EInt.isFin q.2.c

instance (g : Digraph) (t : String) : Decidable (TInFinK g t) := by
  unfold TInFinK
  infer_instance

/-- `t` has no outgoing edges in `g` (nothing ever leaves the supersink). -/
def TNoOut (g : Digraph) (t : String) : Prop :=
  ∀ m, dget? g.V t = some m → m = []

instance (g : Digraph) (t : String) : Decidable (TNoOut g t) :=
  match h : dget? g.V t with
  | none =>
    isTrue (by
      intro m hm
      rw [h] at hm
      cases hm)
  | some m =>
    if he : m = [] then
      isTrue (by
        intro m2 hm2
        rw [h] at hm2
        rw [← Option.some.inj hm2]
        exact he)
    else
      isFalse (fun hall => he (hall m h))

/-- A list of `(u, v)` pairs chains into a walk from `a` to `b`. -/
def IsWalk : String → List (String × String) → String → Prop
  | a, [], b => a = b
  | a, uv :: rest, b => a = uv.1 ∧ IsWalk uv.2 rest b

/-- The loop-state invariant of `ford_fulkerson`'s augmentation loop over
the pair (flow network `g`, fused residual structure G′), relative to the
original input `g0` and the supersink `t`: the edge structure of `g` never
changes, edge dictionaries stay keyed by target, all flows stay finite,
G′'s capacities stay non-negative-sentinel-free and finite on the edges
stored under the supersink key, and G′'s vertex keys stay distinct. -/
structure FFInv (g0 : Digraph) (t : String) (st : Digraph × Digraph) : Prop where
  hedge : ∀ x y, st.1.has_edge x y = g0.has_edge x y
  key1 : EdgeKeyed st.1
  fin1 : FinF st.1
  key2 : EdgeKeyed st.2
  fin2 : FinF st.2
  cfi2 : CFinOrInf st.2
  tfin2 : TInFinK st.2 t
  nd2 : (dkeys st.2.V).Nodup

/-- The stored edge from `u` to `v` (`g.V[u][v]`), if any. -/
def gE (g : Digraph) (u v : String) : Option Edge :=
  match dget? g.V u with
  | some m => dget? m v
  | none => none

/-- The synchronisation between the flow network `g` and the fused
residual structure G′ that `_optimize` establishes and the augmentation
loop maintains: every stored edge `u -> v` of `g` has a forward copy in G′
carrying the same capacity and flow, and a transposed copy `v -> u` whose
capacity is the edge's flow and whose own flow stays zero. -/
def Sync (g gp : Digraph) : Prop :=
  ∀ u v e, gE g u v = some e →
    gE gp u v = some { v := v, c := e.c, f := e.f } ∧
    gE gp v u = some { v := u, c := e.f, f := EInt.fin 0 }

/-- The capacity invariant: every flow is a non-negative integer no larger
than its edge's capacity (when that capacity is finite). -/
def I2 (g : Digraph) : Prop :=
  ∀ p ∈ g.V, ∀ q ∈ p.2, ∃ fv : Int, q.2.f = EInt.fin fv ∧ 0 ≤ fv ∧
    ∀ cv : Int, q.2.c = EInt.fin cv → fv ≤ cv

instance (g : Digraph) : Decidable (I2 g) := by
  have hd : ∀ (e : Edge), Decidable (∃ fv : Int, e.f = EInt.fin fv ∧
      0 ≤ fv ∧ ∀ cv : Int, e.c = EInt.fin cv → fv ≤ cv) := by
    intro e
    cases hf : e.f with
    | fin fv =>
      cases hc : e.c with
      | fin cv =>
        refine decidable_of_iff (0 ≤ fv ∧ fv ≤ cv) ⟨?_, ?_⟩
        · intro h
          exact ⟨fv, rfl, h.1, fun cv2 hcv2 =>
            (EInt.fin.inj hcv2) ▸ h.2⟩
        · intro h
          obtain ⟨fv2, hfv2, h0, hcb⟩ := h
          cases EInt.fin.inj hfv2
          exact ⟨h0, hcb cv rfl⟩
      | inf =>
        refine decidable_of_iff (0 ≤ fv) ⟨?_, ?_⟩
        · intro h
          exact ⟨fv, rfl, h, fun cv2 hcv2 => by cases hcv2⟩
        · intro h
          obtain ⟨fv2, hfv2, h0, _⟩ := h
          cases EInt.fin.inj hfv2
          exact h0
      | neg =>
        refine decidable_of_iff (0 ≤ fv) ⟨?_, ?_⟩
        · intro h
          exact ⟨fv, rfl, h, fun cv2 hcv2 => by cases hcv2⟩
        · intro h
          obtain ⟨fv2, hfv2, h0, _⟩ := h
          cases EInt.fin.inj hfv2
          exact h0
    | inf =>
      refine isFalse ?_
      intro h
      obtain ⟨fv, hfv, _, _⟩ := h
      cases hfv
    | neg =>
      refine isFalse ?_
      intro h
      obtain ⟨fv, hfv, _, _⟩ := h
      cases hfv
  haveI : DecidablePred (fun e : Edge => ∃ fv : Int, e.f = EInt.fin fv ∧
      0 ≤ fv ∧ ∀ cv : Int, e.c = EInt.fin cv → fv ≤ cv) := hd
  unfold I2
  infer_instance

/-- No antiparallel stored pair, phrased through `has_edge`. -/
def NAP (g : Digraph) : Prop :=
  ∀ u v, g.has_edge u v = true → g.has_edge v u = false

/-- The total capacity entering `t`. -/
def capIntoT (g : Digraph) (t : String) : Int :=
  (g.V.map (fun p =>
    ((p.2.filter (fun q => q.2.v == t)).map (fun q => toIntZ q.2.c)).sum)).sum

/-- The two `add_edge` calls `_optimize` performs for each stored edge of
one vertex, flattened into a list of (source, edge) pairs. -/
def edgeAdds (u : String) : List (String × Edge) → List (String × Edge)
  | [] => []
  | q :: rest =>
    (u, { v := q.2.v, c := q.2.c }) ::
      (q.2.v, { v := u, c := q.2.f }) :: edgeAdds u rest

/-- All `add_edge` calls of `_optimize`, flattened in execution order. -/
def optAdds : List (String × List (String × Edge)) → List (String × Edge)
  | [] => []
  | p :: rest => edgeAdds p.1 p.2 ++ optAdds rest

/-- The step function of `path_cfp`'s fold (named for the proofs). -/
def cfpStep (gp : Digraph) (cfp : EInt) (uv : String × String) : EInt :=
  let new_cfp := res_cap gp uv.1 uv.2
  if new_cfp.blt cfp then new_cfp else cfp

/-- A small concrete transformed network (seed certifying A, cap table
giving the seed capacity 3 and A capacity 2): used to witness the
conservation theorem on a run where flow actually crosses `A_IN`. -/
def c3net : Digraph :=
  ⟨[("seed_IN",
     [("seed_OUT", { v := "seed_OUT", c := .fin 2, vertex_id := some "seed" }),
      ("SUPERSINK", { v := "SUPERSINK", c := .fin 1 })]),
    ("seed_OUT", [("A_IN", { v := "A_IN", c := .inf })]),
    ("A_IN",
     [("A_OUT", { v := "A_OUT", c := .fin 1, vertex_id := some "A" }),
      ("SUPERSINK", { v := "SUPERSINK", c := .fin 1 })]),
    ("A_OUT", [])]⟩

/-- A path over non-skipped edges from `a` to `b`: the list holds the
successive vertices after `a`, so its length is the number of edges
traversed. -/
def EdgePath (g : Digraph) (skip : String → String → Bool) :
    String → List String → String → Prop
  | a, [], b => a = b
  | a, v :: rest, b =>
    skip a v = false ∧ g.has_edge a v = true ∧ EdgePath g skip v rest b

/-- The mid-loop invariant of `Digraph.bfs` used for the shortest-distance
theorem: the source is pinned at distance zero with no predecessor; white
entries carry no predecessor; every vertex of `g` is tracked; grey entries
are queued; every non-skipped edge out of a processed (black) vertex
reaches a discovered vertex at most one level deeper; and the queue splits
into a layer at distance `L` followed by a layer at `L + 1`, which also
bounds every assigned distance. -/
structure BfsInv (g : Digraph) (skip : String → String → Bool) (s : String)
    (vprops : List (String × Vertex_prop)) (q : List String) : Prop where
  src : ∃ sp, dget? vprops s = some sp ∧ sp.d = EInt.fin 0 ∧
    sp.pi = none ∧ sp.color ≠ Color.white
  white_pi : ∀ k vp, dget? vprops k = some vp → vp.color = Color.white →
    vp.pi = none
  keys : ∀ v, dmem g.V v = true → dmem vprops v = true
  grey_q : ∀ k vp, dget? vprops k = some vp → vp.color = Color.grey → k ∈ q
  black_edge : ∀ x xp, dget? vprops x = some xp → xp.color = Color.black →
    ∀ y, skip x y = false → g.has_edge x y = true →
      ∃ yp, dget? vprops y = some yp ∧ yp.color ≠ Color.white ∧
        ∀ dx dy : Int, xp.d = EInt.fin dx → yp.d = EInt.fin dy → dy ≤ dx + 1
  layer : ∃ (L : Int) (q1 q2 : List String), q = q1 ++ q2 ∧
    (∀ u ∈ q1, ∀ up, dget? vprops u = some up → up.d = EInt.fin L) ∧
    (∀ u ∈ q2, ∀ up, dget? vprops u = some up → up.d = EInt.fin (L + 1)) ∧
    (∀ k vp, dget? vprops k = some vp → vp.color ≠ Color.white →
      ∀ dk : Int, vp.d = EInt.fin dk → dk ≤ L + 1)

instance (g : Digraph) : Decidable (InnerNodup g) := by
  unfold InnerNodup
  infer_instance

/-- Every finite capacity of `g` is nonnegative (true of transformed
networks: capacity edges carry `CAPS[d] - 1 >= 0`, drains carry `1`, and
transport edges carry the infinite sentinel). -/
def CNonneg (g : Digraph) : Prop :=
  ∀ p ∈ g.V, ∀ q ∈ p.2, ∀ cv : Int, q.2.c = EInt.fin cv → 0 ≤ cv

instance (g : Digraph) : Decidable (CNonneg g) := by
  have hd : ∀ e : Edge, Decidable (∀ cv : Int, e.c = EInt.fin cv → 0 ≤ cv) := by
    intro e
    cases hc : e.c with
    | neg =>
      refine isTrue ?_
      intro cv h
      exact EInt.noConfusion h
    | inf =>
      refine isTrue ?_
      intro cv h
      exact EInt.noConfusion h
    | fin n =>
      by_cases hn : 0 ≤ n
      · refine isTrue ?_
        intro cv h
        rw [← EInt.fin.inj h]
        exact hn
      · refine isFalse ?_
        intro hall
        exact hn (hall n rfl)
  haveI : DecidablePred (fun e : Edge => ∀ cv : Int, e.c = EInt.fin cv → 0 ≤ cv) :=
    hd
  unfold CNonneg
  infer_instance

end Advogato

/-! ### Theorems -/

namespace Advogato

/-- A fold whose step fixes the initial state leaves it unchanged. -/
theorem foldl_fixed {α β : Type} (f : β → α → β) (b : β) (l : List α)
    (h : ∀ a ∈ l, f b a = b) : l.foldl f b = b := by
  induction l with
  | nil => rfl
  | cons x xs ih =>
    rw [List.foldl_cons, h x (List.mem_cons_self x xs)]
    exact ih (fun a ha => h a (List.mem_cons_of_mem x ha))

/-- A `dget?` hit exhibits a member of the association list. -/
theorem dget?_mem {α : Type} {m : List (String × α)} {k : String} {x : α}
    (h : dget? m k = some x) : (k, x) ∈ m := by
  induction m with
  | nil => simp [dget?] at h
  | cons p rest ih =>
    by_cases hk : p.1 = k
    · simp only [dget?, hk, if_pos] at h
      · cases p; simp_all
    · simp only [dget?] at h
      rw [if_neg hk] at h
      exact List.mem_cons_of_mem _ (ih h)

/-- On a graph without antiparallel pairs, `_fix_antiparallel` does
nothing. -/
theorem fix_antiparallel_noop (h : Digraph) (vc : VCaps) (hnoap : NoAP h) :
    h.fix_antiparallel vc = (h, vc, []) := by
  unfold Digraph.fix_antiparallel
  apply foldl_fixed
  intro v hv
  apply foldl_fixed
  intro u hu
  unfold fixStep
  simp only
  match hm : dget? h.V v with
  | none => simp [hm, dkeys] at hu
  | some m =>
    simp only [hm, Option.getD_some, dkeys, List.mem_map] at hu
    obtain ⟨q, hq, rfl⟩ := hu
    rw [hnoap (v, m) (dget?_mem hm) q hq]
    simp

/-- On a graph without antiparallel pairs, `to_flow_net` leaves the source
graph and the capacity table untouched. -/
theorem to_flow_net_fst (h : Digraph) (vc : VCaps) (s t : String) (hnoap : NoAP h) :
    (h.to_flow_net vc s t).1 = h ∧ (h.to_flow_net vc s t).2.1 = vc := by
  unfold Digraph.to_flow_net
  rw [fix_antiparallel_noop h vc hnoap]
  exact ⟨rfl, rfl⟩

end Advogato

namespace Advogato

set_option maxRecDepth 40000 in
/-- C1 (counterexample): on the tiny trust tree (seed with leaf children A
and B, `cap_table = {0: 3, 1: 2}`) the pipeline completes, but score
extraction does **not** report trust 1 for A and B: all flow reaching a leaf
drains through its unit edge to the supersink, so its tagged capacity edge
`v_IN -> v_OUT` carries no flow at all. -/
theorem tiny_tree_scores_ne_one :
    tinyRun.isSome = true ∧
      tinyRun.map (fun r => (trustOf r.1 "A", trustOf r.1 "B")) ≠
        some (some (.fin 1), some (.fin 1)) := by
  constructor
  · decide
  · decide

set_option maxRecDepth 40000 in
/-- C1 (amended): on the tiny trust tree the pipeline yields trust score 0
for A and 0 for B (and 2 for the seed, whose capacity edge carries the flow
forwarded to its children). -/
theorem tiny_tree_scores :
    tinyRun.map (fun r => (trustOf r.1 "A", trustOf r.1 "B", trustOf r.1 "seed")) =
      some (some (.fin 0), some (.fin 0), some (.fin 2)) := by
  decide

set_option maxRecDepth 40000 in
/-- C8 (counterexample): on the freshly-built graph `apH`, whose peers A and
B certify each other (an antiparallel pair), running `recompute_trust` twice
with no caller mutation in between yields different flowed graphs: the first
run's antiparallel fix assigns the auxiliary vertex infinite capacity, while
the second run re-labels it by BFS depth and caps it at `CAPS[3] - 1 = 29`. -/
theorem recompute_twice_differs :
    apRun1.isSome = true ∧ apRun2.isSome = true ∧
      apRun1.map Prod.fst ≠ apRun2.map Prod.fst := by
  refine ⟨by decide, by decide, by decide⟩

/-- Under `NoAP`, the source graph returned by `recompute_trust` is the
input graph itself (the antiparallel fix does not touch it). -/
theorem recompute_trust_snd (caps : List (Int × Int)) (fuel : Nat)
    (h : Digraph) (r : Digraph × Digraph) (hnoap : NoAP h)
    (hr : recompute_trust.recompute_trust_with caps fuel h = some r) :
    r.2 = h := by
  unfold recompute_trust.recompute_trust_with at hr
  cases hbfs : Digraph.bfs h "seed" (fun _ _ => false) with
  | none => rw [hbfs] at hr; exact absurd hr (by simp)
  | some pg =>
    rw [hbfs] at hr
    simp only at hr
    cases hff : ford_fulkerson fuel
        (h.to_flow_net (mkVcaps caps pg) "seed" "supersink").2.2.1
        (h.to_flow_net (mkVcaps caps pg) "seed" "supersink").2.2.2
        "supersink" with
    | none => rw [hff] at hr; exact absurd hr (by simp)
    | some g =>
      rw [hff] at hr
      have := (to_flow_net_fst h (mkVcaps caps pg) "seed" "supersink" hnoap).1
      cases hr
      exact this

/-- C8 (amended): on a freshly-built graph with no antiparallel edge pair,
running `recompute_trust` twice with no caller mutation in between yields
identical flowed graphs (and identical source graphs). -/
theorem recompute_twice_eq (h : Digraph) (fuel : Nat)
    (hnoap : NoAP h) (r1 r2 : Digraph × Digraph)
    (h1 : recompute_trust fuel h = some r1)
    (h2 : recompute_trust fuel r1.2 = some r2) : r2.1 = r1.1 ∧ r2.2 = r1.2 := by
  have hfix : r1.2 = h :=
    recompute_trust_snd CAPS fuel h r1 hnoap h1
  rw [hfix] at h2
  have : some r1 = some r2 := h1.symm.trans h2
  cases this
  exact ⟨rfl, rfl⟩

end Advogato

namespace FFVanilla

set_option maxRecDepth 100000 in
/-- C7: on the CLRS textbook network, `ff_vanilla.py`'s `ford_fulkerson`
runs to completion (in particular its `TypeError`-raising reverse-edge
branch, modelled as `none`, is never reached) and the resulting total flow
out of `s` — equivalently, into `t` — is 23. -/
theorem clrs_max_flow_23 :
    ((ford_fulkerson 20 flownet "s" "t").map (fun g => outflow_of g "s")) = some 23 ∧
      ((ford_fulkerson 20 flownet "s" "t").map (fun g => inflow_of g "t")) = some 23 := by
  refine ⟨by decide, by decide⟩

end FFVanilla

namespace Advogato

set_option maxRecDepth 40000 in
/-- Witness for C8 (amended): the hypotheses of `recompute_twice_eq` are
satisfiable — on the seed-only graph both runs return `(seedFlowed, seedH)`. -/
theorem recompute_twice_eq_witness :
    ((seedFlowed, seedH) : Digraph × Digraph).1 = (seedFlowed, seedH).1 ∧
      ((seedFlowed, seedH) : Digraph × Digraph).2 = (seedFlowed, seedH).2 :=
  recompute_twice_eq seedH 20 (by decide) (seedFlowed, seedH) (seedFlowed, seedH)
    (by decide) (by decide)

/-- C9: the compute-trust pipeline is a deterministic function of its input:
two invocations on the same certification graph (same vertices and edges in
the same insertion order) with the same depth-capacity table produce the same
score table, entry for entry and in the same order. -/
theorem score_table_deterministic (h1 h2 : Digraph) (caps : List (Int × Int))
    (fuel : Nat) (heq : h1 = h2) :
    (recompute_trust.recompute_trust_with caps fuel h1).map (fun r => score_table r.1) =
      (recompute_trust.recompute_trust_with caps fuel h2).map (fun r => score_table r.1) := by
  rw [heq]

/-- Witness for C9: instantiated on the tiny tree and its actual cap table. -/
theorem score_table_deterministic_witness :
    (recompute_trust.recompute_trust_with [(0, 3), (1, 2)] 20 tinyH).map
        (fun r => score_table r.1) =
      (recompute_trust.recompute_trust_with [(0, 3), (1, 2)] 20 tinyH).map
        (fun r => score_table r.1) :=
  score_table_deterministic tinyH tinyH [(0, 3), (1, 2)] 20 rfl

end Advogato

/-- Mapping a value-transformation over a `dmod` whose change the
transformation cannot see leaves the mapped list unchanged. -/
theorem map_dmod_invisible {α β : Type} (m : List (String × α)) (k : String)
    (f : α → α) (h : α → β) (hcomm : ∀ a, h (f a) = h a) :
    (dmod m k f).map (fun p => (p.1, h p.2)) = m.map (fun p => (p.1, h p.2)) := by
  induction m with
  | nil => rfl
  | cons p rest ih =>
    obtain ⟨k', w⟩ := p
    by_cases hk : k' = k
    · simp [dmod, hk, hcomm]
    · simp [dmod, hk, ih]

namespace Advogato

/-- Changing only the `f` field of one edge is invisible to flow erasure
(inner dictionary version). -/
theorem map_dmod_edge_f (m : List (String × Edge)) (v : String) (ff : EInt → EInt) :
    (dmod m v (fun e => { e with f := ff e.f })).map
        (fun q => (q.1, { q.2 with f := EInt.fin 0 })) =
      m.map (fun q => (q.1, { q.2 with f := EInt.fin 0 })) := by
  induction m with
  | nil => rfl
  | cons p rest ih =>
    obtain ⟨k', w⟩ := p
    by_cases hk : k' = v
    · simp [dmod, hk]
    · simp [dmod, hk, ih]

/-- Changing only the `f` field of one edge is invisible to `eraseFlows`. -/
theorem eraseFlows_dmod_f (V : List (String × List (String × Edge)))
    (u v : String) (ff : EInt → EInt) :
    eraseFlows ⟨dmod V u (fun m => dmod m v (fun e => { e with f := ff e.f }))⟩ =
      eraseFlows ⟨V⟩ := by
  unfold eraseFlows
  simp only [Digraph.mk.injEq]
  induction V with
  | nil => rfl
  | cons p rest ih =>
    obtain ⟨k', w⟩ := p
    by_cases hk : k' = u
    · subst hk
      simp [dmod, map_dmod_edge_f]
    · simp [dmod, hk, ih]

/-- One augmentation step changes only flow fields of the network `g`. -/
theorem eraseFlows_augment_edge (st : Digraph × Digraph) (cfp : EInt)
    (uv : String × String) :
    eraseFlows (augment_edge st cfp uv).1 = eraseFlows st.1 := by
  unfold augment_edge
  by_cases h : st.1.has_edge uv.1 uv.2 = true
  · simp only [h, if_true]
    exact eraseFlows_dmod_f st.1.V uv.1 uv.2 (fun x => x.add cfp)
  · simp only [h]
    simp only [Bool.false_eq_true, if_false]
    exact eraseFlows_dmod_f st.1.V uv.2 uv.1 (fun x => x.sub cfp)

/-- A whole augmentation pass changes only flow fields of the network. -/
theorem eraseFlows_augment_path (cfp : EInt) (path : List (String × String))
    (st : Digraph × Digraph) :
    eraseFlows (path.foldl (fun st uv => augment_edge st cfp uv) st).1 =
      eraseFlows st.1 := by
  induction path generalizing st with
  | nil => rfl
  | cons uv rest ih =>
    rw [List.foldl_cons, ih]
    exact eraseFlows_augment_edge st cfp uv

/-- The Ford-Fulkerson loop changes only flow fields of the network. -/
theorem eraseFlows_ff_loop (s t : String) (fuel : Nat) :
    ∀ g gp r, ff_loop s t fuel g gp = some r → eraseFlows r.1 = eraseFlows g := by
  induction fuel with
  | zero => intro g gp r h; exact absurd h (by simp [ff_loop])
  | succ n ih =>
    intro g gp r h
    unfold ff_loop at h
    cases hbfs : Digraph.bfs gp s (has_zero_res_cap g) with
    | none => rw [hbfs] at h; exact absurd h (by simp)
    | some pg =>
      rw [hbfs] at h
      simp only at h
      by_cases hmem : dmem pg t = true
      · rw [if_pos hmem] at h
        cases hcp : collect_path pg (pg.length + 1) t with
        | none => rw [hcp] at h; exact absurd h (by simp)
        | some path0 =>
          rw [hcp] at h
          simp only at h
          have := ih _ _ _ h
          rw [this]
          exact eraseFlows_augment_path _ _ _
      · rw [if_neg hmem] at h
        cases h
        rfl

/-- C10: `ford_fulkerson` mutates only the `f` (flow) fields of the input
network's edges: the vertex list, every edge (source, target, insertion
order), every capacity `c` and every `vertex_id` tag are identical before and
after the call — formally, the results agree after erasing all flow.  (The
fused residual structure it updates is the separate value built by
`optimize`, which is dropped.) -/
theorem ford_fulkerson_frame (fuel : Nat) (g : Digraph) (s t : String)
    (g' : Digraph) (h : ford_fulkerson fuel g s t = some g') :
    eraseFlows g' = eraseFlows g := by
  unfold ford_fulkerson at h
  cases hl : ff_loop s t fuel g (optimize g) with
  | none => rw [hl] at h; exact absurd h (by simp)
  | some st =>
    rw [hl] at h
    cases h
    exact eraseFlows_ff_loop s t fuel g (optimize g) st hl

set_option maxRecDepth 40000 in
/-- Witness for C10: on the seed-only transformed network the run completes
and indeed only flows changed. -/
theorem ford_fulkerson_frame_witness :
    eraseFlows seedFlowed = eraseFlows seedNet :=
  ford_fulkerson_frame 20 seedNet "seed_IN" "supersink" seedFlowed (by decide)

end Advogato

/-- `dget?` over an append: the left list wins. -/
theorem dget?_append {α : Type} (l l' : List (String × α)) (k : String) :
    dget? (l ++ l') k =
      match dget? l k with
      | some v => some v
      | none => dget? l' k := by
  induction l with
  | nil => simp [dget?]
  | cons p rest ih =>
    by_cases hk : p.1 = k
    · cases p; simp_all [dget?]
    · cases p; simp_all [dget?]

/-- `dget?` after `dset`. -/
theorem dget?_dset {α : Type} (m : List (String × α)) (key k : String) (v : α) :
    dget? (dset m key v) k = if key = k then some v else dget? m k := by
  induction m with
  | nil => simp [dset, dget?]
  | cons p rest ih =>
    obtain ⟨k', w⟩ := p
    by_cases h1 : k' = key
    · subst h1
      by_cases h2 : k' = k <;> simp [dset, dget?, h2]
    · by_cases h2 : k' = k
      · subst h2
        have : ¬ key = k' := fun h => h1 h.symm
        simp [dset, dget?, h1, this]
      · simp [dset, dget?, h1, h2, ih]

/-- `dget?` after `dmod`. -/
theorem dget?_dmod {α : Type} (m : List (String × α)) (key k : String) (f : α → α) :
    dget? (dmod m key f) k =
      if key = k then (dget? m k).map f else dget? m k := by
  induction m with
  | nil => simp [dmod, dget?]
  | cons p rest ih =>
    obtain ⟨k', w⟩ := p
    by_cases h1 : k' = key
    · subst h1
      by_cases h2 : k' = k <;> simp [dmod, dget?, h2]
    · by_cases h2 : k' = k
      · subst h2
        have : ¬ key = k' := fun h => h1 h.symm
        simp [dmod, dget?, h1, this]
      · simp [dmod, dget?, h1, h2, ih]

/-- `dget?` after `derase`. -/
theorem dget?_derase {α : Type} (m : List (String × α)) (key k : String)
    (hne : key ≠ k) : dget? (derase m key) k = dget? m k := by
  induction m with
  | nil => simp [derase]
  | cons p rest ih =>
    obtain ⟨k', w⟩ := p
    by_cases h1 : k' = key
    · subst h1
      have h2 : ¬ k' = k := fun h => hne (h ▸ rfl)
      simp [derase, dget?, h2]
    · by_cases h2 : k' = k
      · subst h2
        have h3 : ¬ k' = key := h1
        simp [derase, dget?, h3]
      · simp [derase, dget?, h1, h2, ih]

/-- `dmem` as a `dget?` fact: absence. -/
theorem dget?_none_of_dmem_false {α : Type} {m : List (String × α)} {k : String}
    (h : dmem m k = false) : dget? m k = none := by
  unfold dmem at h
  cases hg : dget? m k with
  | none => rfl
  | some v => rw [hg] at h; simp at h

/-- `dmem` as a `dget?` fact: presence. -/
theorem exists_of_dmem {α : Type} {m : List (String × α)} {k : String}
    (h : dmem m k = true) : ∃ v, dget? m k = some v := by
  unfold dmem at h
  cases hg : dget? m k with
  | none => rw [hg] at h; simp at h
  | some v => exact ⟨v, rfl⟩

namespace Advogato

/-- `dget?` on `add_edge`'s result, at the writing vertex `u`. -/
theorem dget?_add_edge_self (g : Digraph) (u : String) (e : Edge) :
    dget? (g.add_edge u e).V u = some (dset ((dget? g.V u).getD []) e.v e) := by
  unfold Digraph.add_edge
  simp only
  have hV1 : dget? (if dmem g.V u = true then g.V else g.V ++ [(u, [])]) u =
      some ((dget? g.V u).getD []) := by
    cases hb : dmem g.V u with
    | true =>
      obtain ⟨m, hm⟩ := exists_of_dmem hb
      simp [hm]
    | false =>
      have := dget?_none_of_dmem_false hb
      simp only [Bool.false_eq_true, if_false]
      rw [dget?_append, this]
      simp [dget?]
  have hV2 : dget? (dmod (if dmem g.V u = true then g.V else g.V ++ [(u, [])]) u
      (fun m => dset m e.v e)) u = some (dset ((dget? g.V u).getD []) e.v e) := by
    rw [dget?_dmod]
    simp [hV1]
  set V2 := dmod (if dmem g.V u = true then g.V else g.V ++ [(u, [])]) u
      (fun m => dset m e.v e) with hv2def
  cases hb2 : dmem V2 e.v with
  | true => simp only [if_true]; exact hV2
  | false =>
    simp only [Bool.false_eq_true, if_false]
    rw [dget?_append, hV2]

/-- `dget?` on `add_edge`'s result, away from the writing vertex. -/
theorem dget?_add_edge_ne (g : Digraph) (u : String) (e : Edge) (x : String)
    (hx : x ≠ u) :
    dget? (g.add_edge u e).V x = dget? g.V x ∨
      (x = e.v ∧ dget? g.V x = none ∧ dget? (g.add_edge u e).V x = some []) := by
  unfold Digraph.add_edge
  simp only
  have hux : ¬ u = x := fun h => hx h.symm
  have hV1 : dget? (if dmem g.V u = true then g.V else g.V ++ [(u, [])]) x =
      dget? g.V x := by
    cases hb : dmem g.V u with
    | true => simp
    | false =>
      simp only [Bool.false_eq_true, if_false]
      rw [dget?_append]
      have : dget? [(u, ([] : List (String × Edge)))] x = none := by
        simp [dget?, hux]
      rw [this]
      cases dget? g.V x <;> simp
  have hV2 : dget? (dmod (if dmem g.V u = true then g.V else g.V ++ [(u, [])]) u
      (fun m => dset m e.v e)) x = dget? g.V x := by
    rw [dget?_dmod]
    simp [hux, hV1]
  set V2 := dmod (if dmem g.V u = true then g.V else g.V ++ [(u, [])]) u
      (fun m => dset m e.v e) with hv2def
  cases hb2 : dmem V2 e.v with
  | true => left; simp only [if_true]; exact hV2
  | false =>
    by_cases hxe : x = e.v
    · right
      have hnone : dget? V2 e.v = none := dget?_none_of_dmem_false hb2
      rw [hxe] at hV2 ⊢
      refine ⟨rfl, ?_, ?_⟩
      · rw [← hV2]; exact hnone
      · simp only [Bool.false_eq_true, if_false]
        rw [dget?_append, hnone]
        simp [dget?]
    · left
      simp only [Bool.false_eq_true, if_false]
      rw [dget?_append, hV2]
      have hevx : ¬ e.v = x := fun h => hxe h.symm
      have : dget? [(e.v, ([] : List (String × Edge)))] x = none := by
        simp [dget?, hevx]
      rw [this]
      cases hgx : dget? g.V x <;> simp

/-- `elook` of the writing vertex after `add_edge`. -/
theorem elook_add_edge_self (g : Digraph) (u : String) (e : Edge) (k : String) :
    elook (g.add_edge u e) u k = if e.v = k then some e else elook g u k := by
  unfold elook
  rw [dget?_add_edge_self]
  simp only [Option.getD_some]
  rw [dget?_dset]

/-- `elook` of any other vertex after `add_edge`. -/
theorem elook_add_edge_ne (g : Digraph) (u : String) (e : Edge) (x k : String)
    (hx : x ≠ u) : elook (g.add_edge u e) x k = elook g x k := by
  unfold elook
  rcases dget?_add_edge_ne g u e x hx with h | ⟨hxe, hnone, hsome⟩
  · rw [h]
  · rw [hsome, hnone]
    rfl

end Advogato

/-- Strings with equal character data are equal. -/
theorem str_ext {s t : String} (h : s.data = t.data) : s = t := by
  cases s; cases t; simp only at h; rw [h]

/-- Appending `"_IN"` is injective. -/
theorem append_IN_inj {x y : String} (h : x ++ "_IN" = y ++ "_IN") : x = y := by
  have hd : x.data ++ "_IN".data = y.data ++ "_IN".data := by
    have := congrArg String.data h
    simpa using this
  exact str_ext (List.append_cancel_right hd)

/-- Appending `"_OUT"` is injective. -/
theorem append_OUT_inj {x y : String} (h : x ++ "_OUT" = y ++ "_OUT") : x = y := by
  have hd : x.data ++ "_OUT".data = y.data ++ "_OUT".data := by
    have := congrArg String.data h
    simpa using this
  exact str_ext (List.append_cancel_right hd)

/-- No `_IN`-labelled vertex is an `_OUT`-labelled vertex. -/
theorem append_IN_ne_OUT (x y : String) : x ++ "_IN" ≠ y ++ "_OUT" := by
  intro h
  have hd : x.data ++ "_IN".data = y.data ++ "_OUT".data := by
    have := congrArg String.data h
    simpa using this
  have hrev := congrArg List.reverse hd
  simp only [List.reverse_append] at hrev
  have h1 : "_IN".data.reverse = ['N', 'I', '_'] := by decide
  have h2 : "_OUT".data.reverse = ['T', 'U', 'O', '_'] := by decide
  rw [h1, h2] at hrev
  simp at hrev

namespace Advogato

/-- Case analysis for a lookup after `add_edge`: the edge is the new one or
was already there. -/
theorem elook_add_edge_cases {g : Digraph} {u : String} {e : Edge}
    {x k : String} {e' : Edge} (h : elook (g.add_edge u e) x k = some e') :
    (x = u ∧ k = e.v ∧ e' = e) ∨ elook g x k = some e' := by
  by_cases hx : x = u
  · subst hx
    rw [elook_add_edge_self] at h
    by_cases hk : e.v = k
    · rw [if_pos hk] at h
      cases h
      exact Or.inl ⟨rfl, hk.symm, rfl⟩
    · rw [if_neg hk] at h
      exact Or.inr h
  · rw [elook_add_edge_ne g u e x k hx] at h
    exact Or.inr h

/-- The transport loop of `tfn_step` writes only at the `v_OUT` vertex. -/
theorem elook_transport_fold (v : String) (ws : List String) (acc : Digraph)
    (x k : String) (hx : x ≠ v ++ "_OUT") :
    elook (ws.foldl (fun g u => g.add_edge (v ++ "_OUT") (transportEdgeOf u)) acc)
      x k = elook acc x k := by
  induction ws generalizing acc with
  | nil => rfl
  | cons w rest ih =>
    rw [List.foldl_cons, ih]
    exact elook_add_edge_ne acc _ _ x k hx

/-- `tfn_step` for `v` does not touch lookups at any other vertex's `_IN`
or `_OUT` label, nor at `v ++ "_IN"`-unrelated keys: precisely, it leaves
every lookup at a vertex label different from `v ++ "_IN"` and
`v ++ "_OUT"` unchanged. -/
theorem elook_tfn_step_ne (self' : Digraph) (vc' : VCaps) (sink : String)
    (ap : List String) (g : Digraph) (v : String) (x k : String)
    (hxin : x ≠ v ++ "_IN") (hxout : x ≠ v ++ "_OUT") :
    elook (tfn_step self' vc' sink ap g v) x k = elook g x k := by
  unfold tfn_step
  simp only
  rw [elook_transport_fold v _ _ x k hxout]
  by_cases hap : ap.contains v
  · rw [if_pos hap]
    exact elook_add_edge_ne g _ _ x k hxin
  · rw [if_neg hap]
    rw [elook_add_edge_ne _ _ _ x k hxin]
    exact elook_add_edge_ne g _ _ x k hxin

end Advogato

namespace Advogato

/-- After `tfn_step` for `v`, the `v_IN` dictionary holds exactly the
capacity edge (at key `v_OUT`) and, for non-auxiliary `v`, the drain edge
(at key `sink`), assuming `v_IN`'s dictionary was empty before and
`sink ≠ v_OUT`. -/
theorem elook_tfn_step_self (self' : Digraph) (vc' : VCaps) (sink : String)
    (ap : List String) (g : Digraph) (v : String)
    (hsink : sink ≠ v ++ "_OUT")
    (hpre : ∀ k, elook g (v ++ "_IN") k = none) :
    elook (tfn_step self' vc' sink ap g v) (v ++ "_IN") (v ++ "_OUT") =
        some (capEdgeOf vc' v) ∧
      (ap.contains v = false →
        elook (tfn_step self' vc' sink ap g v) (v ++ "_IN") sink =
          some (drainEdgeOf sink)) ∧
      (ap.contains v = true →
        elook (tfn_step self' vc' sink ap g v) (v ++ "_IN") sink = none) := by
  have hio : v ++ "_IN" ≠ v ++ "_OUT" := append_IN_ne_OUT v v
  unfold tfn_step
  simp only
  rw [elook_transport_fold v _ _ _ (v ++ "_OUT") hio,
      elook_transport_fold v _ _ _ sink hio]
  refine ⟨?_, ?_, ?_⟩
  · by_cases hap : ap.contains v
    · rw [if_pos hap, elook_add_edge_self]
      have : (capEdgeOf vc' v).v = v ++ "_OUT" := rfl
      rw [this]
      simp
    · rw [if_neg hap, elook_add_edge_self]
      have hd : (drainEdgeOf sink).v = sink := rfl
      rw [hd, if_neg hsink, elook_add_edge_self]
      have : (capEdgeOf vc' v).v = v ++ "_OUT" := rfl
      rw [this]
      simp
  · intro hap
    rw [hap]
    simp only [Bool.false_eq_true, if_false]
    rw [elook_add_edge_self]
    have hd : (drainEdgeOf sink).v = sink := rfl
    rw [hd]
    simp
  · intro hap
    rw [hap, if_pos rfl, elook_add_edge_self]
    have : (capEdgeOf vc' v).v = v ++ "_OUT" := rfl
    rw [this, if_neg (fun h => hsink h.symm), hpre]

/-- A `to_flow_net` fold over vertices none of which is `x`-related leaves
lookups at `x` unchanged. -/
theorem elook_tfn_fold_ne (self' : Digraph) (vc' : VCaps) (sink : String)
    (ap : List String) (l : List String) (acc : Digraph) (x k : String)
    (hx : ∀ u ∈ l, x ≠ u ++ "_IN" ∧ x ≠ u ++ "_OUT") :
    elook (l.foldl (tfn_step self' vc' sink ap) acc) x k = elook acc x k := by
  induction l generalizing acc with
  | nil => rfl
  | cons w ws ih =>
    rw [List.foldl_cons]
    rw [ih _ (fun u hu => hx u (List.mem_cons_of_mem w hu))]
    exact elook_tfn_step_ne self' vc' sink ap acc w x k
      (hx w (List.mem_cons_self w ws)).1 (hx w (List.mem_cons_self w ws)).2

/-- The main `to_flow_net` fold: each vertex's capacity and drain edges are
exactly as built, provided the keys are distinct and the supersink label
collides with no `v_OUT`. -/
theorem tfn_fold_lookup (self' : Digraph) (vc' : VCaps) (sink : String)
    (ap : List String) :
    ∀ (vs : List String) (acc : Digraph), vs.Nodup →
      (∀ v ∈ vs, sink ≠ v ++ "_OUT") →
      (∀ v ∈ vs, ∀ k, elook acc (v ++ "_IN") k = none) →
      ∀ v ∈ vs,
        elook (vs.foldl (tfn_step self' vc' sink ap) acc) (v ++ "_IN")
            (v ++ "_OUT") = some (capEdgeOf vc' v) ∧
          (ap.contains v = false →
            elook (vs.foldl (tfn_step self' vc' sink ap) acc) (v ++ "_IN") sink =
              some (drainEdgeOf sink)) ∧
          (ap.contains v = true →
            elook (vs.foldl (tfn_step self' vc' sink ap) acc) (v ++ "_IN") sink =
              none) := by
  intro vs
  induction vs with
  | nil => intro acc _ _ _ v hv; exact absurd hv (by simp)
  | cons v0 rest ih =>
    intro acc hnd hsink hpre v hv
    rw [List.foldl_cons]
    have hnd' : rest.Nodup := (List.nodup_cons.mp hnd).2
    have hv0 : v0 ∉ rest := (List.nodup_cons.mp hnd).1
    rcases List.mem_cons.mp hv with rfl | hvrest
    · have hne : ∀ u ∈ rest, v ++ "_IN" ≠ u ++ "_IN" ∧ v ++ "_IN" ≠ u ++ "_OUT" := by
        intro u hu
        constructor
        · intro h
          exact hv0 (append_IN_inj h ▸ hu)
        · exact append_IN_ne_OUT v u
      have hpres := fun k => elook_tfn_fold_ne self' vc' sink ap rest
        (tfn_step self' vc' sink ap acc v) (v ++ "_IN") k hne
      simp only [hpres]
      exact elook_tfn_step_self self' vc' sink ap acc v
        (hsink v (List.mem_cons_self v rest)) (hpre v (List.mem_cons_self v rest))
    · apply ih (tfn_step self' vc' sink ap acc v0) hnd'
        (fun u hu => hsink u (List.mem_cons_of_mem v0 hu))
        ?_ v hvrest
      intro w hw k
      rw [elook_tfn_step_ne self' vc' sink ap acc v0 (w ++ "_IN") k
        (fun h => hv0 (append_IN_inj h ▸ hw)) (append_IN_ne_OUT w v0)]
      exact hpre w (List.mem_cons_of_mem v0 hw) k

end Advogato

namespace Advogato

/-- The transport loop only adds transport edges of `v`. -/
theorem shape_transport_fold (self' : Digraph) (vc' : VCaps) (sink : String)
    (ap : List String) (vs : List String) (v : String) (hv : v ∈ vs) :
    ∀ (ws : List String), (∀ w ∈ ws, w ∈ dkeys ((dget? self'.V v).getD [])) →
      ∀ (acc : Digraph), TfnShape self' vc' sink ap vs acc →
      TfnShape self' vc' sink ap vs
        (ws.foldl (fun g u => g.add_edge (v ++ "_OUT") (transportEdgeOf u)) acc) := by
  intro ws
  induction ws with
  | nil => intro _ acc hacc; exact hacc
  | cons w rest ih =>
    intro hws acc hacc
    rw [List.foldl_cons]
    apply ih (fun u hu => hws u (List.mem_cons_of_mem w hu))
    intro x k e h
    rcases elook_add_edge_cases h with ⟨rfl, rfl, rfl⟩ | hold
    · exact Or.inr (Or.inr ⟨v, hv, w, hws w (List.mem_cons_self w rest), rfl, rfl, rfl⟩)
    · exact hacc x k e hold

/-- One `tfn_step` only adds edges of the three legal shapes. -/
theorem tfn_step_shape (self' : Digraph) (vc' : VCaps) (sink : String)
    (ap : List String) (vs : List String) (g : Digraph) (v : String)
    (hv : v ∈ vs) (hsh : TfnShape self' vc' sink ap vs g) :
    TfnShape self' vc' sink ap vs (tfn_step self' vc' sink ap g v) := by
  unfold tfn_step
  simp only
  apply shape_transport_fold self' vc' sink ap vs v hv _ (fun u hu => hu)
  by_cases hap : ap.contains v
  · rw [if_pos hap]
    intro x k e h
    rcases elook_add_edge_cases h with ⟨rfl, rfl, rfl⟩ | hold
    · exact Or.inl ⟨v, hv, rfl, rfl, rfl⟩
    · exact hsh x k e hold
  · rw [if_neg hap]
    intro x k e h
    rcases elook_add_edge_cases h with ⟨rfl, rfl, rfl⟩ | hold
    · exact Or.inr (Or.inl ⟨v, hv, Bool.eq_false_iff.mpr hap, rfl, rfl, rfl⟩)
    · rcases elook_add_edge_cases hold with ⟨rfl, rfl, rfl⟩ | hold2
      · exact Or.inl ⟨v, hv, rfl, rfl, rfl⟩
      · exact hsh x k e hold2

/-- The whole `to_flow_net` fold only builds edges of the three legal
shapes. -/
theorem tfn_fold_shape (self' : Digraph) (vc' : VCaps) (sink : String)
    (ap : List String) (vs : List String) :
    ∀ (l : List String), (∀ u ∈ l, u ∈ vs) →
      ∀ (acc : Digraph), TfnShape self' vc' sink ap vs acc →
      TfnShape self' vc' sink ap vs (l.foldl (tfn_step self' vc' sink ap) acc) := by
  intro l
  induction l with
  | nil => intro _ acc hacc; exact hacc
  | cons w rest ih =>
    intro hl acc hacc
    rw [List.foldl_cons]
    apply ih (fun u hu => hl u (List.mem_cons_of_mem w hu))
    exact tfn_step_shape self' vc' sink ap vs acc w (hl w (List.mem_cons_self w rest)) hacc

/-- The empty graph has the legal shape. -/
theorem tfn_shape_empty (self' : Digraph) (vc' : VCaps) (sink : String)
    (ap : List String) (vs : List String) :
    TfnShape self' vc' sink ap vs ⟨[]⟩ := by
  intro x k e h
  simp [elook, dget?] at h

/-- C2: for every vertex `v` of the antiparallel-fixed source graph (with
pairwise-distinct vertex keys and a supersink label that is no vertex's
`_OUT` label), `to_flow_net` builds exactly one capacity edge
`v_IN -> v_OUT` — capacity `vcaps[v] - 1` if `v` is a key of the (fixed)
`vcaps` and `0` otherwise, tagged `vertex_id = v`, and the only edge of the
network tagged with `v` —, exactly one unit drain edge `v_IN -> supersink`
when `v` is not auxiliary and none when it is; and it returns the relabeled
source `source_label ++ "_IN"`. -/
theorem to_flow_net_spec (g0 : Digraph) (vc0 : VCaps) (src sink : String)
    (hnd : (dkeys (g0.fix_antiparallel vc0).1.V).Nodup)
    (hsink : ∀ v ∈ dkeys (g0.fix_antiparallel vc0).1.V, sink ≠ v ++ "_OUT") :
    (∀ v ∈ dkeys (g0.fix_antiparallel vc0).1.V,
      elook (g0.to_flow_net vc0 src sink).2.2.1 (v ++ "_IN") (v ++ "_OUT") =
          some (capEdgeOf (g0.fix_antiparallel vc0).2.1 v) ∧
        ((g0.fix_antiparallel vc0).2.2.contains v = false →
          elook (g0.to_flow_net vc0 src sink).2.2.1 (v ++ "_IN") sink =
            some (drainEdgeOf sink)) ∧
        ((g0.fix_antiparallel vc0).2.2.contains v = true →
          elook (g0.to_flow_net vc0 src sink).2.2.1 (v ++ "_IN") sink = none) ∧
        (∀ x k e, elook (g0.to_flow_net vc0 src sink).2.2.1 x k = some e →
          e.vertex_id = some v →
          x = v ++ "_IN" ∧ k = v ++ "_OUT" ∧
            e = capEdgeOf (g0.fix_antiparallel vc0).2.1 v)) ∧
      (g0.to_flow_net vc0 src sink).2.2.2 = src ++ "_IN" := by
  constructor
  · intro v hv
    have hnet : (g0.to_flow_net vc0 src sink).2.2.1 =
        (dkeys (g0.fix_antiparallel vc0).1.V).foldl
          (tfn_step (g0.fix_antiparallel vc0).1 (g0.fix_antiparallel vc0).2.1
            sink (g0.fix_antiparallel vc0).2.2) ⟨[]⟩ := rfl
    have hlook := tfn_fold_lookup (g0.fix_antiparallel vc0).1
      (g0.fix_antiparallel vc0).2.1 sink (g0.fix_antiparallel vc0).2.2
      (dkeys (g0.fix_antiparallel vc0).1.V) ⟨[]⟩ hnd hsink
      (fun _ _ k => by simp [elook, dget?]) v hv
    have hshape := tfn_fold_shape (g0.fix_antiparallel vc0).1
      (g0.fix_antiparallel vc0).2.1 sink (g0.fix_antiparallel vc0).2.2
      (dkeys (g0.fix_antiparallel vc0).1.V) (dkeys (g0.fix_antiparallel vc0).1.V)
      (fun _ hu => hu) ⟨[]⟩
      (tfn_shape_empty _ _ _ _ _)
    rw [hnet]
    refine ⟨hlook.1, hlook.2.1, hlook.2.2, ?_⟩
    intro x k e h htag
    rcases hshape x k e h with ⟨v', _, rfl, rfl, rfl⟩ | ⟨v', _, _, _, _, rfl⟩ |
        ⟨v', _, w, _, _, _, rfl⟩
    · have : v' = v := by
        have : (capEdgeOf (g0.fix_antiparallel vc0).2.1 v').vertex_id = some v' := rfl
        rw [this] at htag
        exact Option.some.inj htag
      subst this
      exact ⟨rfl, rfl, rfl⟩
    · exact absurd htag (by simp [drainEdgeOf])
    · exact absurd htag (by simp [transportEdgeOf])
  · rfl

end Advogato

namespace Advogato

/-- Witness for C2: instantiated on the tiny tree with its capacity table. -/
theorem to_flow_net_spec_witness :
    (dkeys (tinyH.fix_antiparallel
        [("seed", .fin 3), ("A", .fin 2), ("B", .fin 2)]).1.V).Nodup ∧
      (∀ v ∈ dkeys (tinyH.fix_antiparallel
          [("seed", .fin 3), ("A", .fin 2), ("B", .fin 2)]).1.V,
        "supersink" ≠ v ++ "_OUT") ∧
      ((∀ v ∈ dkeys (tinyH.fix_antiparallel
          [("seed", .fin 3), ("A", .fin 2), ("B", .fin 2)]).1.V,
        elook (tinyH.to_flow_net [("seed", .fin 3), ("A", .fin 2), ("B", .fin 2)]
              "seed" "supersink").2.2.1 (v ++ "_IN") (v ++ "_OUT") =
            some (capEdgeOf (tinyH.fix_antiparallel
              [("seed", .fin 3), ("A", .fin 2), ("B", .fin 2)]).2.1 v) ∧
          ((tinyH.fix_antiparallel
              [("seed", .fin 3), ("A", .fin 2), ("B", .fin 2)]).2.2.contains v = false →
            elook (tinyH.to_flow_net [("seed", .fin 3), ("A", .fin 2), ("B", .fin 2)]
                "seed" "supersink").2.2.1 (v ++ "_IN") "supersink" =
              some (drainEdgeOf "supersink")) ∧
          ((tinyH.fix_antiparallel
              [("seed", .fin 3), ("A", .fin 2), ("B", .fin 2)]).2.2.contains v = true →
            elook (tinyH.to_flow_net [("seed", .fin 3), ("A", .fin 2), ("B", .fin 2)]
                "seed" "supersink").2.2.1 (v ++ "_IN") "supersink" = none) ∧
          (∀ x k e, elook (tinyH.to_flow_net
                [("seed", .fin 3), ("A", .fin 2), ("B", .fin 2)]
                "seed" "supersink").2.2.1 x k = some e →
            e.vertex_id = some v →
            x = v ++ "_IN" ∧ k = v ++ "_OUT" ∧
              e = capEdgeOf (tinyH.fix_antiparallel
                [("seed", .fin 3), ("A", .fin 2), ("B", .fin 2)]).2.1 v)) ∧
        (tinyH.to_flow_net [("seed", .fin 3), ("A", .fin 2), ("B", .fin 2)]
          "seed" "supersink").2.2.2 = "seed" ++ "_IN") :=
  ⟨by decide, by decide,
    to_flow_net_spec tinyH [("seed", .fin 3), ("A", .fin 2), ("B", .fin 2)]
      "seed" "supersink" (by decide) (by decide)⟩

end Advogato

namespace Advogato

/-- `has_edge` is `elook` presence. -/
theorem has_edge_iff_elook (g : Digraph) (u v : String) :
    g.has_edge u v = (elook g u v).isSome := by
  unfold Digraph.has_edge elook dmem
  cases dget? g.V u <;> simp [dget?]

/-- C4 (flow-network part): under the label hygiene the callers observe
(the supersink label is no `v_IN`/`v_OUT` label, and the fixed source graph
has no self-loop), no two vertices of the returned flow network are joined
by edges in both directions. -/
theorem to_flow_net_no_antiparallel (g0 : Digraph) (vc0 : VCaps)
    (src sink : String)
    (hsink_out : ∀ v ∈ dkeys (g0.fix_antiparallel vc0).1.V, sink ≠ v ++ "_OUT")
    (hsink_in : ∀ v ∈ dkeys (g0.fix_antiparallel vc0).1.V, sink ≠ v ++ "_IN")
    (hloop : ∀ v ∈ dkeys (g0.fix_antiparallel vc0).1.V,
      v ∉ dkeys ((dget? (g0.fix_antiparallel vc0).1.V v).getD [])) :
    ∀ u v, ¬((g0.to_flow_net vc0 src sink).2.2.1.has_edge u v = true ∧
      (g0.to_flow_net vc0 src sink).2.2.1.has_edge v u = true) := by
  intro u v ⟨huv, hvu⟩
  have hshape := tfn_fold_shape (g0.fix_antiparallel vc0).1
    (g0.fix_antiparallel vc0).2.1 sink (g0.fix_antiparallel vc0).2.2
    (dkeys (g0.fix_antiparallel vc0).1.V) (dkeys (g0.fix_antiparallel vc0).1.V)
    (fun _ hu => hu) ⟨[]⟩
    (tfn_shape_empty _ _ _ _ _)
  have hnet : (g0.to_flow_net vc0 src sink).2.2.1 =
      (dkeys (g0.fix_antiparallel vc0).1.V).foldl
        (tfn_step (g0.fix_antiparallel vc0).1 (g0.fix_antiparallel vc0).2.1
          sink (g0.fix_antiparallel vc0).2.2) ⟨[]⟩ := rfl
  rw [hnet, has_edge_iff_elook] at huv hvu
  obtain ⟨e1, he1⟩ := Option.isSome_iff_exists.mp huv
  obtain ⟨e2, he2⟩ := Option.isSome_iff_exists.mp hvu
  rcases hshape u v e1 he1 with ⟨a, ha, hx1, hk1, _⟩ | ⟨a, ha, _, hx1, hk1, _⟩ |
      ⟨a, ha, w, hw, hx1, hk1, _⟩ <;>
    rcases hshape v u e2 he2 with ⟨b, hb, hx2, hk2, _⟩ | ⟨b, hb, _, hx2, hk2, _⟩ |
      ⟨b, hb, w', hw', hx2, hk2, _⟩
  · exact append_IN_ne_OUT b a (hx2.symm.trans hk1)
  · exact hsink_in a ha (hk2.symm.trans hx1)
  · have hab : b = a := append_OUT_inj (hx2.symm.trans hk1)
    have haw : w' = a := append_IN_inj (hk2.symm.trans hx1)
    rw [hab, haw] at hw'
    exact hloop a ha hw'
  · exact hsink_in b hb (hk1.symm.trans hx2)
  · exact hsink_in b hb (hk1.symm.trans hx2)
  · exact hsink_out b hb (hk1.symm.trans hx2)
  · have hab : b = a := append_OUT_inj (hk2.symm.trans hx1)
    have hbw : b = w := append_IN_inj (hx2.symm.trans hk1)
    have hwa : w = a := by rw [← hbw, hab]
    rw [hwa] at hw
    exact hloop a ha hw
  · exact hsink_out a ha (hk2.symm.trans hx1)
  · exact append_IN_ne_OUT w b (hk1.symm.trans hx2)

end Advogato

/-- Membership in the key list is `dget?`-success. -/
theorem mem_dkeys_iff_dget? {α : Type} (m : List (String × α)) (k : String) :
    k ∈ dkeys m ↔ (dget? m k).isSome := by
  induction m with
  | nil => simp [dkeys, dget?]
  | cons p rest ih =>
    obtain ⟨k', w⟩ := p
    by_cases hk : k' = k
    · subst hk
      simp [dkeys, dget?]
    · have hk' : ¬ k = k' := fun h => hk h.symm
      simp only [dkeys, List.map_cons, List.mem_cons, dget?, if_neg hk]
      simp only [dkeys] at ih
      simp [hk', ih]

/-- Keys of `dset`. -/
theorem dkeys_dset {α : Type} (m : List (String × α)) (k : String) (v : α) :
    dkeys (dset m k v) = if k ∈ dkeys m then dkeys m else dkeys m ++ [k] := by
  induction m with
  | nil => simp [dset, dkeys]
  | cons p rest ih =>
    obtain ⟨k', w⟩ := p
    by_cases hk : k' = k
    · subst hk
      simp [dset, dkeys]
    · have hkp : ¬ k = k' := fun h => hk h.symm
      have hcond : (k ∈ dkeys ((k', w) :: rest)) ↔ k ∈ dkeys rest := by
        simp [dkeys, hkp]
      by_cases hmem : k ∈ dkeys rest
      · rw [if_pos (hcond.mpr hmem)]
        rw [if_pos hmem] at ih
        simp only [dset, if_neg hk, dkeys, List.map_cons]
        simp only [dkeys] at ih
        rw [ih]
      · rw [if_neg (fun h => hmem (hcond.mp h))]
        rw [if_neg hmem] at ih
        simp only [dset, if_neg hk, dkeys, List.map_cons]
        simp only [dkeys] at ih
        rw [ih]
        rfl

/-- `dset` preserves key distinctness. -/
theorem nodup_dkeys_dset {α : Type} (m : List (String × α)) (k : String) (v : α)
    (h : (dkeys m).Nodup) : (dkeys (dset m k v)).Nodup := by
  rw [dkeys_dset]
  by_cases hmem : k ∈ dkeys m
  · simp [hmem, h]
  · simp only [hmem, if_false]
    rw [List.nodup_append]
    exact ⟨h, List.nodup_singleton k, by simp [hmem]⟩

/-- Keys of `derase` form a sublist. -/
theorem dkeys_derase_sublist {α : Type} (m : List (String × α)) (k : String) :
    (dkeys (derase m k)).Sublist (dkeys m) := by
  induction m with
  | nil => simp [derase]
  | cons p rest ih =>
    by_cases hk : p.1 = k
    · subst hk
      simp [derase, dkeys]
    · simp only [derase, hk, if_neg, dkeys, List.map_cons]
      exact List.Sublist.cons₂ _ ih

/-- `derase` preserves key distinctness. -/
theorem nodup_dkeys_derase {α : Type} (m : List (String × α)) (k : String)
    (h : (dkeys m).Nodup) : (dkeys (derase m k)).Nodup :=
  (dkeys_derase_sublist m k).nodup h

/-- After `derase` on a duplicate-free dictionary, the key is gone. -/
theorem dget?_derase_self {α : Type} (m : List (String × α)) (k : String)
    (h : (dkeys m).Nodup) : dget? (derase m k) k = none := by
  induction m with
  | nil => rfl
  | cons p rest ih =>
    obtain ⟨k', w⟩ := p
    simp only [dkeys, List.map_cons, List.nodup_cons] at h
    by_cases hk : k' = k
    · subst hk
      simp only [derase, if_pos]
      cases hg : dget? rest k' with
      | none => rfl
      | some w2 =>
        exact absurd ((mem_dkeys_iff_dget? rest k').mpr (by simp [hg])) h.1
    · simp only [derase, if_neg hk, dget?]
      exact ih h.2

namespace Advogato

/-- `has_edge` after `add_edge`. -/
theorem has_edge_add_edge (g : Digraph) (u : String) (e : Edge) (a b : String) :
    (g.add_edge u e).has_edge a b = true ↔
      (a = u ∧ b = e.v) ∨ g.has_edge a b = true := by
  rw [has_edge_iff_elook, has_edge_iff_elook]
  by_cases ha : a = u
  · subst ha
    rw [elook_add_edge_self]
    by_cases hb : e.v = b
    · subst hb
      simp
    · rw [if_neg hb]
      constructor
      · exact fun h => Or.inr h
      · rintro (⟨-, hbe⟩ | h)
        · exact absurd hbe.symm hb
        · exact h
  · rw [elook_add_edge_ne g u e a b ha]
    simp [ha]

/-- `elook` after `del_edge`, away from the deleted slot. -/
theorem elook_del_edge_ne (g : Digraph) (u v x k : String)
    (h : ¬(x = u ∧ k = v)) : elook (g.del_edge u v) x k = elook g x k := by
  unfold Digraph.del_edge elook
  rw [dget?_dmod]
  by_cases hx : u = x
  · subst hx
    rw [if_pos rfl]
    cases hg : dget? g.V u with
    | none => simp
    | some m =>
      simp only [Option.map_some, Option.getD_some]
      have hkv : v ≠ k := fun hh => h ⟨rfl, hh.symm⟩
      exact dget?_derase m v k hkv
  · rw [if_neg hx]

/-- `elook` after `del_edge`, at the deleted slot (needs distinct inner
keys). -/
theorem elook_del_edge_self (g : Digraph) (u v : String)
    (hwf : InnerNodup g) : elook (g.del_edge u v) u v = none := by
  unfold Digraph.del_edge elook
  rw [dget?_dmod, if_pos rfl]
  cases hg : dget? g.V u with
  | none => simp [dget?]
  | some m =>
    have he : (Option.map (fun m => derase m v) (some m)).getD ([] : List (String × Edge)) =
        derase m v := rfl
    rw [he]
    exact dget?_derase_self m v (hwf (u, m) (dget?_mem hg))

/-- `has_edge` after `del_edge`, other positions. -/
theorem has_edge_del_edge_ne (g : Digraph) (u v a b : String)
    (h : ¬(a = u ∧ b = v)) :
    (g.del_edge u v).has_edge a b = g.has_edge a b := by
  rw [has_edge_iff_elook, has_edge_iff_elook, elook_del_edge_ne g u v a b h]

/-- `has_edge` after `del_edge`, deleted position (needs distinct inner
keys). -/
theorem has_edge_del_edge_self (g : Digraph) (u v : String)
    (hwf : InnerNodup g) : (g.del_edge u v).has_edge u v = false := by
  rw [has_edge_iff_elook, elook_del_edge_self g u v hwf]
  rfl

/-- `del_edge` only removes. -/
theorem has_edge_del_edge_mono (g : Digraph) (u v a b : String)
    (h : (g.del_edge u v).has_edge a b = true) : g.has_edge a b = true := by
  by_cases hab : a = u ∧ b = v
  · obtain ⟨rfl, rfl⟩ := hab
    rw [has_edge_iff_elook] at h ⊢
    unfold Digraph.del_edge elook at h
    simp only at h
    rw [dget?_dmod, if_pos rfl] at h
    unfold elook
    cases hg : dget? g.V a with
    | none => rw [hg] at h; simp [dget?] at h
    | some m =>
      rw [hg] at h
      have he : (Option.map (fun m => derase m b) (some m)).getD ([] : List (String × Edge)) =
          derase m b := rfl
      rw [he] at h
      have he2 : (some m).getD ([] : List (String × Edge)) = m := rfl
      rw [he2]
      rw [← mem_dkeys_iff_dget?] at h ⊢
      exact (dkeys_derase_sublist m b).mem h
  · rw [has_edge_del_edge_ne g u v a b hab] at h
    exact h

/-- A source of an edge is a vertex. -/
theorem has_edge_src_mem (g : Digraph) (a b : String)
    (h : g.has_edge a b = true) : a ∈ dkeys g.V := by
  unfold Digraph.has_edge at h
  rw [mem_dkeys_iff_dget?]
  cases hg : dget? g.V a with
  | none => rw [hg] at h; simp at h
  | some m => simp

/-- Keys only grow under `add_edge`. -/
theorem dkeys_add_edge_mem (g : Digraph) (u : String) (e : Edge) (x : String)
    (h : x ∈ dkeys g.V) : x ∈ dkeys (g.add_edge u e).V := by
  rw [mem_dkeys_iff_dget?] at h ⊢
  obtain ⟨m, hm⟩ := Option.isSome_iff_exists.mp h
  by_cases hx : x = u
  · subst hx
    rw [dget?_add_edge_self]
    simp
  · rcases dget?_add_edge_ne g u e x hx with he | ⟨_, _, he⟩ <;> simp [he, hm]
  

/-- Keys only grow under `del_edge` (they are in fact unchanged). -/
theorem dkeys_del_edge (g : Digraph) (u v : String) :
    dkeys (g.del_edge u v).V = dkeys g.V := by
  unfold Digraph.del_edge
  simp only
  induction g.V with
  | nil => rfl
  | cons p rest ih =>
    by_cases hp : p.1 = u
    · cases p; simp_all [dmod, dkeys]
    · cases p; simp_all [dmod, dkeys]

/-- The written vertex and target are keys after `add_edge`. -/
theorem mem_dkeys_add_edge_self (g : Digraph) (u : String) (e : Edge) :
    u ∈ dkeys (g.add_edge u e).V ∧ e.v ∈ dkeys (g.add_edge u e).V := by
  constructor
  · rw [mem_dkeys_iff_dget?, dget?_add_edge_self]
    rfl
  · by_cases hv : e.v = u
    · rw [hv, mem_dkeys_iff_dget?, dget?_add_edge_self]
      rfl
    · rw [mem_dkeys_iff_dget?]
      rcases dget?_add_edge_ne g u e e.v hv with he | ⟨_, _, he⟩
      · rw [he]
        by_cases hmem : e.v ∈ dkeys g.V
        · rw [mem_dkeys_iff_dget?] at hmem
          exact hmem
        · exfalso
          -- if `e.v` was absent, `add_edge` appends an empty entry, so the
          -- lookup cannot coincide with the old (failed) one unless it
          -- succeeds; derive the contradiction from the construction
          have : dget? (g.add_edge u e).V e.v = dget? g.V e.v := he
          unfold Digraph.add_edge at this
          simp only at this
          set V2 := dmod (if dmem g.V u = true then g.V else g.V ++ [(u, [])]) u
              (fun m => dset m e.v e) with hv2
          by_cases hb : dmem V2 e.v = true
          · obtain ⟨m, hm⟩ := exists_of_dmem hb
            have hnone : dget? g.V e.v = none := by
              rw [mem_dkeys_iff_dget?] at hmem
              cases hgg : dget? g.V e.v with
              | none => rfl
              | some w => rw [hgg] at hmem; simp at hmem
            rw [if_pos hb] at this
            rw [hm, hnone] at this
            exact Option.noConfusion this
          · rw [if_neg (by simp [hb])] at this
            have hnone2 : dget? V2 e.v = none := dget?_none_of_dmem_false
              (Bool.eq_false_iff.mpr (fun hh => hb hh))
            rw [dget?_append, hnone2] at this
            simp only [dget?, if_pos rfl] at this
            have hnone : dget? g.V e.v = none := by
              rw [mem_dkeys_iff_dget?] at hmem
              cases hgg : dget? g.V e.v with
              | none => rfl
              | some w => rw [hgg] at hmem; simp at hmem
            rw [hnone] at this
            exact Option.noConfusion this
      · rw [he]
        simp

end Advogato

/-- Members of `dmod` come from the original list, possibly transformed at
the modified key. -/
theorem mem_dmod {α : Type} {m : List (String × α)} {k : String} {f : α → α}
    {p : String × α} (h : p ∈ dmod m k f) :
    p ∈ m ∨ ∃ w, (k, w) ∈ m ∧ p = (k, f w) := by
  induction m with
  | nil => simp [dmod] at h
  | cons q rest ih =>
    obtain ⟨k', w'⟩ := q
    by_cases hk : k' = k
    · subst hk
      simp only [dmod, if_pos rfl] at h
      rcases List.mem_cons.mp h with rfl | hmem
      · exact Or.inr ⟨w', List.mem_cons_self _ _, rfl⟩
      · exact Or.inl (List.mem_cons_of_mem _ hmem)
    · simp only [dmod, if_neg hk] at h
      rcases List.mem_cons.mp h with rfl | hmem
      · exact Or.inl (List.mem_cons_self _ _)
      · rcases ih hmem with hm | ⟨w, hw, rfl⟩
        · exact Or.inl (List.mem_cons_of_mem _ hm)
        · exact Or.inr ⟨w, List.mem_cons_of_mem _ hw, rfl⟩

namespace Advogato

/-- Inner dictionaries of `add_edge`'s vertex table: an old dictionary,
an upsert of an old-or-empty dictionary, or a fresh empty one. -/
theorem mem_add_edge {g : Digraph} {u : String} {e : Edge}
    {p : String × List (String × Edge)} (h : p ∈ (g.add_edge u e).V) :
    (∃ q ∈ g.V, p.2 = q.2) ∨
      (∃ m, p.2 = dset m e.v e ∧ ((u, m) ∈ g.V ∨ m = [])) ∨ p.2 = [] := by
  unfold Digraph.add_edge at h
  simp only at h
  have hsplit : p ∈ dmod (if dmem g.V u = true then g.V else g.V ++ [(u, [])]) u
      (fun m => dset m e.v e) ∨ p = (e.v, []) := by
    by_cases hb : dmem (dmod (if dmem g.V u = true then g.V else g.V ++ [(u, [])]) u
        (fun m => dset m e.v e)) e.v = true
    · rw [if_pos hb] at h
      exact Or.inl h
    · rw [if_neg (by simp [hb])] at h
      rcases List.mem_append.mp h with hm | hm
      · exact Or.inl hm
      · exact Or.inr (by simpa using hm)
  rcases hsplit with hm | rfl
  · rcases mem_dmod hm with hm2 | ⟨w, hw, rfl⟩
    · by_cases hb : dmem g.V u = true
      · rw [if_pos hb] at hm2
        exact Or.inl ⟨p, hm2, rfl⟩
      · rw [if_neg (by simp [hb])] at hm2
        rcases List.mem_append.mp hm2 with hm3 | hm3
        · exact Or.inl ⟨p, hm3, rfl⟩
        · simp only [List.mem_singleton] at hm3
          subst hm3
          exact Or.inr (Or.inr rfl)
    · by_cases hb : dmem g.V u = true
      · rw [if_pos hb] at hw
        exact Or.inr (Or.inl ⟨w, rfl, Or.inl hw⟩)
      · rw [if_neg (by simp [hb])] at hw
        rcases List.mem_append.mp hw with hm3 | hm3
        · exact Or.inr (Or.inl ⟨w, rfl, Or.inl hm3⟩)
        · simp only [List.mem_singleton, Prod.mk.injEq] at hm3
          exact Or.inr (Or.inl ⟨w, rfl, Or.inr hm3.2⟩)
  · exact Or.inr (Or.inr rfl)

/-- `add_edge` preserves inner key distinctness. -/
theorem innerNodup_add_edge {g : Digraph} (u : String) (e : Edge)
    (h : InnerNodup g) : InnerNodup (g.add_edge u e) := by
  intro p hp
  rcases mem_add_edge hp with ⟨q, hq, hpq⟩ | ⟨m, hpm, hm⟩ | hpe
  · rw [hpq]
    exact h q hq
  · rw [hpm]
    rcases hm with hm | rfl
    · exact nodup_dkeys_dset m e.v e (h (u, m) hm)
    · exact nodup_dkeys_dset [] e.v e (by simp [dkeys])
  · rw [hpe]
    simp [dkeys]

/-- `del_edge` preserves inner key distinctness. -/
theorem innerNodup_del_edge {g : Digraph} (u v : String)
    (h : InnerNodup g) : InnerNodup (g.del_edge u v) := by
  intro p hp
  unfold Digraph.del_edge at hp
  simp only at hp
  rcases mem_dmod hp with hm | ⟨w, hw, rfl⟩
  · exact h p hm
  · exact nodup_dkeys_derase w v (h (u, w) hw)

/-- Keys of `add_edge` come from the old keys, the writing vertex or the
target. -/
theorem mem_dkeys_add_edge_inv {g : Digraph} {u : String} {e : Edge}
    {x : String} (h : x ∈ dkeys (g.add_edge u e).V) :
    x ∈ dkeys g.V ∨ x = u ∨ x = e.v := by
  rw [mem_dkeys_iff_dget?] at h
  obtain ⟨m, hm⟩ := Option.isSome_iff_exists.mp h
  by_cases hx : x = u
  · exact Or.inr (Or.inl hx)
  · rcases dget?_add_edge_ne g u e x hx with he | ⟨hxe, _, _⟩
    · rw [he] at hm
      exact Or.inl ((mem_dkeys_iff_dget? g.V x).mpr (by simp [hm]))
    · exact Or.inr (Or.inr hxe)

end Advogato

namespace Advogato

/-- One inner check of `_fix_antiparallel` preserves the invariant, breaks
the pair `(v, u)` in the `u -> v` direction, preserves already-broken pairs
at `v`, and leaves `v`'s own outedge dictionary untouched. -/
theorem fixStep_inv (orig rem : List String) (hrem : ∀ a ∈ rem, a ∈ orig)
    (HINJ : ∀ i o i' o', i ∈ orig → o ∈ orig → i' ∈ orig → o' ∈ orig →
      apLabel i o = apLabel i' o' → i = i' ∧ o = o')
    (v : String) (hv : v ∈ rem) (st : Digraph × VCaps × List String) (u : String)
    (hvu : st.1.has_edge v u = true)
    (hInv : FixInv orig rem st.1) :
    FixInv orig rem (fixStep v st u).1 ∧
      (fixStep v st u).1.has_edge u v = false ∧
      (∀ b, b ∈ dkeys st.1.V → b ≠ v →
        (st.1.has_edge b v = false → (fixStep v st u).1.has_edge b v = false) ∧
        (st.1.has_edge v b = false → (fixStep v st u).1.has_edge v b = false)) ∧
      dget? (fixStep v st u).1.V v = dget? st.1.V v := by
  by_cases hcond : st.1.has_edge u v = true
  case neg =>
    have hstep : fixStep v st u = st := by
      unfold fixStep
      rw [if_neg hcond]
    rw [hstep]
    exact ⟨hInv, Bool.eq_false_iff.mpr hcond, fun b _ _ => ⟨id, id⟩, rfl⟩
  case pos =>
    set g0' := st.1 with hg0'
    set prime := apLabel u v with hprime
    set g1 := g0'.add_edge u { v := prime } with hG1
    set g2 := g1.add_edge prime { v := v } with hG2
    set g3 := g2.del_edge u v with hG3
    have hstep : (fixStep v st u).1 = g3 := by
      unfold fixStep
      rw [if_pos hcond]
    rw [hstep]
    have hpair := hInv.pairs_rem u v hcond hvu
    have hu_orig : u ∈ orig := hrem u hpair.1
    have hv_orig : v ∈ orig := hrem v hpair.2
    have hfresh : prime ∉ dkeys g0'.V := hInv.fresh u v hu_orig hv_orig hcond
    have hu_keys : u ∈ dkeys g0'.V := has_edge_src_mem g0' u v hcond
    have hv_keys : v ∈ dkeys g0'.V := hInv.origsub v hv_orig
    have hpu : prime ≠ u := fun h => hfresh (by rw [h]; exact hu_keys)
    have hpv : prime ≠ v := fun h => hfresh (by rw [h]; exact hv_keys)
    have huv : u ≠ v := by
      intro h
      rw [h] at hcond
      rw [hInv.noself v] at hcond
      exact Bool.noConfusion hcond
    have hg1c : ∀ a b, g1.has_edge a b = true ↔
        (a = u ∧ b = prime) ∨ g0'.has_edge a b = true := fun a b =>
      has_edge_add_edge g0' u { v := prime } a b
    have hg2c : ∀ a b, g2.has_edge a b = true ↔
        (a = prime ∧ b = v) ∨ g1.has_edge a b = true := fun a b =>
      has_edge_add_edge g1 prime { v := v } a b
    have hkeys1 : ∀ x, x ∈ dkeys g1.V → x ∈ dkeys g0'.V ∨ x = prime := by
      intro x hx
      rcases mem_dkeys_add_edge_inv hx with h | h | h
      · exact Or.inl h
      · exact Or.inl (by rw [h]; exact hu_keys)
      · exact Or.inr h
    have hkeys2 : ∀ x, x ∈ dkeys g2.V → x ∈ dkeys g0'.V ∨ x = prime := by
      intro x hx
      rcases mem_dkeys_add_edge_inv hx with h | h | h
      · exact hkeys1 x h
      · exact Or.inr h
      · exact Or.inl (by rw [h]; exact hv_keys)
    have hin2 : InnerNodup g2 :=
      innerNodup_add_edge prime { v := v }
        (innerNodup_add_edge u { v := prime } hInv.innernodup)
    have hdel : g3.has_edge u v = false := has_edge_del_edge_self g2 u v hin2
    have hto_prime : ∀ a, ¬ g0'.has_edge a prime = true := by
      intro a h
      exact hfresh (hInv.kclosed a prime h)
    have hfrom_prime : ∀ b, ¬ g0'.has_edge prime b = true := by
      intro b h
      exact hfresh (has_edge_src_mem g0' prime b h)
    have hchar : ∀ a b, g3.has_edge a b = true →
        (a = prime ∧ b = v) ∨ (a = u ∧ b = prime) ∨
          (g0'.has_edge a b = true ∧ ¬(a = u ∧ b = v)) := by
      intro a b h3
      have h2 := has_edge_del_edge_mono g2 u v a b h3
      rcases (hg2c a b).mp h2 with h | h1
      · exact Or.inl h
      · rcases (hg1c a b).mp h1 with h | h0
        · exact Or.inr (Or.inl h)
        · refine Or.inr (Or.inr ⟨h0, ?_⟩)
          rintro ⟨rfl, rfl⟩
          rw [hdel] at h3
          exact Bool.noConfusion h3
    refine ⟨⟨?_, ?_, ?_, ?_, ?_, ?_⟩, hdel, ?_, ?_⟩
    · intro a b hab hba
      rcases hchar a b hab with ⟨ha1, hb1⟩ | ⟨ha1, hb1⟩ | ⟨hab0, _⟩
      · rw [ha1, hb1] at hba
        rcases hchar v prime hba with ⟨h1, _⟩ | ⟨h1, _⟩ | ⟨h0, _⟩
        · exact absurd h1.symm hpv
        · exact absurd h1 (fun hh => huv hh.symm)
        · exact absurd h0 (hto_prime v)
      · rw [ha1, hb1] at hba
        rcases hchar prime u hba with ⟨_, h2⟩ | ⟨h1, _⟩ | ⟨h0, _⟩
        · exact absurd h2 huv
        · exact absurd h1 hpu
        · exact absurd h0 (hfrom_prime u)
      · rcases hchar b a hba with ⟨hb2, ha2⟩ | ⟨hb2, ha2⟩ | ⟨hba0, _⟩
        · rw [ha2, hb2] at hab0
          exact absurd hab0 (hto_prime v)
        · rw [ha2, hb2] at hab0
          exact absurd hab0 (hfrom_prime u)
        · exact hInv.pairs_rem a b hab0 hba0
    · intro a
      cases h3 : g3.has_edge a a with
      | false => rfl
      | true =>
        exfalso
        rcases hchar a a h3 with ⟨h1, h2⟩ | ⟨h1, h2⟩ | ⟨h0, _⟩
        · exact hpv (h1.symm.trans h2)
        · exact hpu (h2.symm.trans h1)
        · rw [hInv.noself a] at h0
          exact Bool.noConfusion h0
    · intro i o hi ho h3io
      have hio : g0'.has_edge i o = true ∧ ¬(i = u ∧ o = v) := by
        rcases hchar i o h3io with ⟨h1, _⟩ | ⟨_, h2⟩ | h0
        · have := hInv.origsub i hi
          rw [h1] at this
          exact absurd this hfresh
        · have := hInv.origsub o ho
          rw [h2] at this
          exact absurd this hfresh
        · exact h0
      intro hmem3
      rw [hG3, dkeys_del_edge] at hmem3
      rcases hkeys2 _ hmem3 with hk | hk
      · exact hInv.fresh i o hi ho hio.1 hk
      · have := HINJ i o u v hi ho hu_orig hv_orig hk
        exact hio.2 ⟨this.1, this.2⟩
    · intro a b h3
      rw [hG3, dkeys_del_edge]
      rcases hchar a b h3 with ⟨_, hb1⟩ | ⟨_, hb1⟩ | ⟨h0, _⟩
      · rw [hb1]
        exact dkeys_add_edge_mem g1 prime { v := v } v
          (dkeys_add_edge_mem g0' u { v := prime } v hv_keys)
      · rw [hb1]
        exact (mem_dkeys_add_edge_self g1 prime { v := v }).1
      · exact dkeys_add_edge_mem g1 prime { v := v } b
          (dkeys_add_edge_mem g0' u { v := prime } b (hInv.kclosed a b h0))
    · exact innerNodup_del_edge u v hin2
    · intro a ha
      rw [hG3, dkeys_del_edge]
      exact dkeys_add_edge_mem g1 prime { v := v } a
        (dkeys_add_edge_mem g0' u { v := prime } a (hInv.origsub a ha))
    · intro b hb hbv
      have hbp : b ≠ prime := fun h => hfresh (by rw [← h]; exact hb)
      constructor
      · intro hfalse
        by_cases hbu : b = u
        · rw [hbu]
          exact hdel
        · cases h3 : g3.has_edge b v with
          | false => rfl
          | true =>
            exfalso
            rcases hchar b v h3 with ⟨h1, _⟩ | ⟨_, h2⟩ | ⟨h0, _⟩
            · exact hbp h1
            · exact hpv h2.symm
            · rw [hfalse] at h0
              exact Bool.noConfusion h0
      · intro hfalse
        cases h3 : g3.has_edge v b with
        | false => rfl
        | true =>
          exfalso
          rcases hchar v b h3 with ⟨h1, _⟩ | ⟨h1, _⟩ | ⟨h0, _⟩
          · exact hpv h1.symm
          · exact huv h1.symm
          · rw [hfalse] at h0
            exact Bool.noConfusion h0
    · rw [hG3]
      show dget? (dmod g2.V u (fun m => derase m v)) v = dget? g0'.V v
      rw [dget?_dmod, if_neg huv]
      have h2 : dget? g2.V v = dget? g1.V v := by
        rcases dget?_add_edge_ne g1 prime { v := v } v (fun h => hpv h.symm) with
          h | ⟨_, hnone, _⟩
        · exact h
        · exfalso
          have hmem : v ∈ dkeys g1.V :=
            dkeys_add_edge_mem g0' u { v := prime } v hv_keys
          rw [mem_dkeys_iff_dget?, hnone] at hmem
          exact Bool.noConfusion hmem
      have h1 : dget? g1.V v = dget? g0'.V v := by
        rcases dget?_add_edge_ne g0' u { v := prime } v (fun h => huv h.symm) with
          h | ⟨hveq, _, _⟩
        · exact h
        · exact absurd hveq.symm hpv
      rw [h2, h1]

end Advogato

/-- A fold preserves any invariant its step preserves. -/
theorem foldl_invariant {α β : Type} (f : β → α → β) (P : β → Prop)
    (l : List α) (b : β) (hb : P b) (hstep : ∀ b a, P b → P (f b a)) :
    P (l.foldl f b) := by
  induction l generalizing b with
  | nil => exact hb
  | cons x xs ih => exact ih (f b x) (hstep b x hb)

namespace Advogato

/-- An edge exists towards every key of a vertex's outedge dictionary. -/
theorem has_edge_of_dget? {g : Digraph} {v : String} {mv : List (String × Edge)}
    (hmv : dget? g.V v = some mv) {u : String} (hu : u ∈ dkeys mv) :
    g.has_edge v u = true := by
  unfold Digraph.has_edge
  rw [hmv]
  rw [mem_dkeys_iff_dget?] at hu
  unfold dmem
  exact hu

/-- `has_edge` out of `v` is a function of `v`'s outedge dictionary. -/
theorem has_edge_congr_dict {g g' : Digraph} {v : String}
    (h : dget? g'.V v = dget? g.V v) (b : String) :
    g'.has_edge v b = g.has_edge v b := by
  unfold Digraph.has_edge
  rw [h]

/-- The inner loop of `_fix_antiparallel` at vertex `v`: the invariant is
preserved, `v`'s outedge dictionary survives untouched, and at the end every
pair `(v, b)` is broken. -/
theorem fix_inner_inv (orig rem : List String) (hrem : ∀ a ∈ rem, a ∈ orig)
    (HINJ : ∀ i o i' o', i ∈ orig → o ∈ orig → i' ∈ orig → o' ∈ orig →
      apLabel i o = apLabel i' o' → i = i' ∧ o = o')
    (v : String) (hv : v ∈ rem) :
    ∀ (ts : List String) (st : Digraph × VCaps × List String)
      (mv : List (String × Edge)),
      FixInv orig rem st.1 →
      dget? st.1.V v = some mv →
      (∀ u ∈ ts, u ∈ dkeys mv) →
      (∀ b, b ≠ v → b ∉ ts → st.1.has_edge v b = true →
        st.1.has_edge b v = false) →
      FixInv orig rem (ts.foldl (fixStep v) st).1 ∧
        dget? (ts.foldl (fixStep v) st).1.V v = some mv ∧
        (∀ b, b ≠ v → (ts.foldl (fixStep v) st).1.has_edge v b = true →
          (ts.foldl (fixStep v) st).1.has_edge b v = false) := by
  intro ts
  induction ts with
  | nil =>
    intro st mv hInv hmv _ hdone
    exact ⟨hInv, hmv, fun b hbv hvb => hdone b hbv (by simp) hvb⟩
  | cons u ts' ih =>
    intro st mv hInv hmv hts hdone
    have hvu : st.1.has_edge v u = true :=
      has_edge_of_dget? hmv (hts u (List.mem_cons_self u ts'))
    obtain ⟨hInv1, hs2, hs3, hs4⟩ :=
      fixStep_inv orig rem hrem HINJ v hv st u hvu hInv
    have hmv1 : dget? (fixStep v st u).1.V v = some mv := by
      rw [hs4]; exact hmv
    have heq : ∀ b, (fixStep v st u).1.has_edge v b = st.1.has_edge v b :=
      has_edge_congr_dict hs4
    rw [List.foldl_cons]
    apply ih (fixStep v st u) mv hInv1 hmv1
      (fun w hw => hts w (List.mem_cons_of_mem u hw))
    intro b hbv hbts hvb
    by_cases hbu : b = u
    · rw [hbu]
      exact hs2
    · have hvb0 : st.1.has_edge v b = true := by rw [← heq b]; exact hvb
      have hbkeys : b ∈ dkeys st.1.V := hInv.kclosed v b hvb0
      have hbnotts : b ∉ u :: ts' := by
        intro hmem
        rcases List.mem_cons.mp hmem with h | h
        · exact hbu h
        · exact hbts h
      exact (hs3 b hbkeys hbv).1 (hdone b hbv hbnotts hvb0)

/-- The outer loop of `_fix_antiparallel`: processing the remaining
vertices empties the set of vertices an antiparallel pair may touch. -/
theorem fix_outer_inv (orig : List String)
    (HINJ : ∀ i o i' o', i ∈ orig → o ∈ orig → i' ∈ orig → o' ∈ orig →
      apLabel i o = apLabel i' o' → i = i' ∧ o = o') :
    ∀ (rem : List String) (st : Digraph × VCaps × List String),
      (∀ a ∈ rem, a ∈ orig) → FixInv orig rem st.1 →
      FixInv orig []
        ((rem.foldl (fun st v =>
          (dkeys ((dget? st.1.V v).getD [])).foldl (fixStep v) st) st)).1 := by
  intro rem
  induction rem with
  | nil =>
    intro st _ hInv
    exact hInv
  | cons v rest ih =>
    intro st hrem hInv
    have hvmem : v ∈ dkeys st.1.V :=
      hInv.origsub v (hrem v (List.mem_cons_self v rest))
    rw [mem_dkeys_iff_dget?] at hvmem
    obtain ⟨mv, hmv⟩ := Option.isSome_iff_exists.mp hvmem
    rw [List.foldl_cons]
    have hts : dkeys ((dget? st.1.V v).getD []) = dkeys mv := by rw [hmv]; rfl
    rw [hts]
    obtain ⟨hInv1, hmv1, hbroken⟩ := fix_inner_inv orig (v :: rest) hrem HINJ v
      (List.mem_cons_self v rest) (dkeys mv) st mv hInv hmv (fun u hu => hu)
      (fun b _ hbts hvb => by
        exfalso
        apply hbts
        unfold Digraph.has_edge at hvb
        rw [hmv] at hvb
        rw [mem_dkeys_iff_dget?]
        exact hvb)
    set st1 := (dkeys mv).foldl (fixStep v) st with hst1
    apply ih st1 (fun a ha => hrem a (List.mem_cons_of_mem v ha))
    refine ⟨?_, hInv1.noself, hInv1.fresh, hInv1.kclosed, hInv1.innernodup,
      hInv1.origsub⟩
    intro a b hab hba
    have hmem := hInv1.pairs_rem a b hab hba
    have hanv : a ≠ v := by
      intro h
      by_cases hbv : b = v
      · rw [h, hbv] at hab
        rw [hInv1.noself v] at hab
        exact Bool.noConfusion hab
      · rw [h] at hab hba
        have := hbroken b hbv hab
        rw [this] at hba
        exact Bool.noConfusion hba
    have hbnv : b ≠ v := by
      intro h
      rw [h] at hab hba
      have := hbroken a hanv hba
      rw [this] at hab
      exact Bool.noConfusion hab
    exact ⟨(List.mem_cons.mp hmem.1).resolve_left hanv,
      (List.mem_cons.mp hmem.2).resolve_left hbnv⟩

end Advogato

namespace Advogato

/-- `_fix_antiparallel` establishes the empty-remainder invariant: in the
rewritten graph no antiparallel pair survives. -/
theorem fix_antiparallel_no_pairs (g0 : Digraph) (vc0 : VCaps)
    (HFRESH : ∀ i o, i ∈ dkeys g0.V → o ∈ dkeys g0.V →
      apLabel i o ∉ dkeys g0.V)
    (HINJ : ∀ i o i' o', i ∈ dkeys g0.V → o ∈ dkeys g0.V →
      i' ∈ dkeys g0.V → o' ∈ dkeys g0.V →
      apLabel i o = apLabel i' o' → i = i' ∧ o = o')
    (hnoself : ∀ a, g0.has_edge a a = false)
    (hkclosed : ∀ a b, g0.has_edge a b = true → b ∈ dkeys g0.V)
    (hinner : InnerNodup g0) :
    FixInv (dkeys g0.V) [] (g0.fix_antiparallel vc0).1 := by
  have hrfl : g0.fix_antiparallel vc0 =
      (dkeys g0.V).foldl (fun st v =>
        (dkeys ((dget? st.1.V v).getD [])).foldl (fixStep v) st)
        (g0, vc0, []) := rfl
  rw [hrfl]
  apply fix_outer_inv (dkeys g0.V) HINJ (dkeys g0.V) (g0, vc0, [])
    (fun a ha => ha)
  exact ⟨fun a b hab hba => ⟨has_edge_src_mem g0 a b hab, hkclosed a b hab⟩,
    hnoself, fun i o hi ho _ => HFRESH i o hi ho, hkclosed, hinner,
    fun a ha => ha⟩

/-- Every auxiliary vertex created by `fixStep` has infinite capacity in
the updated table. -/
theorem fixStep_vcaps_inf (v : String) (st : Digraph × VCaps × List String)
    (u : String) (h : ∀ p ∈ st.2.2, dget? st.2.1 p = some EInt.inf) :
    ∀ p ∈ (fixStep v st u).2.2, dget? (fixStep v st u).2.1 p = some EInt.inf := by
  by_cases hcond : st.1.has_edge u v = true
  · have hstep : fixStep v st u =
        (((st.1.add_edge u { v := apLabel u v }).add_edge (apLabel u v)
            { v := v }).del_edge u v,
          dset st.2.1 (apLabel u v) EInt.inf, apLabel u v :: st.2.2) := by
      unfold fixStep
      rw [if_pos hcond]
    rw [hstep]
    intro p hp
    rcases List.mem_cons.mp hp with rfl | hp
    · rw [dget?_dset]
      simp
    · rw [dget?_dset]
      by_cases hpp : apLabel u v = p
      · rw [if_pos hpp]
      · rw [if_neg hpp]
        exact h p hp
  · have hstep : fixStep v st u = st := by
      unfold fixStep
      rw [if_neg hcond]
    rw [hstep]
    exact h

/-- Every auxiliary vertex `_fix_antiparallel` reports has infinite
capacity in the returned table. -/
theorem fix_antiparallel_vcaps_inf (g0 : Digraph) (vc0 : VCaps) :
    ∀ p ∈ (g0.fix_antiparallel vc0).2.2,
      dget? (g0.fix_antiparallel vc0).2.1 p = some EInt.inf := by
  have hrfl : g0.fix_antiparallel vc0 =
      (dkeys g0.V).foldl (fun st v =>
        (dkeys ((dget? st.1.V v).getD [])).foldl (fixStep v) st)
        (g0, vc0, []) := rfl
  rw [hrfl]
  apply foldl_invariant _
    (fun st : Digraph × VCaps × List String =>
      ∀ p ∈ st.2.2, dget? st.2.1 p = some EInt.inf)
  · intro p hp
    exact absurd hp (by simp)
  · intro st v hst
    apply foldl_invariant _
      (fun st : Digraph × VCaps × List String =>
        ∀ p ∈ st.2.2, dget? st.2.1 p = some EInt.inf) _ _ hst
    intro st' u hst'
    exact fixStep_vcaps_inf v st' u hst'

/-- C4: the flow network returned by `to_flow_net` has no antiparallel
pair of edges; and `_fix_antiparallel` eliminates every antiparallel pair
of the (loop-free, label-hygienic) input graph — the rewritten source graph
has none left — rerouting through fresh auxiliary vertices that all carry
infinite capacity. -/
theorem to_flow_net_antiparallel_free (g0 : Digraph) (vc0 : VCaps)
    (src sink : String)
    (HFRESH : ∀ i o, i ∈ dkeys g0.V → o ∈ dkeys g0.V →
      apLabel i o ∉ dkeys g0.V)
    (HINJ : ∀ i o i' o', i ∈ dkeys g0.V → o ∈ dkeys g0.V →
      i' ∈ dkeys g0.V → o' ∈ dkeys g0.V →
      apLabel i o = apLabel i' o' → i = i' ∧ o = o')
    (hnoself : ∀ a, g0.has_edge a a = false)
    (hkclosed : ∀ a b, g0.has_edge a b = true → b ∈ dkeys g0.V)
    (hinner : InnerNodup g0)
    (hsink_out : ∀ v ∈ dkeys (g0.fix_antiparallel vc0).1.V, sink ≠ v ++ "_OUT")
    (hsink_in : ∀ v ∈ dkeys (g0.fix_antiparallel vc0).1.V, sink ≠ v ++ "_IN") :
    (∀ u v, ¬((g0.to_flow_net vc0 src sink).2.2.1.has_edge u v = true ∧
      (g0.to_flow_net vc0 src sink).2.2.1.has_edge v u = true)) ∧
      (∀ a b, ¬((g0.fix_antiparallel vc0).1.has_edge a b = true ∧
        (g0.fix_antiparallel vc0).1.has_edge b a = true)) ∧
      (∀ p ∈ (g0.fix_antiparallel vc0).2.2,
        dget? (g0.fix_antiparallel vc0).2.1 p = some EInt.inf) := by
  have hInvFin := fix_antiparallel_no_pairs g0 vc0 HFRESH HINJ hnoself
    hkclosed hinner
  have hfixnopair : ∀ a b, ¬((g0.fix_antiparallel vc0).1.has_edge a b = true ∧
      (g0.fix_antiparallel vc0).1.has_edge b a = true) := by
    intro a b ⟨hab, hba⟩
    exact absurd (hInvFin.pairs_rem a b hab hba).1 (by simp)
  have hloop : ∀ v ∈ dkeys (g0.fix_antiparallel vc0).1.V,
      v ∉ dkeys ((dget? (g0.fix_antiparallel vc0).1.V v).getD []) := by
    intro v _ hmem
    have hedge : (g0.fix_antiparallel vc0).1.has_edge v v = true := by
      unfold Digraph.has_edge
      cases hg : dget? (g0.fix_antiparallel vc0).1.V v with
      | none =>
        rw [hg] at hmem
        simp [dkeys] at hmem
      | some m =>
        rw [hg] at hmem
        rw [mem_dkeys_iff_dget?] at hmem
        unfold dmem
        exact hmem
    rw [hInvFin.noself v] at hedge
    exact Bool.noConfusion hedge
  exact ⟨to_flow_net_no_antiparallel g0 vc0 src sink hsink_out hsink_in hloop,
    hfixnopair, fix_antiparallel_vcaps_inf g0 vc0⟩

end Advogato

namespace Advogato

/-- Self-loop freedom needs checking only at actual vertices. -/
theorem noself_of_keys (g : Digraph)
    (h : ∀ a ∈ dkeys g.V, g.has_edge a a = false) :
    ∀ a, g.has_edge a a = false := by
  intro a
  by_cases ha : a ∈ dkeys g.V
  · exact h a ha
  · cases he : g.has_edge a a with
    | false => rfl
    | true => exact absurd (has_edge_src_mem g a a he) ha

/-- Key-closure needs checking only over the stored entries. -/
theorem kclosed_of_entries (g : Digraph)
    (h : ∀ p ∈ g.V, ∀ q ∈ p.2, q.1 ∈ dkeys g.V) :
    ∀ a b, g.has_edge a b = true → b ∈ dkeys g.V := by
  intro a b hab
  unfold Digraph.has_edge at hab
  cases hg : dget? g.V a with
  | none => rw [hg] at hab; exact Bool.noConfusion hab
  | some m =>
    rw [hg] at hab
    obtain ⟨e, he⟩ := exists_of_dmem hab
    exact h (a, m) (dget?_mem hg) (b, e) (dget?_mem he)

set_option maxRecDepth 40000 in
/-- Witness for C4: instantiated on `apH` (whose peers A and B certify each
other) with a concrete capacity table. -/
theorem to_flow_net_antiparallel_free_witness :
    (∀ u v, ¬((apH.to_flow_net
        [("seed", EInt.fin 500), ("A", EInt.fin 200), ("B", EInt.fin 60)]
        "seed" "supersink").2.2.1.has_edge u v = true ∧
      (apH.to_flow_net
        [("seed", EInt.fin 500), ("A", EInt.fin 200), ("B", EInt.fin 60)]
        "seed" "supersink").2.2.1.has_edge v u = true)) ∧
      (∀ a b, ¬((apH.fix_antiparallel
          [("seed", EInt.fin 500), ("A", EInt.fin 200), ("B", EInt.fin 60)]).1.has_edge
            a b = true ∧
        (apH.fix_antiparallel
          [("seed", EInt.fin 500), ("A", EInt.fin 200), ("B", EInt.fin 60)]).1.has_edge
            b a = true)) ∧
      (∀ p ∈ (apH.fix_antiparallel
          [("seed", EInt.fin 500), ("A", EInt.fin 200), ("B", EInt.fin 60)]).2.2,
        dget? (apH.fix_antiparallel
          [("seed", EInt.fin 500), ("A", EInt.fin 200), ("B", EInt.fin 60)]).2.1 p =
          some EInt.inf) :=
  to_flow_net_antiparallel_free apH
    [("seed", EInt.fin 500), ("A", EInt.fin 200), ("B", EInt.fin 60)]
    "seed" "supersink"
    (fun i o hi ho =>
      (by decide :
        ∀ i ∈ dkeys apH.V, ∀ o ∈ dkeys apH.V, apLabel i o ∉ dkeys apH.V)
        i hi o ho)
    (fun i o i' o' hi ho hi' ho' =>
      (by decide :
        ∀ i ∈ dkeys apH.V, ∀ o ∈ dkeys apH.V, ∀ j ∈ dkeys apH.V,
          ∀ p ∈ dkeys apH.V, apLabel i o = apLabel j p → i = j ∧ o = p)
        i hi o ho i' hi' o' ho')
    (noself_of_keys apH (by decide))
    (kclosed_of_entries apH (by decide))
    (fun p hp => (by decide : ∀ p ∈ apH.V, (dkeys p.2).Nodup) p hp)
    (by decide) (by decide)

end Advogato

/-- `dmod` preserves the key list. -/
theorem dkeys_dmod {α : Type} (m : List (String × α)) (k : String) (f : α → α) :
    dkeys (dmod m k f) = dkeys m := by
  induction m with
  | nil => rfl
  | cons p rest ih =>
    obtain ⟨k2, w⟩ := p
    by_cases hk : k2 = k
    · subst hk
      simp [dmod, dkeys]
    · simp only [dmod, if_neg hk, dkeys, List.map_cons]
      rw [show List.map Prod.fst (dmod rest k f) = dkeys (dmod rest k f) from rfl,
        show List.map Prod.fst rest = dkeys rest from rfl, ih]

/-- `dset` at a present key preserves the key list. -/
theorem dkeys_dset_mem {α : Type} (m : List (String × α)) (k : String) (v : α)
    (h : k ∈ dkeys m) : dkeys (dset m k v) = dkeys m := by
  rw [dkeys_dset, if_pos h]

namespace Advogato

/-- The BFS edge-exploration fold preserves the state invariants, leaves
non-white entries untouched, and preserves the key list. -/
theorem bfs_explore_inv (g : Digraph) (skip : String → String → Bool)
    (s ulabel : String) (ud : EInt) (nd : Nat) (hnd : ud = EInt.fin nd) :
    ∀ (edges : List (String × Edge)) (vprops : List (String × Vertex_prop))
      (q : List String),
      BInv g skip s vprops → QInv vprops q →
      (∃ up, dget? vprops ulabel = some up ∧ up.color ≠ Color.white ∧ up.d = ud) →
      (∀ p ∈ edges, p.1 = p.2.v ∧ g.has_edge ulabel p.1 = true) →
      BInv g skip s (bfs_explore skip ulabel ud edges (vprops, q)).1 ∧
        QInv (bfs_explore skip ulabel ud edges (vprops, q)).1
          (bfs_explore skip ulabel ud edges (vprops, q)).2 ∧
        (∀ k vp, dget? vprops k = some vp → vp.color ≠ Color.white →
          dget? (bfs_explore skip ulabel ud edges (vprops, q)).1 k = some vp) ∧
        dkeys (bfs_explore skip ulabel ud edges (vprops, q)).1 = dkeys vprops := by
  intro edges
  induction edges with
  | nil =>
    intro vprops q hB hQ _ _
    exact ⟨hB, hQ, fun k vp h _ => h, rfl⟩
  | cons p rest ih =>
    intro vprops q hB hQ hu hedges
    have hstep : bfs_explore skip ulabel ud (p :: rest) (vprops, q) =
        bfs_explore skip ulabel ud rest
          (if skip ulabel p.1 then (vprops, q)
           else
             match dget? vprops p.2.v with
             | none => (vprops, q)
             | some vp =>
               if vp.color = Color.white then
                 (dset vprops p.2.v { vp with color := .grey, d := ud.add (.fin 1), pi := some ulabel }, q ++ [p.2.v])
               else (vprops, q)) := by
      rfl
    rw [hstep]
    by_cases hskip : skip ulabel p.1 = true
    · rw [if_pos hskip]
      exact ih vprops q hB hQ hu (fun r hr => hedges r (List.mem_cons_of_mem p hr))
    · rw [if_neg hskip]
      cases hvp : dget? vprops p.2.v with
      | none =>
        exact ih vprops q hB hQ hu
          (fun r hr => hedges r (List.mem_cons_of_mem p hr))
      | some vp =>
        by_cases hwhite : vp.color = Color.white
        · simp only [hwhite, reduceIte]
          obtain ⟨up, hup, hupw, hupd⟩ := hu
          have hne_u : p.2.v ≠ ulabel := by
            intro h
            rw [h, hup] at hvp
            cases hvp
            exact hupw hwhite
          set newvp : Vertex_prop := { vp with color := .grey, d := ud.add (.fin 1), pi := some ulabel } with hnewvp
          have hlookup : ∀ k, dget? (dset vprops p.2.v newvp) k =
              if p.2.v = k then some newvp else dget? vprops k := by
            intro k
            rw [dget?_dset]
          have hpresnw : ∀ k w, dget? vprops k = some w → w.color ≠ Color.white →
              dget? (dset vprops p.2.v newvp) k = some w := by
            intro k w hw hwnw
            rw [hlookup]
            by_cases hk : p.2.v = k
            · rw [hk, hw] at hvp
              cases hvp
              exact absurd hwhite hwnw
            · rw [if_neg hk]
              exact hw
          have hB' : BInv g skip s (dset vprops p.2.v newvp) := by
            intro k w hw
            rw [hlookup] at hw
            by_cases hk : p.2.v = k
            · rw [if_pos hk] at hw
              cases hw
              refine ⟨?_, ?_, ?_⟩
              · rw [← hk]
                exact (hB p.2.v vp hvp).1
              · intro _
                refine ⟨⟨nd + 1, ?_⟩, Or.inl (by simp)⟩
                rw [hnewvp, hnd]
                push_cast
                rfl
              · intro pr hpr
                have hpr' : pr = ulabel := by
                  have hpi : newvp.pi = some ulabel := rfl
                  rw [hpi] at hpr
                  exact (Option.some.inj hpr).symm
                rw [hpr']
                refine ⟨up, hpresnw ulabel up hup hupw, hupw,
                  ⟨nd, hupd.trans hnd, by rw [hnewvp, hnd]; rfl⟩, ?_, ?_⟩
                · have := (hedges p (List.mem_cons_self p rest)).1
                  rw [← hk, ← this]
                  exact Bool.eq_false_iff.mpr hskip
                · have h1 := (hedges p (List.mem_cons_self p rest)).1
                  have h2 := (hedges p (List.mem_cons_self p rest)).2
                  rw [← hk, ← h1]
                  exact h2
            · rw [if_neg hk] at hw
              obtain ⟨hl, ho3, ho2⟩ := hB k w hw
              refine ⟨hl, ho3, ?_⟩
              intro pr hpr
              obtain ⟨pp, hpp, hppw, hd, hsk, hedge⟩ := ho2 pr hpr
              exact ⟨pp, hpresnw pr pp hpp hppw, hppw, hd, hsk, hedge⟩
          have hQ' : QInv (dset vprops p.2.v newvp) (q ++ [p.2.v]) := by
            intro w hw
            rcases List.mem_append.mp hw with hw | hw
            · obtain ⟨wp, hwp, hwpw⟩ := hQ w hw
              exact ⟨wp, hpresnw w wp hwp hwpw, hwpw⟩
            · simp only [List.mem_singleton] at hw
              subst hw
              refine ⟨newvp, ?_, by simp⟩
              rw [hlookup, if_pos rfl]
          have hu' : ∃ up2, dget? (dset vprops p.2.v newvp) ulabel = some up2 ∧
              up2.color ≠ Color.white ∧ up2.d = ud :=
            ⟨up, hpresnw ulabel up hup hupw, hupw, hupd⟩
          obtain ⟨r1, r2, r3, r4⟩ := ih (dset vprops p.2.v newvp) (q ++ [p.2.v])
            hB' hQ' hu' (fun r hr => hedges r (List.mem_cons_of_mem p hr))
          refine ⟨r1, r2, ?_, ?_⟩
          · intro k w hw hwnw
            exact r3 k w (hpresnw k w hw hwnw) hwnw
          · rw [r4]
            apply dkeys_dset_mem
            rw [mem_dkeys_iff_dget?, hvp]
            rfl
        · simp only [hwhite, reduceIte]
          exact ih vprops q hB hQ hu
            (fun r hr => hedges r (List.mem_cons_of_mem p hr))

end Advogato

/-- A hit in a filtered dict with pairwise-distinct keys is a hit in the
original dict that passes the filter. -/
theorem dget?_filter_nodup {α : Type} (pred : String × α → Bool) :
    ∀ (m : List (String × α)) (k : String) (x : α), (dkeys m).Nodup →
      dget? (m.filter pred) k = some x →
      dget? m k = some x ∧ pred (k, x) = true := by
  intro m
  induction m with
  | nil =>
    intro k x _ h
    simp [dget?] at h
  | cons p rest ih =>
    intro k x hnd h
    obtain ⟨k2, w⟩ := p
    have hnd' : k2 ∉ dkeys rest ∧ (dkeys rest).Nodup := List.nodup_cons.mp hnd
    rw [List.filter_cons] at h
    by_cases hpred : pred (k2, w) = true
    · rw [if_pos hpred] at h
      simp only [dget?] at h ⊢
      by_cases hk : k2 = k
      · rw [if_pos hk] at h ⊢
        refine ⟨h, ?_⟩
        rw [← hk, ← Option.some.inj h]
        exact hpred
      · rw [if_neg hk] at h ⊢
        exact ih k x hnd'.2 h
    · rw [if_neg hpred] at h
      obtain ⟨h1, h2⟩ := ih k x hnd'.2 h
      by_cases hk : k2 = k
      · exfalso
        apply hnd'.1
        rw [hk, mem_dkeys_iff_dget?, h1]
        rfl
      · simp only [dget?]
        rw [if_neg hk]
        exact ⟨h1, h2⟩

/-- A dict hit whose entry passes the filter survives filtering. -/
theorem dget?_filter_of_pred {α : Type} (pred : String × α → Bool) :
    ∀ (m : List (String × α)) (k : String) (x : α),
      dget? m k = some x → pred (k, x) = true →
      dget? (m.filter pred) k = some x := by
  intro m
  induction m with
  | nil =>
    intro k x h _
    simp [dget?] at h
  | cons p rest ih =>
    intro k x h hpred
    obtain ⟨k2, w⟩ := p
    rw [List.filter_cons]
    simp only [dget?] at h
    by_cases hk : k2 = k
    · rw [if_pos hk] at h
      have hx : w = x := Option.some.inj h
      subst hx
      rw [hk]
      rw [if_pos hpred]
      simp [dget?]
    · rw [if_neg hk] at h
      by_cases hp2 : pred (k2, w) = true
      · rw [if_pos hp2]
        simp only [dget?]
        rw [if_neg hk]
        exact ih k x h hpred
      · rw [if_neg hp2]
        exact ih k x h hpred

namespace Advogato

/-- The value found at any key of `bfs_init`'s mapped base list. -/
theorem bfs_init_base_dget? {α : Type} (s : String) :
    ∀ (l : List (String × α)) (k : String) (vp : Vertex_prop),
      dget? (l.map (fun p =>
        if p.1 = s then (s, Vertex_prop.mk .grey (.fin 0) none s)
        else (p.1, Vertex_prop.mk .white .inf none p.1))) k = some vp →
      vp = if k = s then Vertex_prop.mk .grey (.fin 0) none s
           else Vertex_prop.mk .white .inf none k := by
  intro l
  induction l with
  | nil =>
    intro k vp h
    simp [dget?] at h
  | cons p rest ih =>
    intro k vp h
    rw [List.map_cons] at h
    by_cases hps : p.1 = s
    · rw [if_pos hps] at h
      simp only [dget?] at h
      by_cases hsk : s = k
      · rw [if_pos hsk] at h
        rw [← Option.some.inj h, if_pos hsk.symm]
      · rw [if_neg hsk] at h
        exact ih k vp h
    · rw [if_neg hps] at h
      simp only [dget?] at h
      by_cases hpk : p.1 = k
      · rw [if_pos hpk] at h
        have hks : ¬ k = s := by
          rw [← hpk]
          exact hps
        rw [← Option.some.inj h, if_neg hks, hpk]
      · rw [if_neg hpk] at h
        exact ih k vp h

/-- The key list of `bfs_init`'s mapped base list is the input key list. -/
theorem bfs_init_base_keys {α : Type} (s : String) :
    ∀ (l : List (String × α)),
      dkeys (l.map (fun p =>
        if p.1 = s then (s, Vertex_prop.mk .grey (.fin 0) none s)
        else (p.1, Vertex_prop.mk .white .inf none p.1))) = dkeys l := by
  intro l
  induction l with
  | nil => rfl
  | cons p rest ih =>
    rw [List.map_cons]
    by_cases hps : p.1 = s
    · rw [if_pos hps]
      show s :: _ = p.1 :: _
      rw [hps]
      exact congrArg _ ih
    · rw [if_neg hps]
      show p.1 :: _ = p.1 :: _
      exact congrArg _ ih

/-- The value stored by `bfs_init` at any key. -/
theorem bfs_init_dget? (g : Digraph) (s : String) (k : String) (vp : Vertex_prop)
    (h : dget? (bfs_init g s) k = some vp) :
    vp = if k = s then Vertex_prop.mk .grey (.fin 0) none s
         else Vertex_prop.mk .white .inf none k := by
  unfold bfs_init at h
  by_cases hm : dmem (g.V.map (fun p =>
      if p.1 = s then (s, Vertex_prop.mk .grey (.fin 0) none s)
      else (p.1, Vertex_prop.mk .white .inf none p.1))) s = true
  · rw [if_pos hm] at h
    exact bfs_init_base_dget? s g.V k vp h
  · rw [if_neg hm] at h
    rw [dget?_append] at h
    cases hb : dget? (g.V.map (fun p =>
        if p.1 = s then (s, Vertex_prop.mk .grey (.fin 0) none s)
        else (p.1, Vertex_prop.mk .white .inf none p.1))) k with
    | some w =>
      rw [hb] at h
      have : w = vp := Option.some.inj h
      subst this
      exact bfs_init_base_dget? s g.V k w hb
    | none =>
      rw [hb] at h
      simp only [dget?] at h
      by_cases hsk : s = k
      · rw [if_pos hsk] at h
        rw [← Option.some.inj h, if_pos hsk.symm]
      · rw [if_neg hsk] at h
        simp [dget?] at h

/-- `bfs_init` satisfies the loop invariant. -/
theorem bfs_init_binv (g : Digraph) (skip : String → String → Bool)
    (s : String) : BInv g skip s (bfs_init g s) := by
  intro k vp h
  have hval := bfs_init_dget? g s k vp h
  by_cases hk : k = s
  · rw [if_pos hk] at hval
    subst hval
    refine ⟨hk.symm, fun _ => ⟨⟨0, rfl⟩, Or.inr hk⟩, ?_⟩
    intro p hp
    cases hp
  · rw [if_neg hk] at hval
    subst hval
    refine ⟨rfl, fun hc => absurd rfl hc, ?_⟩
    intro p hp
    cases hp

/-- The initial queue `[s]` satisfies the queue invariant. -/
theorem bfs_init_qinv (g : Digraph) (s : String) : QInv (bfs_init g s) [s] := by
  intro u hu
  have hu' : u = s := by
    cases hu with
    | head => rfl
    | tail _ h => cases h
  rw [hu']
  unfold bfs_init
  by_cases hm : dmem (g.V.map (fun p =>
      if p.1 = s then (s, Vertex_prop.mk .grey (.fin 0) none s)
      else (p.1, Vertex_prop.mk .white .inf none p.1))) s = true
  · rw [if_pos hm]
    unfold dmem at hm
    cases hb : dget? (g.V.map (fun p =>
        if p.1 = s then (s, Vertex_prop.mk .grey (.fin 0) none s)
        else (p.1, Vertex_prop.mk .white .inf none p.1))) s with
    | none =>
      rw [hb] at hm
      cases hm
    | some w =>
      refine ⟨w, rfl, ?_⟩
      have := bfs_init_base_dget? s g.V s w hb
      rw [if_pos rfl] at this
      subst this
      simp
  · rw [if_neg hm]
    unfold dmem at hm
    have hb : dget? (g.V.map (fun p =>
        if p.1 = s then (s, Vertex_prop.mk .grey (.fin 0) none s)
        else (p.1, Vertex_prop.mk .white .inf none p.1))) s = none := by
      cases hb : dget? (g.V.map (fun p =>
          if p.1 = s then (s, Vertex_prop.mk .grey (.fin 0) none s)
          else (p.1, Vertex_prop.mk .white .inf none p.1))) s with
      | none => rfl
      | some w =>
        exfalso
        apply hm
        rw [hb]
        rfl
    rw [dget?_append, hb]
    refine ⟨Vertex_prop.mk .grey (.fin 0) none s, ?_, by simp⟩
    simp [dget?]

/-- `bfs_init` has pairwise-distinct keys whenever the graph does. -/
theorem bfs_init_nodup (g : Digraph) (s : String)
    (hnd : (dkeys g.V).Nodup) : (dkeys (bfs_init g s)).Nodup := by
  unfold bfs_init
  by_cases hm : dmem (g.V.map (fun p =>
      if p.1 = s then (s, Vertex_prop.mk .grey (.fin 0) none s)
      else (p.1, Vertex_prop.mk .white .inf none p.1))) s = true
  · rw [if_pos hm]
    rw [show dkeys (g.V.map (fun p =>
        if p.1 = s then (s, Vertex_prop.mk .grey (.fin 0) none s)
        else (p.1, Vertex_prop.mk .white .inf none p.1))) = dkeys g.V from
      bfs_init_base_keys s g.V]
    exact hnd
  · rw [if_neg hm]
    have hkeys : dkeys ((g.V.map (fun p =>
        if p.1 = s then (s, Vertex_prop.mk .grey (.fin 0) none s)
        else (p.1, Vertex_prop.mk .white .inf none p.1))) ++
          [(s, Vertex_prop.mk .grey (.fin 0) none s)]) =
        dkeys g.V ++ [s] := by
      show List.map Prod.fst _ = _
      rw [List.map_append]
      rw [show List.map Prod.fst (g.V.map (fun p =>
          if p.1 = s then (s, Vertex_prop.mk .grey (.fin 0) none s)
          else (p.1, Vertex_prop.mk .white .inf none p.1))) = dkeys g.V from
        bfs_init_base_keys s g.V]
      rfl
    rw [hkeys]
    have hs : s ∉ dkeys g.V := by
      intro hmem
      apply hm
      rw [← bfs_init_base_keys (α := List (String × Edge)) s g.V] at hmem
      rw [mem_dkeys_iff_dget?] at hmem
      exact hmem
    simp [List.nodup_append, hnd, hs]

/-- The BFS loop preserves the invariant and the key list. -/
theorem bfs_loop_inv (g : Digraph) (skip : String → String → Bool)
    (s : String) (hkey : EdgeKeyed g) :
    ∀ (fuel : Nat) (vprops : List (String × Vertex_prop)) (q : List String)
      (res : List (String × Vertex_prop)),
      BInv g skip s vprops → QInv vprops q →
      bfs_loop g skip fuel vprops q = some res →
      BInv g skip s res ∧ dkeys res = dkeys vprops := by
  intro fuel
  induction fuel with
  | zero =>
    intro vprops q res hB _ hrun
    cases q with
    | nil =>
      cases hrun
      exact ⟨hB, rfl⟩
    | cons u rest => cases hrun
  | succ n ih =>
    intro vprops q res hB hQ hrun
    cases q with
    | nil =>
      cases hrun
      exact ⟨hB, rfl⟩
    | cons u rest =>
      have hQrest : QInv vprops rest := fun w hw => hQ w (List.mem_cons_of_mem u hw)
      cases hup : dget? vprops u with
      | none =>
        have hrun' : bfs_loop g skip n vprops rest = some res := by
          rw [show bfs_loop g skip (n + 1) vprops (u :: rest) =
              (match dget? vprops u with
               | none => bfs_loop g skip n vprops rest
               | some up =>
                 bfs_loop g skip n
                   (dmod (bfs_explore skip u up.d ((dget? g.V u).getD [])
                     (vprops, rest)).1 u (fun w => { w with color := .black }))
                   (bfs_explore skip u up.d ((dget? g.V u).getD [])
                     (vprops, rest)).2) from rfl, hup] at hrun
          exact hrun
        exact ih vprops rest res hB hQrest hrun'
      | some up =>
        have hupw : up.color ≠ Color.white := by
          obtain ⟨up2, hup2, h2⟩ := hQ u (List.mem_cons_self u rest)
          rw [hup] at hup2
          rw [← Option.some.inj hup2] at h2
          exact h2
        obtain ⟨nd, hnd⟩ := ((hB u up hup).2.1 hupw).1
        have hedges : ∀ p ∈ (dget? g.V u).getD [], p.1 = p.2.v ∧
            g.has_edge u p.1 = true := by
          intro p hp
          cases hgv : dget? g.V u with
          | none =>
            rw [hgv] at hp
            cases hp
          | some m =>
            rw [hgv] at hp
            have hmem : (u, m) ∈ g.V := dget?_mem hgv
            refine ⟨hkey (u, m) hmem p hp, ?_⟩
            show Digraph.has_edge g u p.1 = true
            unfold Digraph.has_edge
            rw [hgv]
            show (dget? m p.1).isSome = true
            rw [← mem_dkeys_iff_dget?]
            exact List.mem_map_of_mem Prod.fst hp
        obtain ⟨r1, r2, r3, r4⟩ := bfs_explore_inv g skip s u up.d nd hnd
          ((dget? g.V u).getD []) vprops rest hB hQrest
          ⟨up, hup, hupw, rfl⟩ hedges
        set st := bfs_explore skip u up.d ((dget? g.V u).getD [])
          (vprops, rest) with hst
        have hupst : dget? st.1 u = some up := r3 u up hup hupw
        have hblookup : ∀ k, dget? (dmod st.1 u
            (fun w => { w with color := .black })) k =
            if u = k then (dget? st.1 k).map
              (fun w => { w with color := .black }) else dget? st.1 k := by
          intro k
          rw [dget?_dmod]
        have hB2 : BInv g skip s (dmod st.1 u
            (fun w => { w with color := .black })) := by
          intro k vp hvp
          rw [hblookup] at hvp
          by_cases hk : u = k
          · rw [if_pos hk, ← hk, hupst] at hvp
            have hvpval : vp = { up with color := .black } :=
              (Option.some.inj hvp).symm
            obtain ⟨hl, ho3, ho2⟩ := r1 u up hupst
            refine ⟨?_, ?_, ?_⟩
            · rw [hvpval, ← hk]
              exact hl
            · intro _
              have h3 := ho3 hupw
              rw [hvpval, ← hk]
              exact ⟨h3.1, h3.2⟩
            · intro p hp
              have hp' : up.pi = some p := by
                rw [hvpval] at hp
                exact hp
              obtain ⟨pp, hpp, hppw, hd, hsk, hedge⟩ := ho2 p hp'
              rw [hblookup]
              by_cases hpu : u = p
              · refine ⟨{ pp with color := .black }, ?_, by simp, ?_, ?_, ?_⟩
                · rw [if_pos hpu, ← hpu, hupst]
                  rw [← hpu] at hpp
                  rw [hupst] at hpp
                  rw [Option.some.inj hpp]
                  rfl
                · obtain ⟨m, hm1, hm2⟩ := hd
                  rw [hvpval]
                  exact ⟨m, hm1, hm2⟩
                · rw [← hk]
                  exact hsk
                · rw [← hk]
                  exact hedge
              · refine ⟨pp, ?_, hppw, ?_, ?_, ?_⟩
                · rw [if_neg hpu]
                  exact hpp
                · obtain ⟨m, hm1, hm2⟩ := hd
                  rw [hvpval]
                  exact ⟨m, hm1, hm2⟩
                · rw [← hk]
                  exact hsk
                · rw [← hk]
                  exact hedge
          · rw [if_neg hk] at hvp
            obtain ⟨hl, ho3, ho2⟩ := r1 k vp hvp
            refine ⟨hl, ho3, ?_⟩
            intro p hp
            obtain ⟨pp, hpp, hppw, hd, hsk, hedge⟩ := ho2 p hp
            rw [hblookup]
            by_cases hpu : u = p
            · refine ⟨{ pp with color := .black }, ?_, by simp, hd, hsk, hedge⟩
              rw [if_pos hpu, ← hpu, hupst]
              rw [← hpu] at hpp
              rw [hupst] at hpp
              rw [Option.some.inj hpp]
              rfl
            · refine ⟨pp, ?_, hppw, hd, hsk, hedge⟩
              rw [if_neg hpu]
              exact hpp
        have hQ2 : QInv (dmod st.1 u (fun w => { w with color := .black }))
            st.2 := by
          intro w hw
          obtain ⟨wp, hwp, hwpw⟩ := r2 w hw
          rw [hblookup]
          by_cases hwu : u = w
          · refine ⟨{ wp with color := .black }, ?_, by simp⟩
            rw [if_pos hwu, ← hwu, hupst]
            rw [← hwu] at hwp
            rw [hupst] at hwp
            rw [Option.some.inj hwp]
            rfl
          · refine ⟨wp, ?_, hwpw⟩
            rw [if_neg hwu]
            exact hwp
        have hrun' : bfs_loop g skip n
            (dmod st.1 u (fun w => { w with color := .black })) st.2 =
            some res := by
          rw [show bfs_loop g skip (n + 1) vprops (u :: rest) =
              (match dget? vprops u with
               | none => bfs_loop g skip n vprops rest
               | some up =>
                 bfs_loop g skip n
                   (dmod (bfs_explore skip u up.d ((dget? g.V u).getD [])
                     (vprops, rest)).1 u (fun w => { w with color := .black }))
                   (bfs_explore skip u up.d ((dget? g.V u).getD [])
                     (vprops, rest)).2) from rfl, hup] at hrun
          exact hrun
        obtain ⟨hBres, hkeysres⟩ := ih _ _ res hB2 hQ2 hrun'
        refine ⟨hBres, ?_⟩
        rw [hkeysres, dkeys_dmod, r4]

/-- `Digraph.bfs` (BFS with `skip`) returns a predecessor table satisfying
`PgInv`: labels match keys, only the source lacks a predecessor, and
predecessor links step the finite distance down by one over real
non-skipped edges. -/
theorem bfs_pginv (g : Digraph) (skip : String → String → Bool) (s : String)
    (pg : List (String × Vertex_prop)) (hkey : EdgeKeyed g)
    (hnd : (dkeys g.V).Nodup) (h : g.bfs s skip = some pg) :
    PgInv g skip s pg := by
  unfold Digraph.bfs at h
  cases hrun : bfs_loop g skip (bfsFuel g) (bfs_init g s) [s] with
  | none =>
    rw [hrun] at h
    cases h
  | some vprops =>
    rw [hrun] at h
    have hpg : pg = vprops.filter (fun p => p.2.pi.isSome || p.1 == s) :=
      (Option.some.inj h).symm
    subst hpg
    obtain ⟨hBres, hkeysres⟩ := bfs_loop_inv g skip s hkey (bfsFuel g)
      (bfs_init g s) [s] vprops (bfs_init_binv g skip s)
      (bfs_init_qinv g s) hrun
    have hndres : (dkeys vprops).Nodup := by
      rw [hkeysres]
      exact bfs_init_nodup g s hnd
    intro k vp hv
    obtain ⟨h1, hpredk⟩ := dget?_filter_nodup _ vprops k vp hndres hv
    obtain ⟨hl, ho3, ho2⟩ := hBres k vp h1
    refine ⟨hl, ?_, ?_⟩
    · intro hpi
      rw [hpi] at hpredk
      simp only [Option.isSome_none, Bool.false_or] at hpredk
      exact eq_of_beq hpredk
    · intro p hp
      obtain ⟨pp, hpp, hppw, hd, hsk, hedge⟩ := ho2 p hp
      have hpred2 : (pp.pi.isSome || p == s) = true := by
        rcases ((hBres p pp hpp).2.1 hppw).2 with hne | hps
        · rw [Option.ne_none_iff_isSome] at hne
          rw [hne]
          rfl
        · subst hps
          simp
      exact ⟨pp, dget?_filter_of_pred _ vprops p pp hpp hpred2, hd, hsk, hedge⟩

end Advogato

/-- Modifying one present entry shifts a mapped sum by the change at that
entry. -/
theorem sum_map_dmod {α : Type} (F : String × α → Int) (f : α → α) :
    ∀ (m : List (String × α)) (key : String) (x : α), dget? m key = some x →
      ((dmod m key f).map F).sum = (m.map F).sum + (F (key, f x) - F (key, x)) := by
  intro m
  induction m with
  | nil =>
    intro key x h
    simp [dget?] at h
  | cons p rest ih =>
    intro key x h
    obtain ⟨k2, w⟩ := p
    simp only [dget?] at h
    simp only [dmod]
    by_cases hk : k2 = key
    · rw [if_pos hk] at h
      rw [if_pos hk]
      have hw : w = x := Option.some.inj h
      subst hw
      subst hk
      simp only [List.map_cons, List.sum_cons]
      ring
    · rw [if_neg hk] at h
      rw [if_neg hk]
      simp only [List.map_cons, List.sum_cons, ih key x h]
      ring

/-- Modifying at an absent key changes nothing. -/
theorem dmod_none {α : Type} (f : α → α) :
    ∀ (m : List (String × α)) (key : String), dget? m key = none →
      dmod m key f = m := by
  intro m
  induction m with
  | nil =>
    intro key _
    rfl
  | cons p rest ih =>
    intro key h
    obtain ⟨k2, w⟩ := p
    simp only [dget?] at h
    simp only [dmod]
    by_cases hk : k2 = key
    · rw [if_pos hk] at h
      cases h
    · rw [if_neg hk] at h
      rw [if_neg hk, ih key h]

/-- Like `sum_map_dmod`, through a filter whose verdict the modification
does not change. -/
theorem sum_filter_map_dmod {α : Type} (P : String × α → Bool)
    (F : String × α → Int) (f : α → α) :
    ∀ (m : List (String × α)) (key : String) (x : α), dget? m key = some x →
      P (key, f x) = P (key, x) →
      (((dmod m key f).filter P).map F).sum =
        ((m.filter P).map F).sum +
          (if P (key, x) = true then F (key, f x) - F (key, x) else 0) := by
  intro m
  induction m with
  | nil =>
    intro key x h _
    simp [dget?] at h
  | cons p rest ih =>
    intro key x h hP
    obtain ⟨k2, w⟩ := p
    simp only [dget?] at h
    simp only [dmod]
    by_cases hk : k2 = key
    · rw [if_pos hk] at h
      rw [if_pos hk]
      have hw : w = x := Option.some.inj h
      subst hw
      subst hk
      rw [List.filter_cons, List.filter_cons, hP]
      by_cases hPw : P (k2, w) = true
      · rw [if_pos hPw, if_pos hPw, if_pos hPw]
        simp only [List.map_cons, List.sum_cons]
        ring
      · rw [if_neg hPw, if_neg hPw, if_neg hPw]
        ring
    · rw [if_neg hk] at h
      rw [if_neg hk]
      rw [List.filter_cons, List.filter_cons]
      by_cases hPw : P (k2, w) = true
      · rw [if_pos hPw, if_pos hPw]
        simp only [List.map_cons, List.sum_cons, ih key x h hP]
        ring
      · rw [if_neg hPw, if_neg hPw]
        exact ih key x h hP

/-- Members of an upserted dict: either members of the original or the new
entry itself. -/
theorem mem_dset {α : Type} :
    ∀ (m : List (String × α)) (key : String) (v : α) (p : String × α),
      p ∈ dset m key v → p ∈ m ∨ p = (key, v) := by
  intro m
  induction m with
  | nil =>
    intro key v p h
    cases h with
    | head => exact Or.inr rfl
    | tail _ h2 => cases h2
  | cons q rest ih =>
    intro key v p h
    obtain ⟨k2, w⟩ := q
    simp only [dset] at h
    by_cases hk : k2 = key
    · rw [if_pos hk] at h
      cases h with
      | head => exact Or.inr rfl
      | tail _ h2 => exact Or.inl (List.mem_cons_of_mem _ h2)
    · rw [if_neg hk] at h
      cases h with
      | head => exact Or.inl (List.mem_cons_self _ _)
      | tail _ h2 =>
        cases ih key v p h2 with
        | inl h3 => exact Or.inl (List.mem_cons_of_mem _ h3)
        | inr h3 => exact Or.inr h3

/-- `dset` preserves key distinctness. -/
theorem dset_nodup {α : Type} (m : List (String × α)) (key : String) (v : α)
    (h : (dkeys m).Nodup) : (dkeys (dset m key v)).Nodup := by
  rw [dkeys_dset]
  by_cases hm : key ∈ dkeys m
  · rw [if_pos hm]
    exact h
  · rw [if_neg hm]
    simp [List.nodup_append, h, hm]

/-- A present key looks up its unique value when keys are distinct. -/
theorem dget?_of_mem_nodup {α : Type} :
    ∀ (m : List (String × α)), (dkeys m).Nodup →
      ∀ (p : String × α), p ∈ m → dget? m p.1 = some p.2 := by
  intro m
  induction m with
  | nil =>
    intro _ p h
    cases h
  | cons q rest ih =>
    intro hnd p h
    obtain ⟨k2, w⟩ := q
    have hnd' : k2 ∉ dkeys rest ∧ (dkeys rest).Nodup := List.nodup_cons.mp hnd
    cases h with
    | head =>
      simp [dget?]
    | tail _ h2 =>
      simp only [dget?]
      by_cases hk : k2 = p.1
      · exfalso
        apply hnd'.1
        rw [hk, mem_dkeys_iff_dget?, ih hnd'.2 p h2]
        rfl
      · rw [if_neg hk]
        exact ih hnd'.2 p h2

/-- `dmod` does not change key membership. -/
theorem dmem_dmod {α : Type} (m : List (String × α)) (key k : String)
    (f : α → α) : dmem (dmod m key f) k = dmem m k := by
  unfold dmem
  rw [dget?_dmod]
  by_cases h : key = k
  · rw [if_pos h]
    cases dget? m k <;> rfl
  · rw [if_neg h]

/-- A finite `EInt` exhibits its integer. -/
theorem isFin_iff (x : EInt) : EInt.isFin x ↔ ∃ n : Int, x = EInt.fin n := by
  cases x <;> simp [EInt.isFin]

namespace Advogato

/-- The nested `dmod` used by `augment_edge` does not change the edge
structure. -/
theorem has_edge_dmod2 (V : List (String × List (String × Edge)))
    (a b x y : String) (fe : Edge → Edge) :
    Digraph.has_edge ⟨dmod V a (fun m => dmod m b fe)⟩ x y =
      Digraph.has_edge ⟨V⟩ x y := by
  unfold Digraph.has_edge
  rw [show (Digraph.mk (dmod V a (fun m => dmod m b fe))).V =
    dmod V a (fun m => dmod m b fe) from rfl]
  rw [dget?_dmod]
  by_cases hax : a = x
  · rw [if_pos hax]
    cases hv : dget? V x with
    | none => rfl
    | some m =>
      show dmem (dmod m b fe) y = dmem m y
      exact dmem_dmod m b y fe
  · rw [if_neg hax]

/-- `res_cap` when the forward edge is stored. -/
theorem res_cap_fwd {g : Digraph} {u v : String} {m : List (String × Edge)}
    {e : Edge} (hm : dget? g.V u = some m) (he : dget? m v = some e) :
    res_cap g u v = e.c.sub e.f := by
  unfold res_cap
  simp only [hm, he]

/-- `res_cap` when only the reverse edge is stored. -/
theorem res_cap_rev {g : Digraph} {u v : String} {m2 : List (String × Edge)}
    {e : Edge} (hu : ∀ m, dget? g.V u = some m → dget? m v = none)
    (hm2 : dget? g.V v = some m2) (he : dget? m2 u = some e) :
    res_cap g u v = e.f := by
  unfold res_cap
  cases hm : dget? g.V u with
  | none =>
    simp only [hm2, he]
  | some m =>
    simp only [hu m hm, hm2, he]

/-- `res_cap` when neither direction is stored. -/
theorem res_cap_none {g : Digraph} {u v : String}
    (hu : ∀ m, dget? g.V u = some m → dget? m v = none)
    (hv : ∀ m, dget? g.V v = some m → dget? m u = none) :
    res_cap g u v = EInt.fin 0 := by
  unfold res_cap
  cases hm : dget? g.V u with
  | none =>
    cases hm2 : dget? g.V v with
    | none => rfl
    | some m2 =>
      simp only [hm2, hv m2 hm2]
  | some m =>
    cases hm2 : dget? g.V v with
    | none =>
      simp only [hu m hm, hm2]
    | some m2 =>
      simp only [hu m hm, hm2, hv m2 hm2]

/-- `has_edge` from the dictionary lookups. -/
theorem has_edge_eq_dmem {g : Digraph} {u : String}
    {m : List (String × Edge)} (hm : dget? g.V u = some m) (v : String) :
    g.has_edge u v = dmem m v := by
  unfold Digraph.has_edge
  rw [hm]

/-- `has_edge` is false at an absent source vertex. -/
theorem has_edge_eq_false {g : Digraph} {u : String}
    (hm : dget? g.V u = none) (v : String) : g.has_edge u v = false := by
  unfold Digraph.has_edge
  rw [hm]

/-- On a network with finite flows and non-negative-sentinel capacities,
every residual capacity is finite or infinite (never the negative
sentinel). -/
theorem res_cap_finOrInf (gp : Digraph) (hf : FinF gp) (hc : CFinOrInf gp)
    (u v : String) :
    EInt.isFin (res_cap gp u v) ∨ res_cap gp u v = EInt.inf := by
  cases hm : dget? gp.V u with
  | some m =>
    cases he : dget? m v with
    | some e =>
      rw [res_cap_fwd hm he]
      obtain ⟨a, ha⟩ := (isFin_iff _).mp
        (hf (u, m) (dget?_mem hm) (v, e) (dget?_mem he))
      rcases hc (u, m) (dget?_mem hm) (v, e) (dget?_mem he) with hcf | hci
      · obtain ⟨b, hb⟩ := (isFin_iff _).mp hcf
        rw [ha, hb]
        left
        exact trivial
      · rw [ha, hci]
        right
        rfl
    | none =>
      cases hm2 : dget? gp.V v with
      | some m2 =>
        cases he2 : dget? m2 u with
        | some e2 =>
          rw [res_cap_rev (fun m' hm' => by rw [hm] at hm'; rw [← Option.some.inj hm']; exact he) hm2 he2]
          left
          exact hf (v, m2) (dget?_mem hm2) (u, e2) (dget?_mem he2)
        | none =>
          rw [res_cap_none (fun m' hm' => by rw [hm] at hm'; rw [← Option.some.inj hm']; exact he)
            (fun m' hm' => by rw [hm2] at hm'; rw [← Option.some.inj hm']; exact he2)]
          left
          exact trivial
      | none =>
        rw [res_cap_none (fun m' hm' => by rw [hm] at hm'; rw [← Option.some.inj hm']; exact he)
          (fun m' hm' => by rw [hm2] at hm'; cases hm')]
        left
        exact trivial
  | none =>
    cases hm2 : dget? gp.V v with
    | some m2 =>
      cases he2 : dget? m2 u with
      | some e2 =>
        rw [res_cap_rev (fun m' hm' => by rw [hm] at hm'; cases hm') hm2 he2]
        left
        exact hf (v, m2) (dget?_mem hm2) (u, e2) (dget?_mem he2)
      | none =>
        rw [res_cap_none (fun m' hm' => by rw [hm] at hm'; cases hm')
          (fun m' hm' => by rw [hm2] at hm'; rw [← Option.some.inj hm']; exact he2)]
        left
        exact trivial
    | none =>
      rw [res_cap_none (fun m' hm' => by rw [hm] at hm'; cases hm')
        (fun m' hm' => by rw [hm2] at hm'; cases hm')]
      left
      exact trivial

/-- A nonzero residual capacity needs a stored edge in one direction. -/
theorem res_cap_exist (g : Digraph) (u v : String)
    (h : res_cap g u v ≠ EInt.fin 0) :
    g.has_edge u v = true ∨ g.has_edge v u = true := by
  cases hm : dget? g.V u with
  | some m =>
    cases he : dget? m v with
    | some e =>
      left
      rw [has_edge_eq_dmem hm v]
      unfold dmem
      rw [he]
      rfl
    | none =>
      cases hm2 : dget? g.V v with
      | some m2 =>
        cases he2 : dget? m2 u with
        | some e2 =>
          right
          rw [has_edge_eq_dmem hm2 u]
          unfold dmem
          rw [he2]
          rfl
        | none =>
          exact absurd (res_cap_none
            (fun m' hm' => by rw [hm] at hm'; rw [← Option.some.inj hm']; exact he)
            (fun m' hm' => by rw [hm2] at hm'; rw [← Option.some.inj hm']; exact he2)) h
      | none =>
        exact absurd (res_cap_none
          (fun m' hm' => by rw [hm] at hm'; rw [← Option.some.inj hm']; exact he)
          (fun m' hm' => by rw [hm2] at hm'; cases hm')) h
  | none =>
    cases hm2 : dget? g.V v with
    | some m2 =>
      cases he2 : dget? m2 u with
      | some e2 =>
        right
        rw [has_edge_eq_dmem hm2 u]
        unfold dmem
        rw [he2]
        rfl
      | none =>
        exact absurd (res_cap_none
          (fun m' hm' => by rw [hm] at hm'; cases hm')
          (fun m' hm' => by rw [hm2] at hm'; rw [← Option.some.inj hm']; exact he2)) h
    | none =>
      exact absurd (res_cap_none
        (fun m' hm' => by rw [hm] at hm'; cases hm')
        (fun m' hm' => by rw [hm2] at hm'; cases hm')) h

/-- Walks concatenate. -/
theorem isWalk_append :
    ∀ (l1 : List (String × String)) (a b c : String)
      (l2 : List (String × String)),
      IsWalk a l1 b → IsWalk b l2 c → IsWalk a (l1 ++ l2) c := by
  intro l1
  induction l1 with
  | nil =>
    intro a b c l2 h1 h2
    have hab : a = b := h1
    rw [List.nil_append, hab]
    exact h2
  | cons uv rest ih =>
    intro a b c l2 h1 h2
    obtain ⟨ha, hrest⟩ := h1
    exact ⟨ha, ih uv.2 b c l2 hrest h2⟩

end Advogato

namespace Advogato

/-- What `collect_path` returns: a reversed walk of real, non-skipped,
predecessor-linked edges from the source to `label`, whose first collected
pair (if any) ends at `label`. -/
theorem collect_path_walk (g : Digraph) (skip : String → String → Bool)
    (s : String) (pg : List (String × Vertex_prop)) (hpg : PgInv g skip s pg) :
    ∀ (n : Nat) (label : String) (l : List (String × String)),
      collect_path pg n label = some l →
      IsWalk s l.reverse label ∧
        (∀ uv ∈ l, skip uv.1 uv.2 = false ∧ g.has_edge uv.1 uv.2 = true) ∧
        (l ≠ [] → ∃ p rest, l = (p, label) :: rest) := by
  intro n
  induction n with
  | zero =>
    intro label l h
    cases h
  | succ n ih =>
    intro label l h
    have hstep : collect_path pg (n + 1) label =
        match dget? pg label with
        | none => none
        | some vp =>
          match vp.pi with
          | none => some []
          | some p =>
            match collect_path pg n p with
            | none => none
            | some rest => some ((p, label) :: rest) := rfl
    rw [hstep] at h
    cases hvp : dget? pg label with
    | none =>
      rw [hvp] at h
      exact Option.noConfusion h
    | some vp =>
      simp only [hvp] at h
      cases hpi : vp.pi with
      | none =>
        simp only [hpi] at h
        have hl : l = [] := (Option.some.inj h).symm
        subst hl
        refine ⟨?_, ?_, ?_⟩
        · show s = label
          exact ((hpg label vp hvp).2.1 hpi).symm
        · intro uv huv
          cases huv
        · intro hne
          exact absurd rfl hne
      | some p =>
        simp only [hpi] at h
        cases hcp : collect_path pg n p with
        | none =>
          simp only [hcp] at h
          exact Option.noConfusion h
        | some rest =>
          simp only [hcp] at h
          have hl : l = (p, label) :: rest := (Option.some.inj h).symm
          subst hl
          obtain ⟨hw, hmem, _⟩ := ih p rest hcp
          obtain ⟨pp, _, _, hsk, hedge⟩ := (hpg label vp hvp).2.2 p hpi
          refine ⟨?_, ?_, ?_⟩
          · rw [List.reverse_cons]
            exact isWalk_append rest.reverse s p label [(p, label)] hw
              ⟨rfl, rfl⟩
          · intro uv huv
            cases huv with
            | head => exact ⟨hsk, hedge⟩
            | tail _ h2 => exact hmem uv h2
          · intro _
            exact ⟨p, rest, rfl⟩

/-- `cfpStep` when the candidate lowers the bottleneck. -/
theorem cfpStep_pos (gp : Digraph) (acc : EInt) (uv : String × String)
    (h : (res_cap gp uv.1 uv.2).blt acc = true) :
    cfpStep gp acc uv = res_cap gp uv.1 uv.2 := by
  show (if (res_cap gp uv.1 uv.2).blt acc then res_cap gp uv.1 uv.2 else acc) =
    res_cap gp uv.1 uv.2
  rw [if_pos h]

/-- `cfpStep` when the candidate does not lower the bottleneck. -/
theorem cfpStep_neg (gp : Digraph) (acc : EInt) (uv : String × String)
    (h : ¬ (res_cap gp uv.1 uv.2).blt acc = true) :
    cfpStep gp acc uv = acc := by
  show (if (res_cap gp uv.1 uv.2).blt acc then res_cap gp uv.1 uv.2 else acc) =
    acc
  rw [if_neg h]

/-- `path_cfp` is the fold of `cfpStep`. -/
theorem path_cfp_eq_foldl (gp : Digraph) (path : List (String × String)) :
    path_cfp gp path = path.foldl (cfpStep gp) .inf := rfl

/-- The fold inside `path_cfp`, with an arbitrary accumulator: the result
is finite as soon as the accumulator is finite or some path edge has
finite residual capacity. -/
theorem path_cfp_go_fin (gp : Digraph) (hf : FinF gp) (hc : CFinOrInf gp) :
    ∀ (path : List (String × String)) (acc : EInt),
      (EInt.isFin acc ∨ acc = EInt.inf) →
      (EInt.isFin acc ∨ ∃ uv ∈ path, EInt.isFin (res_cap gp uv.1 uv.2)) →
      EInt.isFin (path.foldl (cfpStep gp) acc) := by
  intro path
  induction path with
  | nil =>
    intro acc _ hex
    cases hex with
    | inl h => exact h
    | inr h =>
      obtain ⟨uv, huv, _⟩ := h
      cases huv
  | cons uv rest ih =>
    intro acc hacc hex
    rw [List.foldl_cons]
    have hresfi := res_cap_finOrInf gp hf hc uv.1 uv.2
    by_cases hblt : (res_cap gp uv.1 uv.2).blt acc = true
    · rw [cfpStep_pos gp acc uv hblt]
      have hresfin : EInt.isFin (res_cap gp uv.1 uv.2) := by
        cases hresfi with
        | inl h => exact h
        | inr h =>
          exfalso
          rw [h] at hblt
          cases acc <;> cases hblt
      exact ih (res_cap gp uv.1 uv.2) (Or.inl hresfin) (Or.inl hresfin)
    · rw [cfpStep_neg gp acc uv hblt]
      cases hex with
      | inl h => exact ih acc hacc (Or.inl h)
      | inr h =>
        obtain ⟨w, hw, hwfin⟩ := h
        cases hw with
        | head =>
          have haccfin : EInt.isFin acc := by
            cases hacc with
            | inl h2 => exact h2
            | inr h2 =>
              exfalso
              apply hblt
              rw [h2]
              obtain ⟨k, hk⟩ := (isFin_iff _).mp hwfin
              rw [hk]
              rfl
          exact ih acc (Or.inl haccfin) (Or.inl haccfin)
        | tail _ h2 => exact ih acc hacc (Or.inr ⟨w, h2, hwfin⟩)

/-- The bottleneck `cfp` is finite as soon as one path edge has finite
residual capacity. -/
theorem path_cfp_isFin (gp : Digraph) (hf : FinF gp) (hc : CFinOrInf gp)
    (path : List (String × String))
    (hex : ∃ uv ∈ path, EInt.isFin (res_cap gp uv.1 uv.2)) :
    EInt.isFin (path_cfp gp path) := by
  rw [path_cfp_eq_foldl]
  exact path_cfp_go_fin gp hf hc path .inf (Or.inr rfl) (Or.inr hex)

end Advogato

/-- Adding finite values stays finite. -/
theorem isFin_add (a b : EInt) (ha : EInt.isFin a) (hb : EInt.isFin b) :
    EInt.isFin (a.add b) := by
  obtain ⟨x, hx⟩ := (isFin_iff a).mp ha
  obtain ⟨y, hy⟩ := (isFin_iff b).mp hb
  subst hx
  subst hy
  exact trivial

/-- Subtracting finite values stays finite. -/
theorem isFin_sub (a b : EInt) (ha : EInt.isFin a) (hb : EInt.isFin b) :
    EInt.isFin (a.sub b) := by
  obtain ⟨x, hx⟩ := (isFin_iff a).mp ha
  obtain ⟨y, hy⟩ := (isFin_iff b).mp hb
  subst hx
  subst hy
  exact trivial

namespace Advogato

/-- The flow-network half of `augment_edge` in the forward case. -/
theorem augment_edge_fst_fwd (st : Digraph × Digraph) (cfp : EInt)
    (uv : String × String) (h : st.1.has_edge uv.1 uv.2 = true) :
    (augment_edge st cfp uv).1 =
      ⟨dmod st.1.V uv.1 (fun m => dmod m uv.2
        (fun e => { e with f := e.f.add cfp }))⟩ := by
  unfold augment_edge
  rw [if_pos h]

/-- The flow-network half of `augment_edge` in the reverse case. -/
theorem augment_edge_fst_rev (st : Digraph × Digraph) (cfp : EInt)
    (uv : String × String) (h : ¬ st.1.has_edge uv.1 uv.2 = true) :
    (augment_edge st cfp uv).1 =
      ⟨dmod st.1.V uv.2 (fun m => dmod m uv.1
        (fun e => { e with f := e.f.sub cfp }))⟩ := by
  unfold augment_edge
  rw [if_neg h]

/-- Inflow after modifying one stored edge. -/
theorem inflow_int_dmod (V : List (String × List (String × Edge)))
    (a b x : String) (fe : Edge → Edge) (m : List (String × Edge)) (e : Edge)
    (hm : dget? V a = some m) (he : dget? m b = some e)
    (hv : (fe e).v = e.v) :
    inflow_int ⟨dmod V a (fun m => dmod m b fe)⟩ x =
      inflow_int ⟨V⟩ x +
        (if (e.v == x) = true then toIntZ (fe e).f - toIntZ e.f else 0) := by
  unfold inflow_int
  rw [sum_map_dmod
    (fun p => ((p.2.filter (fun q => q.2.v == x)).map
      (fun q => toIntZ q.2.f)).sum)
    (fun m => dmod m b fe) V a m hm]
  have hP : ((b, fe e).2.v == x) = ((b, e).2.v == x) := by
    show ((fe e).v == x) = (e.v == x)
    rw [hv]
  have hdelta := sum_filter_map_dmod (fun q => q.2.v == x)
    (fun q => toIntZ q.2.f) fe m b e he hP
  rw [hdelta]
  have hcancel : ∀ (S T D : Int), S + (T + D - T) = S + D := by
    intro S T D
    ring
  rw [hcancel]

/-- Outflow after modifying one stored edge. -/
theorem outflow_int_dmod (V : List (String × List (String × Edge)))
    (a b x : String) (fe : Edge → Edge) (m : List (String × Edge)) (e : Edge)
    (hm : dget? V a = some m) (he : dget? m b = some e) :
    outflow_int ⟨dmod V a (fun m => dmod m b fe)⟩ x =
      outflow_int ⟨V⟩ x +
        (if (a == x) = true then toIntZ (fe e).f - toIntZ e.f else 0) := by
  unfold outflow_int
  rw [sum_map_dmod
    (fun p => if p.1 == x then (p.2.map (fun q => toIntZ q.2.f)).sum else 0)
    (fun m => dmod m b fe) V a m hm]
  have hinner := sum_map_dmod (fun q => toIntZ q.2.f) fe m b e he
  by_cases hax : (a == x) = true
  · rw [if_pos hax, if_pos hax, if_pos hax, hinner]
    ring
  · rw [if_neg hax, if_neg hax, if_neg hax]
    ring

/-- One `augment_edge` step moves `cfp` of excess from the edge's source
to its target (whichever direction the stored edge has). -/
theorem augment_excess (st : Digraph × Digraph) (cfpI : Int)
    (uv : String × String) (hkey : EdgeKeyed st.1) (hfin : FinF st.1)
    (hexist : st.1.has_edge uv.1 uv.2 = true ∨
      st.1.has_edge uv.2 uv.1 = true) (x : String) :
    inflow_int (augment_edge st (.fin cfpI) uv).1 x -
        outflow_int (augment_edge st (.fin cfpI) uv).1 x =
      inflow_int st.1 x - outflow_int st.1 x +
        cfpI * ((if uv.2 = x then 1 else 0) - (if uv.1 = x then 1 else 0)) := by
  by_cases hfwd : st.1.has_edge uv.1 uv.2 = true
  · rw [augment_edge_fst_fwd st (.fin cfpI) uv hfwd]
    cases hm : dget? st.1.V uv.1 with
    | none =>
      rw [has_edge_eq_false hm] at hfwd
      cases hfwd
    | some m =>
      cases he : dget? m uv.2 with
      | none =>
        exfalso
        rw [has_edge_eq_dmem hm uv.2] at hfwd
        unfold dmem at hfwd
        rw [he] at hfwd
        cases hfwd
      | some e =>
        have hmemV := dget?_mem hm
        have hmemE := dget?_mem he
        obtain ⟨fv, hfv⟩ := (isFin_iff _).mp (hfin _ hmemV _ hmemE)
        have hev : e.v = uv.2 := (hkey _ hmemV _ hmemE).symm
        have hdf : toIntZ ((fun e => { e with f := e.f.add (EInt.fin cfpI) } :
            Edge → Edge) e).f - toIntZ e.f = cfpI := by
          show toIntZ (e.f.add (EInt.fin cfpI)) - toIntZ e.f = cfpI
          rw [hfv]
          show fv + cfpI - fv = cfpI
          ring
        rw [inflow_int_dmod st.1.V uv.1 uv.2 x _ m e hm he rfl,
          outflow_int_dmod st.1.V uv.1 uv.2 x _ m e hm he, hdf, hev]
        rw [show (Digraph.mk st.1.V : Digraph) = st.1 from rfl]
        by_cases hvx : uv.2 = x <;> by_cases hux : uv.1 = x
        · rw [if_pos (beq_iff_eq.mpr hvx), if_pos (beq_iff_eq.mpr hux),
            if_pos hvx, if_pos hux]
          ring
        · rw [if_pos (beq_iff_eq.mpr hvx),
            if_neg (fun hc => hux (beq_iff_eq.mp hc)),
            if_pos hvx, if_neg hux]
          ring
        · rw [if_neg (fun hc => hvx (beq_iff_eq.mp hc)),
            if_pos (beq_iff_eq.mpr hux), if_neg hvx, if_pos hux]
          ring
        · rw [if_neg (fun hc => hvx (beq_iff_eq.mp hc)),
            if_neg (fun hc => hux (beq_iff_eq.mp hc)), if_neg hvx,
            if_neg hux]
          ring
  · have hrev : st.1.has_edge uv.2 uv.1 = true := by
      cases hexist with
      | inl h => exact absurd h hfwd
      | inr h => exact h
    rw [augment_edge_fst_rev st (.fin cfpI) uv hfwd]
    cases hm : dget? st.1.V uv.2 with
    | none =>
      rw [has_edge_eq_false hm] at hrev
      cases hrev
    | some m =>
      cases he : dget? m uv.1 with
      | none =>
        exfalso
        rw [has_edge_eq_dmem hm uv.1] at hrev
        unfold dmem at hrev
        rw [he] at hrev
        cases hrev
      | some e =>
        have hmemV := dget?_mem hm
        have hmemE := dget?_mem he
        obtain ⟨fv, hfv⟩ := (isFin_iff _).mp (hfin _ hmemV _ hmemE)
        have hev : e.v = uv.1 := (hkey _ hmemV _ hmemE).symm
        have hdf : toIntZ ((fun e => { e with f := e.f.sub (EInt.fin cfpI) } :
            Edge → Edge) e).f - toIntZ e.f = -cfpI := by
          show toIntZ (e.f.sub (EInt.fin cfpI)) - toIntZ e.f = -cfpI
          rw [hfv]
          show fv - cfpI - fv = -cfpI
          ring
        rw [inflow_int_dmod st.1.V uv.2 uv.1 x _ m e hm he rfl,
          outflow_int_dmod st.1.V uv.2 uv.1 x _ m e hm he, hdf, hev]
        rw [show (Digraph.mk st.1.V : Digraph) = st.1 from rfl]
        by_cases hvx : uv.2 = x <;> by_cases hux : uv.1 = x
        · rw [if_pos (beq_iff_eq.mpr hux), if_pos (beq_iff_eq.mpr hvx),
            if_pos hvx, if_pos hux]
          ring
        · rw [if_neg (fun hc => hux (beq_iff_eq.mp hc)),
            if_pos (beq_iff_eq.mpr hvx), if_pos hvx, if_neg hux]
          ring
        · rw [if_pos (beq_iff_eq.mpr hux),
            if_neg (fun hc => hvx (beq_iff_eq.mp hc)), if_neg hvx,
            if_pos hux]
          ring
        · rw [if_neg (fun hc => hux (beq_iff_eq.mp hc)),
            if_neg (fun hc => hvx (beq_iff_eq.mp hc)), if_neg hvx,
            if_neg hux]
          ring

end Advogato

namespace Advogato

/-- A per-edge property survives the nested `dmod` when the modification
preserves it. -/
theorem edges_pred_dmod2 {Q : String × Edge → Prop}
    (V : List (String × List (String × Edge))) (a b : String)
    (fe : Edge → Edge) (hQ : ∀ k e, Q (k, e) → Q (k, fe e))
    (h : ∀ p ∈ V, ∀ q ∈ p.2, Q q) :
    ∀ p ∈ dmod V a (fun m => dmod m b fe), ∀ q ∈ p.2, Q q := by
  intro p hp q hq
  cases mem_dmod hp with
  | inl h2 => exact h p h2 q hq
  | inr h2 =>
    obtain ⟨m0, hm0, hpval⟩ := h2
    rw [hpval] at hq
    cases mem_dmod hq with
    | inl h3 => exact h (a, m0) hm0 q h3
    | inr h3 =>
      obtain ⟨e0, he0, hqval⟩ := h3
      rw [hqval]
      exact hQ b e0 (h (a, m0) hm0 (b, e0) he0)

/-- The residual half of `augment_edge` in the forward case. -/
theorem augment_edge_snd_fwd (st : Digraph × Digraph) (cfp : EInt)
    (uv : String × String) (h : st.1.has_edge uv.1 uv.2 = true) :
    (augment_edge st cfp uv).2 =
      ⟨dmod
        (dmod st.2.V uv.1 (fun m => dmod m uv.2 (fun e =>
          { e with f :=
            (match dget? st.2.V uv.1 with
             | some m => match dget? m uv.2 with
               | some e => e.f.add cfp
               | none => EInt.fin 0
             | none => EInt.fin 0) })))
        uv.2 (fun m => dmod m uv.1 (fun e =>
          { e with c :=
            (match dget? st.2.V uv.1 with
             | some m => match dget? m uv.2 with
               | some e => e.f.add cfp
               | none => EInt.fin 0
             | none => EInt.fin 0) }))⟩ := by
  unfold augment_edge
  rw [if_pos h]

/-- The residual half of `augment_edge` in the reverse case. -/
theorem augment_edge_snd_rev (st : Digraph × Digraph) (cfp : EInt)
    (uv : String × String) (h : ¬ st.1.has_edge uv.1 uv.2 = true) :
    (augment_edge st cfp uv).2 =
      ⟨dmod
        (dmod st.2.V uv.2 (fun m => dmod m uv.1 (fun e =>
          { e with f :=
            (match dget? st.2.V uv.2 with
             | some m => match dget? m uv.1 with
               | some e => e.f.sub cfp
               | none => EInt.fin 0
             | none => EInt.fin 0) })))
        uv.1 (fun m => dmod m uv.2 (fun e =>
          { e with c :=
            (match dget? st.2.V uv.2 with
             | some m => match dget? m uv.1 with
               | some e => e.f.sub cfp
               | none => EInt.fin 0
             | none => EInt.fin 0) }))⟩ := by
  unfold augment_edge
  rw [if_neg h]

/-- The forward replacement flow is finite when flows are finite. -/
theorem fwd_newf_isFin (gp : Digraph) (cfpI : Int) (u v : String)
    (hf : FinF gp) :
    EInt.isFin (match dget? gp.V u with
      | some m => match dget? m v with
        | some e => e.f.add (EInt.fin cfpI)
        | none => EInt.fin 0
      | none => EInt.fin 0) := by
  cases hm : dget? gp.V u with
  | none => exact trivial
  | some m =>
    show EInt.isFin (match dget? m v with
      | some e => e.f.add (EInt.fin cfpI)
      | none => EInt.fin 0)
    cases he : dget? m v with
    | none => exact trivial
    | some e =>
      exact isFin_add e.f (EInt.fin cfpI)
        (hf (u, m) (dget?_mem hm) (v, e) (dget?_mem he)) trivial

/-- The reverse replacement flow is finite when flows are finite. -/
theorem rev_newf_isFin (gp : Digraph) (cfpI : Int) (u v : String)
    (hf : FinF gp) :
    EInt.isFin (match dget? gp.V u with
      | some m => match dget? m v with
        | some e => e.f.sub (EInt.fin cfpI)
        | none => EInt.fin 0
      | none => EInt.fin 0) := by
  cases hm : dget? gp.V u with
  | none => exact trivial
  | some m =>
    show EInt.isFin (match dget? m v with
      | some e => e.f.sub (EInt.fin cfpI)
      | none => EInt.fin 0)
    cases he : dget? m v with
    | none => exact trivial
    | some e =>
      exact isFin_sub e.f (EInt.fin cfpI)
        (hf (u, m) (dget?_mem hm) (v, e) (dget?_mem he)) trivial

/-- One `augment_edge` step preserves the loop invariant. -/
theorem augment_edge_inv (g0 : Digraph) (t : String) (st : Digraph × Digraph)
    (cfpI : Int) (uv : String × String) (hinv : FFInv g0 t st) :
    FFInv g0 t (augment_edge st (.fin cfpI) uv) := by
  by_cases hfwd : st.1.has_edge uv.1 uv.2 = true
  · have h1 := augment_edge_fst_fwd st (.fin cfpI) uv hfwd
    have h2 := augment_edge_snd_fwd st (.fin cfpI) uv hfwd
    have hnffin := fwd_newf_isFin st.2 cfpI uv.1 uv.2 hinv.fin2
    refine ⟨?_, ?_, ?_, ?_, ?_, ?_, ?_, ?_⟩
    · intro x y
      rw [h1, has_edge_dmod2]
      exact hinv.hedge x y
    · rw [h1]
      exact edges_pred_dmod2 st.1.V uv.1 uv.2 _
        (fun k e hk => hk) hinv.key1
    · rw [h1]
      exact edges_pred_dmod2 st.1.V uv.1 uv.2 _
        (fun k e hk => isFin_add _ _ hk trivial) hinv.fin1
    · rw [h2]
      exact edges_pred_dmod2 _ uv.2 uv.1 _ (fun k e hk => hk)
        (edges_pred_dmod2 st.2.V uv.1 uv.2 _ (fun k e hk => hk) hinv.key2)
    · rw [h2]
      exact edges_pred_dmod2 _ uv.2 uv.1 _ (fun k e hk => hk)
        (edges_pred_dmod2 st.2.V uv.1 uv.2 _ (fun k e _ => hnffin)
          hinv.fin2)
    · rw [h2]
      exact edges_pred_dmod2 _ uv.2 uv.1 _ (fun k e _ => Or.inl hnffin)
        (edges_pred_dmod2 st.2.V uv.1 uv.2 _ (fun k e hk => hk) hinv.cfi2)
    · rw [h2]
      exact edges_pred_dmod2 _ uv.2 uv.1 _ (fun k e _ _ => hnffin)
        (edges_pred_dmod2 st.2.V uv.1 uv.2 _ (fun k e hk => hk) hinv.tfin2)
    · rw [h2]
      show (dkeys (dmod _ _ _)).Nodup
      rw [dkeys_dmod, dkeys_dmod]
      exact hinv.nd2
  · have h1 := augment_edge_fst_rev st (.fin cfpI) uv hfwd
    have h2 := augment_edge_snd_rev st (.fin cfpI) uv hfwd
    have hnffin := rev_newf_isFin st.2 cfpI uv.2 uv.1 hinv.fin2
    refine ⟨?_, ?_, ?_, ?_, ?_, ?_, ?_, ?_⟩
    · intro x y
      rw [h1, has_edge_dmod2]
      exact hinv.hedge x y
    · rw [h1]
      exact edges_pred_dmod2 st.1.V uv.2 uv.1 _
        (fun k e hk => hk) hinv.key1
    · rw [h1]
      exact edges_pred_dmod2 st.1.V uv.2 uv.1 _
        (fun k e hk => isFin_sub _ _ hk trivial) hinv.fin1
    · rw [h2]
      exact edges_pred_dmod2 _ uv.1 uv.2 _ (fun k e hk => hk)
        (edges_pred_dmod2 st.2.V uv.2 uv.1 _ (fun k e hk => hk) hinv.key2)
    · rw [h2]
      exact edges_pred_dmod2 _ uv.1 uv.2 _ (fun k e hk => hk)
        (edges_pred_dmod2 st.2.V uv.2 uv.1 _ (fun k e _ => hnffin)
          hinv.fin2)
    · rw [h2]
      exact edges_pred_dmod2 _ uv.1 uv.2 _ (fun k e _ => Or.inl hnffin)
        (edges_pred_dmod2 st.2.V uv.2 uv.1 _ (fun k e hk => hk) hinv.cfi2)
    · rw [h2]
      exact edges_pred_dmod2 _ uv.1 uv.2 _ (fun k e _ _ => hnffin)
        (edges_pred_dmod2 st.2.V uv.2 uv.1 _ (fun k e hk => hk) hinv.tfin2)
    · rw [h2]
      show (dkeys (dmod _ _ _)).Nodup
      rw [dkeys_dmod, dkeys_dmod]
      exact hinv.nd2

/-- Pushing `cfp` along a whole walk: the invariant survives and the
excess changes only at the walk's endpoints. -/
theorem fold_augment (g0 : Digraph) (t : String) (cfpI : Int) (gi : Digraph)
    (hgi : ∀ x y, gi.has_edge x y = g0.has_edge x y) :
    ∀ (path : List (String × String)) (a b : String) (st : Digraph × Digraph),
      IsWalk a path b →
      (∀ uv ∈ path, res_cap gi uv.1 uv.2 ≠ EInt.fin 0) →
      FFInv g0 t st →
      FFInv g0 t
        (path.foldl (fun st uv => augment_edge st (.fin cfpI) uv) st) ∧
      ∀ x,
        inflow_int
            (path.foldl (fun st uv => augment_edge st (.fin cfpI) uv) st).1 x -
          outflow_int
            (path.foldl (fun st uv => augment_edge st (.fin cfpI) uv) st).1 x =
        inflow_int st.1 x - outflow_int st.1 x +
          cfpI * ((if b = x then 1 else 0) - (if a = x then 1 else 0)) := by
  intro path
  induction path with
  | nil =>
    intro a b st hw _ hinv
    refine ⟨hinv, ?_⟩
    intro x
    have hab : a = b := hw
    rw [List.foldl_nil, hab]
    ring
  | cons uv rest ih =>
    intro a b st hw hskip hinv
    obtain ⟨ha, hrest⟩ := hw
    have hexist : st.1.has_edge uv.1 uv.2 = true ∨
        st.1.has_edge uv.2 uv.1 = true := by
      have h0 := res_cap_exist gi uv.1 uv.2
        (hskip uv (List.mem_cons_self uv rest))
      rw [hinv.hedge uv.1 uv.2, hinv.hedge uv.2 uv.1, ← hgi uv.1 uv.2,
        ← hgi uv.2 uv.1]
      exact h0
    have hinv' := augment_edge_inv g0 t st cfpI uv hinv
    obtain ⟨hinvres, hdelta⟩ := ih uv.2 b (augment_edge st (.fin cfpI) uv)
      hrest (fun w hw2 => hskip w (List.mem_cons_of_mem uv hw2)) hinv'
    rw [List.foldl_cons]
    refine ⟨hinvres, ?_⟩
    intro x
    rw [hdelta x, augment_excess st cfpI uv hinv.key1 hinv.fin1 hexist x,
      ← ha]
    ring

end Advogato

/-- `foldl_invariant` with access to list membership. -/
theorem foldl_invariant_mem {α β : Type} (f : β → α → β) (P : β → Prop) :
    ∀ (l : List α) (b : β), P b → (∀ b a, a ∈ l → P b → P (f b a)) →
      P (l.foldl f b) := by
  intro l
  induction l with
  | nil =>
    intro b hb _
    exact hb
  | cons x xs ih =>
    intro b hb hstep
    rw [List.foldl_cons]
    exact ih (f b x) (hstep b x (List.mem_cons_self x xs) hb)
      (fun b2 a ha hb2 => hstep b2 a (List.mem_cons_of_mem x ha) hb2)

/-- Appending a fresh key keeps keys distinct. -/
theorem keys_append_nodup {α : Type} (m : List (String × α)) (k : String)
    (x : α) (h : (dkeys m).Nodup) (hk : dmem m k = false) :
    (dkeys (m ++ [(k, x)])).Nodup := by
  have hkeys : dkeys (m ++ [(k, x)]) = dkeys m ++ [k] := by
    show List.map Prod.fst (m ++ [(k, x)]) = _
    rw [List.map_append]
    rfl
  rw [hkeys]
  have hnotmem : k ∉ dkeys m := by
    intro hmem
    rw [mem_dkeys_iff_dget?] at hmem
    unfold dmem at hk
    rw [hk] at hmem
    cases hmem
  simp [List.nodup_append, h, hnotmem]

namespace Advogato

/-- Every edge entry of `add_edge`'s result is an old entry of some vertex
dict or the added entry itself. -/
theorem edge_mem_add_edge (gp : Digraph) (u : String) (e : Edge) :
    ∀ p ∈ (gp.add_edge u e).V, ∀ q ∈ p.2,
      (∃ m0, (p.1, m0) ∈ gp.V ∧ q ∈ m0) ∨ q = (e.v, e) := by
  intro p hp q hq
  simp only [Digraph.add_edge] at hp
  have hp2 : p ∈ dmod (if dmem gp.V u then gp.V else gp.V ++ [(u, [])]) u
      (fun m => dset m e.v e) ∨ p.2 = ([] : List (String × Edge)) := by
    by_cases hmem : dmem (dmod (if dmem gp.V u then gp.V
        else gp.V ++ [(u, [])]) u (fun m => dset m e.v e)) e.v = true
    · rw [if_pos hmem] at hp
      exact Or.inl hp
    · rw [if_neg hmem] at hp
      cases List.mem_append.mp hp with
      | inl h2 => exact Or.inl h2
      | inr h2 =>
        right
        cases h2 with
        | head => rfl
        | tail _ h3 => cases h3
  cases hp2 with
  | inr hempty =>
    rw [hempty] at hq
    cases hq
  | inl hp2 =>
    have hV1 : ∀ r, r ∈ (if dmem gp.V u then gp.V else gp.V ++ [(u, [])]) →
        r ∈ gp.V ∨ r = (u, ([] : List (String × Edge))) := by
      intro r hr
      by_cases hmem : dmem gp.V u = true
      · rw [if_pos hmem] at hr
        exact Or.inl hr
      · rw [if_neg hmem] at hr
        cases List.mem_append.mp hr with
        | inl h2 => exact Or.inl h2
        | inr h2 =>
          right
          cases h2 with
          | head => rfl
          | tail _ h3 => cases h3
    cases mem_dmod hp2 with
    | inl h2 =>
      cases hV1 p h2 with
      | inl h3 => exact Or.inl ⟨p.2, by rw [Prod.mk.eta]; exact h3, hq⟩
      | inr h3 =>
        rw [h3] at hq
        cases hq
    | inr h2 =>
      obtain ⟨w, hw, hpval⟩ := h2
      rw [hpval] at hq
      cases mem_dset w e.v e q hq with
      | inr h3 => exact Or.inr h3
      | inl h3 =>
        cases hV1 (u, w) hw with
        | inl h4 =>
          rw [hpval]
          exact Or.inl ⟨w, h4, h3⟩
        | inr h4 =>
          have hwempty : w = [] := congrArg Prod.snd h4
          rw [hwempty] at h3
          cases h3
  
/-- `add_edge` keeps vertex keys distinct. -/
theorem add_edge_nodup (gp : Digraph) (u : String) (e : Edge)
    (h : (dkeys gp.V).Nodup) : (dkeys (gp.add_edge u e).V).Nodup := by
  simp only [Digraph.add_edge]
  have h1 : (dkeys (if dmem gp.V u then gp.V
      else gp.V ++ [(u, ([] : List (String × Edge)))])).Nodup := by
    by_cases hmem : dmem gp.V u = true
    · rw [if_pos hmem]
      exact h
    · rw [if_neg hmem]
      exact keys_append_nodup gp.V u [] h (Bool.eq_false_iff.mpr hmem)
  have h2 : (dkeys (dmod (if dmem gp.V u then gp.V
      else gp.V ++ [(u, ([] : List (String × Edge)))]) u
      (fun m => dset m e.v e))).Nodup := by
    rw [dkeys_dmod]
    exact h1
  by_cases hmem2 : dmem (dmod (if dmem gp.V u then gp.V
      else gp.V ++ [(u, ([] : List (String × Edge)))]) u
      (fun m => dset m e.v e)) e.v = true
  · rw [if_pos hmem2]
    exact h2
  · rw [if_neg hmem2]
    exact keys_append_nodup _ e.v [] h2 (Bool.eq_false_iff.mpr hmem2)

/-- `optimize` builds a residual structure satisfying all the invariants
`ford_fulkerson`'s loop needs, from a well-formed transformed network. -/
theorem optimize_inv (g : Digraph) (t : String)
    (hnd : (dkeys g.V).Nodup) (hf0 : FZero g)
    (hcfi : CFinOrInf g) (htin : TInFinV g t) (htout : TNoOut g t) :
    EdgeKeyed (optimize g) ∧ FinF (optimize g) ∧ CFinOrInf (optimize g) ∧
      TInFinK (optimize g) t ∧ (dkeys (optimize g).V).Nodup := by
  unfold optimize
  apply foldl_invariant_mem _ (fun gp => EdgeKeyed gp ∧ FinF gp ∧
    CFinOrInf gp ∧ TInFinK gp t ∧ (dkeys gp.V).Nodup) g.V ⟨[]⟩
  · refine ⟨?_, ?_, ?_, ?_, ?_⟩ <;>
      first
        | exact fun p hp => absurd hp (by intro h; cases h)
        | exact List.nodup_nil
  · intro gp p hp hgp
    apply foldl_invariant_mem _ (fun gp => EdgeKeyed gp ∧ FinF gp ∧
      CFinOrInf gp ∧ TInFinK gp t ∧ (dkeys gp.V).Nodup) p.2 gp hgp
    intro gp2 q hq hgp2
    obtain ⟨hkey2, hfin2, hcfi2, htfin2, hnd2⟩ := hgp2
    have hstep1 : ∀ p2 ∈ (gp2.add_edge p.1 { v := q.2.v, c := q.2.c }).V,
        ∀ q2 ∈ p2.2,
        (∃ m0, (p2.1, m0) ∈ gp2.V ∧ q2 ∈ m0) ∨
          q2 = (q.2.v, { v := q.2.v, c := q.2.c }) :=
      edge_mem_add_edge gp2 p.1 { v := q.2.v, c := q.2.c }
    have hmid : EdgeKeyed (gp2.add_edge p.1 { v := q.2.v, c := q.2.c }) ∧
        FinF (gp2.add_edge p.1 { v := q.2.v, c := q.2.c }) ∧
        CFinOrInf (gp2.add_edge p.1 { v := q.2.v, c := q.2.c }) ∧
        TInFinK (gp2.add_edge p.1 { v := q.2.v, c := q.2.c }) t ∧
        (dkeys (gp2.add_edge p.1 { v := q.2.v, c := q.2.c }).V).Nodup := by
      refine ⟨?_, ?_, ?_, ?_, add_edge_nodup gp2 p.1 _ hnd2⟩
      · intro p2 hp2 q2 hq2
        cases hstep1 p2 hp2 q2 hq2 with
        | inl h2 =>
          obtain ⟨m0, hm0, hq2m⟩ := h2
          exact hkey2 (p2.1, m0) hm0 q2 hq2m
        | inr h2 =>
          rw [h2]
      · intro p2 hp2 q2 hq2
        cases hstep1 p2 hp2 q2 hq2 with
        | inl h2 =>
          obtain ⟨m0, hm0, hq2m⟩ := h2
          exact hfin2 (p2.1, m0) hm0 q2 hq2m
        | inr h2 =>
          rw [h2]
          exact trivial
      · intro p2 hp2 q2 hq2
        cases hstep1 p2 hp2 q2 hq2 with
        | inl h2 =>
          obtain ⟨m0, hm0, hq2m⟩ := h2
          exact hcfi2 (p2.1, m0) hm0 q2 hq2m
        | inr h2 =>
          rw [h2]
          exact hcfi p hp q hq
      · intro p2 hp2 q2 hq2 hq2t
        cases hstep1 p2 hp2 q2 hq2 with
        | inl h2 =>
          obtain ⟨m0, hm0, hq2m⟩ := h2
          exact htfin2 (p2.1, m0) hm0 q2 hq2m hq2t
        | inr h2 =>
          rw [h2] at hq2t ⊢
          exact htin p hp q hq hq2t
    obtain ⟨hkey3, hfin3, hcfi3, htfin3, hnd3⟩ := hmid
    have hstep2 := edge_mem_add_edge (gp2.add_edge p.1 { v := q.2.v, c := q.2.c })
      q.2.v { v := p.1, c := q.2.f }
    refine ⟨?_, ?_, ?_, ?_, add_edge_nodup _ q.2.v _ hnd3⟩
    · intro p2 hp2 q2 hq2
      cases hstep2 p2 hp2 q2 hq2 with
      | inl h2 =>
        obtain ⟨m0, hm0, hq2m⟩ := h2
        exact hkey3 (p2.1, m0) hm0 q2 hq2m
      | inr h2 =>
        rw [h2]
    · intro p2 hp2 q2 hq2
      cases hstep2 p2 hp2 q2 hq2 with
      | inl h2 =>
        obtain ⟨m0, hm0, hq2m⟩ := h2
        exact hfin3 (p2.1, m0) hm0 q2 hq2m
      | inr h2 =>
        rw [h2]
        exact trivial
    · intro p2 hp2 q2 hq2
      cases hstep2 p2 hp2 q2 hq2 with
      | inl h2 =>
        obtain ⟨m0, hm0, hq2m⟩ := h2
        exact hcfi3 (p2.1, m0) hm0 q2 hq2m
      | inr h2 =>
        rw [h2]
        left
        show EInt.isFin q.2.f
        rw [hf0 p hp q hq]
        exact trivial
    · intro p2 hp2 q2 hq2 hq2t
      cases hstep2 p2 hp2 q2 hq2 with
      | inl h2 =>
        obtain ⟨m0, hm0, hq2m⟩ := h2
        exact htfin3 (p2.1, m0) hm0 q2 hq2m hq2t
      | inr h2 =>
        exfalso
        rw [h2] at hq2t
        have hpt : p.1 = t := hq2t
        have hlook : dget? g.V p.1 = some p.2 := dget?_of_mem_nodup g.V hnd p hp
        rw [hpt] at hlook
        have hempty : p.2 = [] := htout p.2 hlook
        rw [hempty] at hq
        cases hq

/-- On a freshly built network all inflows vanish. -/
theorem inflow_int_zero (g : Digraph) (h : FZero g) (x : String) :
    inflow_int g x = 0 := by
  unfold inflow_int
  apply List.sum_eq_zero
  intro y hy
  obtain ⟨p, hp, hyval⟩ := List.mem_map.mp hy
  rw [← hyval]
  apply List.sum_eq_zero
  intro z hz
  obtain ⟨q, hq, hzval⟩ := List.mem_map.mp hz
  rw [← hzval, h p hp q (List.mem_of_mem_filter hq)]
  rfl

/-- On a freshly built network all outflows vanish. -/
theorem outflow_int_zero (g : Digraph) (h : FZero g) (x : String) :
    outflow_int g x = 0 := by
  unfold outflow_int
  apply List.sum_eq_zero
  intro y hy
  obtain ⟨p, hp, hyval⟩ := List.mem_map.mp hy
  rw [← hyval]
  by_cases hpx : (p.1 == x) = true
  · rw [if_pos hpx]
    apply List.sum_eq_zero
    intro z hz
    obtain ⟨q, hq, hzval⟩ := List.mem_map.mp hz
    rw [← hzval, h p hp q hq]
    rfl
  · rw [if_neg hpx]

end Advogato

namespace Advogato

/-- The augmentation loop preserves interior-vertex conservation. -/
theorem ff_loop_conserve (g0 : Digraph) (s t : String) :
    ∀ (fuel : Nat) (g gp : Digraph) (res : Digraph × Digraph),
      FFInv g0 t (g, gp) →
      (∀ x, x ≠ s → x ≠ t → inflow_int g x = outflow_int g x) →
      ff_loop s t fuel g gp = some res →
      ∀ x, x ≠ s → x ≠ t → inflow_int res.1 x = outflow_int res.1 x := by
  intro fuel
  induction fuel with
  | zero =>
    intro g gp res _ _ hrun
    exact Option.noConfusion hrun
  | succ n ih =>
    intro g gp res hinv hcons hrun
    have hstep : ff_loop s t (n + 1) g gp =
        match gp.bfs s (has_zero_res_cap g) with
        | none => none
        | some pg =>
          if dmem pg t then
            match collect_path pg (pg.length + 1) t with
            | none => none
            | some path0 =>
              let path := path0.reverse
              let cfp := path_cfp gp path
              let st := path.foldl (fun st uv => augment_edge st cfp uv)
                (g, gp)
              ff_loop s t n st.1 st.2
          else some (g, gp) := rfl
    rw [hstep] at hrun
    cases hbfs : gp.bfs s (has_zero_res_cap g) with
    | none =>
      rw [hbfs] at hrun
      exact Option.noConfusion hrun
    | some pg =>
      simp only [hbfs] at hrun
      have hpginv : PgInv gp (has_zero_res_cap g) s pg :=
        bfs_pginv gp (has_zero_res_cap g) s pg hinv.key2 hinv.nd2 hbfs
      by_cases hmem : dmem pg t = true
      · rw [if_pos hmem] at hrun
        cases hcp : collect_path pg (pg.length + 1) t with
        | none =>
          simp only [hcp] at hrun
          exact Option.noConfusion hrun
        | some path0 =>
          simp only [hcp] at hrun
          obtain ⟨hwalk, hedges, hhead⟩ := collect_path_walk gp
            (has_zero_res_cap g) s pg hpginv (pg.length + 1) t path0 hcp
          cases hpath0 : path0 with
          | nil =>
            subst hpath0
            exact ih g gp res hinv hcons hrun
          | cons uvh rest0 =>
            subst hpath0
            obtain ⟨p0, rest0', hform⟩ := hhead (by simp)
            have hmemp0 : (p0, t) ∈ uvh :: rest0 := by
              rw [hform]
              exact List.mem_cons_self _ _
            have hedge_p0 : gp.has_edge p0 t = true :=
              (hedges (p0, t) hmemp0).2
            obtain ⟨m, hm⟩ : ∃ m, dget? gp.V p0 = some m := by
              cases hgm : dget? gp.V p0 with
              | none =>
                rw [has_edge_eq_false hgm] at hedge_p0
                cases hedge_p0
              | some m => exact ⟨m, rfl⟩
            obtain ⟨e, he⟩ : ∃ e, dget? m t = some e := by
              rw [has_edge_eq_dmem hm t] at hedge_p0
              unfold dmem at hedge_p0
              cases hge : dget? m t with
              | none =>
                rw [hge] at hedge_p0
                cases hedge_p0
              | some e => exact ⟨e, rfl⟩
            have hrcfin : EInt.isFin (res_cap gp p0 t) := by
              rw [res_cap_fwd hm he]
              exact isFin_sub e.c e.f
                (hinv.tfin2 (p0, m) (dget?_mem hm) (t, e) (dget?_mem he) rfl)
                (hinv.fin2 (p0, m) (dget?_mem hm) (t, e) (dget?_mem he))
            have hcfpfin : EInt.isFin
                (path_cfp gp ((uvh :: rest0).reverse)) :=
              path_cfp_isFin gp hinv.fin2 hinv.cfi2 _
                ⟨(p0, t), List.mem_reverse.mpr hmemp0, hrcfin⟩
            obtain ⟨cfpI, hcfpI⟩ := (isFin_iff _).mp hcfpfin
            rw [hcfpI] at hrun
            have hskips : ∀ uv ∈ (uvh :: rest0).reverse,
                res_cap g uv.1 uv.2 ≠ EInt.fin 0 := by
              intro uv huv
              have h1 := (hedges uv (List.mem_reverse.mp huv)).1
              unfold has_zero_res_cap at h1
              exact of_decide_eq_false h1
            obtain ⟨hinvres, hdelta⟩ := fold_augment g0 t cfpI g
              (fun x y => hinv.hedge x y) ((uvh :: rest0).reverse) s t
              (g, gp) hwalk hskips hinv
            have hcons' : ∀ x, x ≠ s → x ≠ t →
                inflow_int ((((uvh :: rest0).reverse).foldl
                  (fun st uv => augment_edge st (.fin cfpI) uv) (g, gp)).1) x =
                outflow_int ((((uvh :: rest0).reverse).foldl
                  (fun st uv => augment_edge st (.fin cfpI) uv) (g, gp)).1) x := by
              intro x hxs hxt
              have hd := hdelta x
              rw [if_neg (fun hc => hxt hc.symm),
                if_neg (fun hc => hxs hc.symm)] at hd
              have hz : inflow_int g x - outflow_int g x = 0 := by
                rw [hcons x hxs hxt]
                ring
              rw [hz] at hd
              apply sub_eq_zero.mp
              rw [hd]
              ring
            exact ih _ _ res hinvres hcons' hrun
      · rw [if_neg hmem] at hrun
        have hres : res = (g, gp) := (Option.some.inj hrun).symm
        rw [hres]
        exact hcons

end Advogato

namespace Advogato

/-- C3: After `ford_fulkerson` terminates on a transformed flow network
(edge dicts keyed by target, distinct vertex keys, all flows zero,
capacities finite or the infinite sentinel, finite capacity on every edge
into the supersink, no edge leaving the supersink — all properties of
`to_flow_net`'s output), every vertex other than the relabeled source `s`
and the supersink `t` has total incoming flow equal to total outgoing
flow. -/
theorem ford_fulkerson_conservation (g : Digraph) (s t : String)
    (fuel : Nat) (gf : Digraph) (hkey : EdgeKeyed g)
    (hnd : (dkeys g.V).Nodup) (hf0 : FZero g) (hcfi : CFinOrInf g)
    (htin : TInFinV g t) (htout : TNoOut g t)
    (hrun : ford_fulkerson fuel g s t = some gf) :
    ∀ x, x ≠ s → x ≠ t → inflow_int gf x = outflow_int gf x := by
  unfold ford_fulkerson at hrun
  cases hloop : ff_loop s t fuel g (optimize g) with
  | none =>
    rw [hloop] at hrun
    exact Option.noConfusion hrun
  | some st =>
    rw [hloop] at hrun
    have hgf : gf = st.1 := (Option.some.inj hrun).symm
    subst hgf
    obtain ⟨hk2, hf2, hc2, ht2, hn2⟩ :=
      optimize_inv g t hnd hf0 hcfi htin htout
    have hinv : FFInv g t (g, optimize g) :=
      ⟨fun x y => rfl, hkey,
        fun p hp q hq => by
          rw [hf0 p hp q hq]
          exact trivial,
        hk2, hf2, hc2, ht2, hn2⟩
    have hcons0 : ∀ x, x ≠ s → x ≠ t →
        inflow_int g x = outflow_int g x := by
      intro x _ _
      rw [inflow_int_zero g hf0 x, outflow_int_zero g hf0 x]
    exact ff_loop_conserve g s t fuel g (optimize g) st hinv hcons0 hloop

end Advogato

set_option maxRecDepth 40000 in
/-- Witness for C3: the concrete transformed network `c3net` (seed
certifying A) run to completion; the interior vertex `A_IN` conserves
flow (one unit in, one unit out). -/
theorem ford_fulkerson_conservation_witness :
    Advogato.inflow_int ((Advogato.ford_fulkerson 10 Advogato.c3net "seed_IN"
        "SUPERSINK").getD ⟨[]⟩) "A_IN" =
      Advogato.outflow_int ((Advogato.ford_fulkerson 10 Advogato.c3net "seed_IN"
        "SUPERSINK").getD ⟨[]⟩) "A_IN" :=
  Advogato.ford_fulkerson_conservation Advogato.c3net "seed_IN" "SUPERSINK"
    10 ((Advogato.ford_fulkerson 10 Advogato.c3net "seed_IN"
      "SUPERSINK").getD ⟨[]⟩)
    (by decide) (by decide) (by decide) (by decide) (by decide) (by decide)
    (by decide) "A_IN" (by decide) (by decide)

namespace Advogato

/-- `has_edge` is definedness of the stored-edge lookup. -/
theorem has_edge_eq_isSome_gE (g : Digraph) (u v : String) :
    g.has_edge u v = (gE g u v).isSome := by
  unfold Digraph.has_edge gE
  cases dget? g.V u with
  | some m => rfl
  | none => rfl

/-- A stored-edge hit exhibits both dictionary lookups. -/
theorem gE_some_elim {g : Digraph} {u v : String} {e : Edge}
    (h : gE g u v = some e) :
    ∃ m, dget? g.V u = some m ∧ dget? m v = some e := by
  unfold gE at h
  cases hm : dget? g.V u with
  | none =>
    rw [hm] at h
    cases h
  | some m =>
    rw [hm] at h
    exact ⟨m, rfl, h⟩

/-- A stored-edge miss means the inner lookup misses wherever the outer
one hits. -/
theorem gE_none_inner {g : Digraph} {u v : String} (h : gE g u v = none) :
    ∀ m, dget? g.V u = some m → dget? m v = none := by
  intro m hm
  unfold gE at h
  rw [hm] at h
  exact h

/-- `res_cap` of a stored edge. -/
theorem res_cap_of_gE {g : Digraph} {u v : String} {e : Edge}
    (h : gE g u v = some e) : res_cap g u v = e.c.sub e.f := by
  obtain ⟨m, hm, he⟩ := gE_some_elim h
  exact res_cap_fwd hm he

/-- `res_cap` when only the reverse direction is stored. -/
theorem res_cap_of_gE_rev {g : Digraph} {u v : String} {e : Edge}
    (hn : gE g u v = none) (h : gE g v u = some e) :
    res_cap g u v = e.f := by
  obtain ⟨m, hm, he⟩ := gE_some_elim h
  exact res_cap_rev (gE_none_inner hn) hm he

/-- What one `add_edge` does to the stored-edge lookup. -/
theorem gE_add_edge (gp : Digraph) (a : String) (e : Edge) (u v : String) :
    gE (gp.add_edge a e) u v =
      if a = u ∧ e.v = v then some e else gE gp u v := by
  have hV1 : ∀ k, dget? (if dmem gp.V a then gp.V else gp.V ++ [(a, [])]) k =
      match dget? gp.V k with
      | some m => some m
      | none => if a = k then some [] else none := by
    intro k
    by_cases hm : dmem gp.V a = true
    · rw [if_pos hm]
      cases hk : dget? gp.V k with
      | some m => rfl
      | none =>
        by_cases hak : a = k
        · exfalso
          unfold dmem at hm
          rw [hak, hk] at hm
          cases hm
        · rw [if_neg hak]
    · rw [if_neg hm]
      rw [dget?_append]
      cases hk : dget? gp.V k with
      | some m => rfl
      | none =>
        show dget? [(a, ([] : List (String × Edge)))] k = _
        simp only [dget?]
  have hV2 : ∀ k,
      dget? (dmod (if dmem gp.V a then gp.V else gp.V ++ [(a, [])]) a
        (fun m => dset m e.v e)) k =
      if a = k
      then some (dset ((dget? gp.V a).getD []) e.v e)
      else dget? gp.V k := by
    intro k
    rw [dget?_dmod]
    by_cases hak : a = k
    · subst hak
      rw [if_pos rfl, if_pos rfl, hV1]
      cases hk : dget? gp.V a with
      | some m => rfl
      | none =>
        show (if a = a then some ([] : List (String × Edge))
          else none).map (fun m => dset m e.v e) =
          some (dset ([] : List (String × Edge)) e.v e)
        rw [if_pos rfl]
        rfl
    · rw [if_neg hak, if_neg hak, hV1]
      cases hk : dget? gp.V k with
      | some m => rfl
      | none =>
        show (if a = k then some ([] : List (String × Edge)) else none) = none
        rw [if_neg hak]
  have hV3 : ∀ k, dget? (gp.add_edge a e).V k =
      match (if a = k
        then some (dset ((dget? gp.V a).getD []) e.v e)
        else dget? gp.V k) with
      | some m => some m
      | none => if e.v = k then some [] else none := by
    intro k
    simp only [Digraph.add_edge]
    by_cases hm2 : dmem (dmod (if dmem gp.V a then gp.V
        else gp.V ++ [(a, [])]) a (fun m => dset m e.v e)) e.v = true
    · rw [if_pos hm2, hV2]
      by_cases hak : a = k
      · rw [if_pos hak]
      · rw [if_neg hak]
        cases hk : dget? gp.V k with
        | some m => rfl
        | none =>
          by_cases hek : e.v = k
          · exfalso
            have hm2' : (dget? (dmod (if dmem gp.V a then gp.V
                else gp.V ++ [(a, [])]) a
                (fun m => dset m e.v e)) e.v).isSome = true := hm2
            rw [hV2, hek, if_neg hak, hk] at hm2'
            cases hm2'
          · rw [if_neg hek]
    · rw [if_neg hm2, dget?_append, hV2]
      by_cases hak : a = k
      · rw [if_pos hak]
      · rw [if_neg hak]
        cases hk : dget? gp.V k with
        | some m => rfl
        | none =>
          show dget? [(e.v, ([] : List (String × Edge)))] k = _
          simp only [dget?]
  show (match dget? (gp.add_edge a e).V u with
    | some m => dget? m v
    | none => none) = _
  rw [hV3]
  by_cases hau : a = u
  · rw [if_pos hau]
    show dget? (dset ((dget? gp.V a).getD []) e.v e) v = _
    rw [dget?_dset]
    by_cases hev : e.v = v
    · rw [if_pos hev, if_pos ⟨hau, hev⟩]
    · rw [if_neg hev,
        if_neg (show ¬(a = u ∧ e.v = v) from fun hc => hev hc.2)]
      show dget? ((dget? gp.V a).getD []) v = gE gp u v
      unfold gE
      rw [hau]
      cases hk : dget? gp.V u with
      | some m => rfl
      | none =>
        show dget? ([] : List (String × Edge)) v = none
        rfl
  · rw [if_neg (show ¬(a = u ∧ e.v = v) from fun hc => hau hc.1),
      if_neg hau]
    cases hk : dget? gp.V u with
    | some m =>
      show dget? m v = gE gp u v
      unfold gE
      rw [hk]
    | none =>
      by_cases heu : e.v = u
      · rw [if_pos heu]
        show dget? ([] : List (String × Edge)) v = gE gp u v
        unfold gE
        rw [hk]
        rfl
      · rw [if_neg heu]
        show none = gE gp u v
        unfold gE
        rw [hk]

/-- The stored-edge lookup after a sequence of `add_edge` calls: the most
recent matching add wins; otherwise the accumulator's entry. -/
theorem gE_foldl_adds :
    ∀ (adds : List (String × Edge)) (acc : Digraph) (u v : String),
      gE (adds.foldl (fun gp ae => gp.add_edge ae.1 ae.2) acc) u v =
        match adds.reverse.find? (fun ae => ae.1 == u && ae.2.v == v) with
        | some ae => some ae.2
        | none => gE acc u v := by
  intro adds
  induction adds with
  | nil =>
    intro acc u v
    rfl
  | cons h rest ih =>
    intro acc u v
    rw [List.foldl_cons, ih]
    have hrev : (h :: rest).reverse = rest.reverse ++ [h] := by
      rw [List.reverse_cons]
    rw [hrev, List.find?_append]
    cases hf : rest.reverse.find? (fun ae => ae.1 == u && ae.2.v == v) with
    | some ae => rfl
    | none =>
      have hfind : List.find? (fun ae => ae.1 == u && ae.2.v == v) [h] =
          if h.1 = u ∧ h.2.v = v then some h else none := by
        by_cases hc : h.1 = u ∧ h.2.v = v
        · rw [if_pos hc]
          apply List.find?_cons_of_pos
          simp [hc.1, hc.2]
        · rw [if_neg hc]
          have hstep : List.find? (fun ae => ae.1 == u && ae.2.v == v) [h] =
              List.find? (fun ae => ae.1 == u && ae.2.v == v) [] := by
            apply List.find?_cons_of_neg
            intro hp
            simp only [Bool.and_eq_true, beq_iff_eq] at hp
            exact hc hp
          rw [hstep]
          rfl
      show gE (acc.add_edge h.1 h.2) u v =
        (match List.find? (fun ae => ae.1 == u && ae.2.v == v) [h] with
         | some ae => some ae.2
         | none => gE acc u v)
      rw [hfind, gE_add_edge]
      by_cases hc : h.1 = u ∧ h.2.v = v
      · rw [if_pos hc, if_pos hc]
      · rw [if_neg hc, if_neg hc]

/-- `_optimize` is the flattened fold of its `add_edge` calls. -/
theorem optimize_eq_adds (g : Digraph) :
    optimize g =
      (optAdds g.V).foldl (fun gp ae => gp.add_edge ae.1 ae.2) ⟨[]⟩ := by
  have aux1 : ∀ (u : String) (edges : List (String × Edge)) (acc : Digraph),
      edges.foldl (fun gp q =>
        (gp.add_edge u { v := q.2.v, c := q.2.c }).add_edge q.2.v
          { v := u, c := q.2.f }) acc =
      (edgeAdds u edges).foldl (fun gp ae => gp.add_edge ae.1 ae.2) acc := by
    intro u edges
    induction edges with
    | nil =>
      intro acc
      rfl
    | cons q rest ih =>
      intro acc
      rw [List.foldl_cons]
      show _ = ((u, ({ v := q.2.v, c := q.2.c } : Edge)) ::
        (q.2.v, ({ v := u, c := q.2.f } : Edge)) ::
          edgeAdds u rest).foldl (fun gp ae => gp.add_edge ae.1 ae.2) acc
      rw [List.foldl_cons, List.foldl_cons]
      exact ih _
  have aux2 : ∀ (l : List (String × List (String × Edge))) (acc : Digraph),
      l.foldl (fun gp p => p.2.foldl (fun gp q =>
        (gp.add_edge p.1 { v := q.2.v, c := q.2.c }).add_edge q.2.v
          { v := p.1, c := q.2.f }) gp) acc =
      (optAdds l).foldl (fun gp ae => gp.add_edge ae.1 ae.2) acc := by
    intro l
    induction l with
    | nil =>
      intro acc
      rfl
    | cons p rest ih =>
      intro acc
      rw [List.foldl_cons]
      rw [show optAdds (p :: rest) = edgeAdds p.1 p.2 ++ optAdds rest from rfl,
        List.foldl_append, aux1 p.1 p.2 acc]
      exact ih _
  exact aux2 g.V ⟨[]⟩

end Advogato

namespace Advogato

/-- Membership in the per-vertex flattened add list. -/
theorem mem_edgeAdds {u : String} :
    ∀ {edges : List (String × Edge)} {ae : String × Edge},
      ae ∈ edgeAdds u edges →
      ∃ q ∈ edges, ae = (u, { v := q.2.v, c := q.2.c }) ∨
        ae = (q.2.v, { v := u, c := q.2.f }) := by
  intro edges
  induction edges with
  | nil =>
    intro ae h
    cases h
  | cons q rest ih =>
    intro ae h
    cases h with
    | head => exact ⟨q, List.mem_cons_self q rest, Or.inl rfl⟩
    | tail _ h2 =>
      cases h2 with
      | head => exact ⟨q, List.mem_cons_self q rest, Or.inr rfl⟩
      | tail _ h3 =>
        obtain ⟨q2, hq2, hval⟩ := ih h3
        exact ⟨q2, List.mem_cons_of_mem q hq2, hval⟩

/-- The forward add of an edge is in the flattened list. -/
theorem fwd_mem_edgeAdds {u : String} :
    ∀ {edges : List (String × Edge)} {q : String × Edge}, q ∈ edges →
      ((u, { v := q.2.v, c := q.2.c }) : String × Edge) ∈ edgeAdds u edges := by
  intro edges
  induction edges with
  | nil =>
    intro q h
    cases h
  | cons q2 rest ih =>
    intro q h
    cases h with
    | head => exact List.mem_cons_self _ _
    | tail _ h2 =>
      exact List.mem_cons_of_mem _ (List.mem_cons_of_mem _ (ih h2))

/-- The transposed add of an edge is in the flattened list. -/
theorem trans_mem_edgeAdds {u : String} :
    ∀ {edges : List (String × Edge)} {q : String × Edge}, q ∈ edges →
      ((q.2.v, { v := u, c := q.2.f }) : String × Edge) ∈ edgeAdds u edges := by
  intro edges
  induction edges with
  | nil =>
    intro q h
    cases h
  | cons q2 rest ih =>
    intro q h
    cases h with
    | head => exact List.mem_cons_of_mem _ (List.mem_cons_self _ _)
    | tail _ h2 =>
      exact List.mem_cons_of_mem _ (List.mem_cons_of_mem _ (ih h2))

/-- Membership in `_optimize`'s flattened add list. -/
theorem mem_optAdds :
    ∀ {l : List (String × List (String × Edge))} {ae : String × Edge},
      ae ∈ optAdds l →
      ∃ p ∈ l, ∃ q ∈ p.2, ae = (p.1, { v := q.2.v, c := q.2.c }) ∨
        ae = (q.2.v, { v := p.1, c := q.2.f }) := by
  intro l
  induction l with
  | nil =>
    intro ae h
    cases h
  | cons p rest ih =>
    intro ae h
    cases List.mem_append.mp h with
    | inl h2 =>
      obtain ⟨q, hq, hval⟩ := mem_edgeAdds h2
      exact ⟨p, List.mem_cons_self p rest, q, hq, hval⟩
    | inr h2 =>
      obtain ⟨p2, hp2, q, hq, hval⟩ := ih h2
      exact ⟨p2, List.mem_cons_of_mem p hp2, q, hq, hval⟩

/-- The forward add of any stored edge appears in the flattened list. -/
theorem fwd_mem_optAdds :
    ∀ {l : List (String × List (String × Edge))}
      {p : String × List (String × Edge)} {q : String × Edge},
      p ∈ l → q ∈ p.2 →
      ((p.1, { v := q.2.v, c := q.2.c }) : String × Edge) ∈ optAdds l := by
  intro l
  induction l with
  | nil =>
    intro p q h _
    cases h
  | cons p2 rest ih =>
    intro p q hp hq
    cases hp with
    | head => exact List.mem_append.mpr (Or.inl (fwd_mem_edgeAdds hq))
    | tail _ h2 => exact List.mem_append.mpr (Or.inr (ih h2 hq))

/-- The transposed add of any stored edge appears in the flattened list. -/
theorem trans_mem_optAdds :
    ∀ {l : List (String × List (String × Edge))}
      {p : String × List (String × Edge)} {q : String × Edge},
      p ∈ l → q ∈ p.2 →
      ((q.2.v, { v := p.1, c := q.2.f }) : String × Edge) ∈ optAdds l := by
  intro l
  induction l with
  | nil =>
    intro p q h _
    cases h
  | cons p2 rest ih =>
    intro p q hp hq
    cases hp with
    | head => exact List.mem_append.mpr (Or.inl (trans_mem_edgeAdds hq))
    | tail _ h2 => exact List.mem_append.mpr (Or.inr (ih h2 hq))

/-- On a graph with distinct keys, a member edge is what the lookup
finds. -/
theorem gE_of_mem (g : Digraph) (hkey : EdgeKeyed g)
    (hnd : (dkeys g.V).Nodup) (hin : InnerNodup g)
    (p : String × List (String × Edge)) (q : String × Edge)
    (hp : p ∈ g.V) (hq : q ∈ p.2) : gE g p.1 q.2.v = some q.2 := by
  unfold gE
  rw [dget?_of_mem_nodup g.V hnd p hp]
  show dget? p.2 q.2.v = some q.2
  rw [← hkey p hp q hq]
  exact dget?_of_mem_nodup p.2 (hin p hp) q hq

/-- A stored edge makes `has_edge` true. -/
theorem has_edge_of_gE {g : Digraph} {u v : String} {e : Edge}
    (h : gE g u v = some e) : g.has_edge u v = true := by
  rw [has_edge_eq_isSome_gE, h]
  rfl

/-- The full characterisation of `_optimize`'s output edges: the forward
copy of each stored edge (same capacity, zero flow), plus the transposed
copy (capacity = flow of the original, zero flow). -/
theorem optimize_gE (g : Digraph) (hkey : EdgeKeyed g)
    (hnd : (dkeys g.V).Nodup) (hin : InnerNodup g) (hnoap : NoAP g)
    (u v : String) :
    gE (optimize g) u v =
      match gE g u v with
      | some e => some { v := v, c := e.c }
      | none =>
        match gE g v u with
        | some e => some { v := v, c := e.f }
        | none => none := by
  rw [optimize_eq_adds, gE_foldl_adds]
  have huniq : ∀ ae ∈ optAdds g.V, (ae.1 == u && ae.2.v == v) = true →
      (∃ e, gE g u v = some e ∧ ae = (u, { v := v, c := e.c })) ∨
      (gE g u v = none ∧
        ∃ e, gE g v u = some e ∧ ae = (u, { v := v, c := e.f })) := by
    intro ae hae hP
    simp only [Bool.and_eq_true, beq_iff_eq] at hP
    obtain ⟨p, hp, q, hq, hval⟩ := mem_optAdds hae
    cases hval with
    | inl hfwd =>
      left
      have h1 : p.1 = u := by
        rw [hfwd] at hP
        exact hP.1
      have h2 : q.2.v = v := by
        rw [hfwd] at hP
        exact hP.2
      refine ⟨q.2, ?_, ?_⟩
      · rw [← h1, ← h2]
        exact gE_of_mem g hkey hnd hin p q hp hq
      · rw [hfwd, h1, h2]
    | inr htr =>
      right
      have h1 : q.2.v = u := by
        rw [htr] at hP
        exact hP.1
      have h2 : p.1 = v := by
        rw [htr] at hP
        exact hP.2
      have hvu : gE g v u = some q.2 := by
        rw [← h1, ← h2]
        exact gE_of_mem g hkey hnd hin p q hp hq
      refine ⟨?_, q.2, hvu, ?_⟩
      · cases hguv : gE g u v with
        | none => rfl
        | some e2 =>
          exfalso
          have hh := hnoap p hp q hq
          rw [hkey p hp q hq, h1, h2] at hh
          rw [has_edge_of_gE hguv] at hh
          cases hh
      · rw [htr, h1, h2]
  cases hgE : gE g u v with
  | some e =>
    obtain ⟨m, hm, he⟩ := gE_some_elim hgE
    have hpmem : (u, m) ∈ g.V := dget?_mem hm
    have hqmem : (v, e) ∈ m := dget?_mem he
    have hev : e.v = v := (hkey (u, m) hpmem (v, e) hqmem).symm
    have htarget : ((u, ({ v := e.v, c := e.c } : Edge)) : String × Edge) ∈
        optAdds g.V := fwd_mem_optAdds hpmem hqmem
    have hex : ∃ x ∈ (optAdds g.V).reverse,
        (fun ae => ae.1 == u && ae.2.v == v) x = true :=
      ⟨(u, { v := e.v, c := e.c }), List.mem_reverse.mpr htarget,
        by simp [hev]⟩
    obtain ⟨ae, hae⟩ := Option.isSome_iff_exists.mp
      (List.find?_isSome.mpr hex)
    rw [hae]
    have hmem2 := List.mem_reverse.mp (List.mem_of_find?_eq_some hae)
    have hP := List.find?_some hae
    cases huniq ae hmem2 hP with
    | inl h2 =>
      obtain ⟨e2, he2, haev⟩ := h2
      rw [hgE] at he2
      have he2' : e = e2 := Option.some.inj he2
      rw [haev, ← he2']
    | inr h2 =>
      rw [hgE] at h2
      cases h2.1
  | none =>
    cases hgE2 : gE g v u with
    | some e =>
      obtain ⟨m, hm, he⟩ := gE_some_elim hgE2
      have hpmem : (v, m) ∈ g.V := dget?_mem hm
      have hqmem : (u, e) ∈ m := dget?_mem he
      have hev : e.v = u := (hkey (v, m) hpmem (u, e) hqmem).symm
      have htarget : ((e.v, ({ v := v, c := e.f } : Edge)) : String × Edge) ∈
          optAdds g.V := trans_mem_optAdds hpmem hqmem
      have hex : ∃ x ∈ (optAdds g.V).reverse,
          (fun ae => ae.1 == u && ae.2.v == v) x = true :=
        ⟨(e.v, { v := v, c := e.f }), List.mem_reverse.mpr htarget,
          by simp [hev]⟩
      obtain ⟨ae, hae⟩ := Option.isSome_iff_exists.mp
        (List.find?_isSome.mpr hex)
      rw [hae]
      have hmem2 := List.mem_reverse.mp (List.mem_of_find?_eq_some hae)
      have hP := List.find?_some hae
      cases huniq ae hmem2 hP with
      | inl h2 =>
        obtain ⟨e2, he2, _⟩ := h2
        rw [hgE] at he2
        cases he2
      | inr h2 =>
        obtain ⟨_, e2, he2, haev⟩ := h2
        rw [hgE2] at he2
        have he2' : e = e2 := Option.some.inj he2
        rw [haev, ← he2']
    | none =>
      have hnone : ((optAdds g.V).reverse).find?
          (fun ae => ae.1 == u && ae.2.v == v) = none := by
        cases hf : ((optAdds g.V).reverse).find?
            (fun ae => ae.1 == u && ae.2.v == v) with
        | none => rfl
        | some ae =>
          exfalso
          have hmem2 := List.mem_reverse.mp (List.mem_of_find?_eq_some hf)
          have hP := List.find?_some hf
          cases huniq ae hmem2 hP with
          | inl h2 =>
            obtain ⟨e2, he2, _⟩ := h2
            rw [hgE] at he2
            cases he2
          | inr h2 =>
            obtain ⟨_, e2, he2, _⟩ := h2
            rw [hgE2] at he2
            cases he2
      rw [hnone]
      rfl

end Advogato

/-- Pointwise-monotone predicates have monotone counts. -/
theorem countP_le_mono {α : Type} (p q : α → Bool) :
    ∀ (l : List α), (∀ a ∈ l, p a = true → q a = true) →
      l.countP p ≤ l.countP q := by
  intro l
  induction l with
  | nil =>
    intro _
    exact le_refl _
  | cons a l' ih =>
    intro hmono
    rw [List.countP_cons, List.countP_cons]
    have hl' := ih (fun x hx hp => hmono x (List.mem_cons_of_mem a hx) hp)
    by_cases hpa : p a = true
    · rw [if_pos hpa, if_pos (hmono a (List.mem_cons_self a l') hpa)]
      omega
    · rw [if_neg hpa]
      by_cases hqa : q a = true
      · rw [if_pos hqa]
        omega
      · rw [if_neg hqa]
        omega

/-- A strictly monotone count: a member satisfying `q` but not `p`. -/
theorem countP_lt_mono {α : Type} (p q : α → Bool) :
    ∀ (l : List α), (∀ a ∈ l, p a = true → q a = true) →
      ∀ x ∈ l, q x = true → p x = false → l.countP p < l.countP q := by
  intro l
  induction l with
  | nil =>
    intro _ x hx
    cases hx
  | cons a l' ih =>
    intro hmono x hx hqx hpx
    rw [List.countP_cons, List.countP_cons]
    have hmono' : ∀ b ∈ l', p b = true → q b = true :=
      fun b hb hp => hmono b (List.mem_cons_of_mem a hb) hp
    by_cases hpa : p a = true
    · have hqa := hmono a (List.mem_cons_self a l') hpa
      rw [if_pos hpa, if_pos hqa]
      have hxl' : x ∈ l' := by
        cases hx with
        | head =>
          rw [hpa] at hpx
          cases hpx
        | tail _ h2 => exact h2
      have := ih hmono' x hxl' hqx hpx
      omega
    · rw [if_neg hpa]
      by_cases hqa : q a = true
      · rw [if_pos hqa]
        have := countP_le_mono p q l' hmono'
        omega
      · rw [if_neg hqa]
        have hxl' : x ∈ l' := by
          cases hx with
          | head =>
            rw [hqx] at hqa
            exact absurd rfl hqa
          | tail _ h2 => exact h2
        have := ih hmono' x hxl' hqx hpx
        omega

namespace Advogato

/-- `has_edge`-level antiparallel freedom from the membership-level one. -/
theorem nap_of_noap (g : Digraph) (hnoap : NoAP g) : NAP g := by
  intro u v huv
  rw [has_edge_eq_isSome_gE] at huv
  cases hx : gE g u v with
  | none =>
    rw [hx] at huv
    cases huv
  | some e =>
    obtain ⟨m, hm, he⟩ := gE_some_elim hx
    exact hnoap (u, m) (dget?_mem hm) (v, e) (dget?_mem he)

/-- `_optimize` establishes the flow/residual synchronisation on a fresh
well-formed network. -/
theorem optimize_sync (g : Digraph) (hkey : EdgeKeyed g)
    (hnd : (dkeys g.V).Nodup) (hin : InnerNodup g) (hnoap : NoAP g)
    (hf0 : FZero g) : Sync g (optimize g) := by
  intro u v e hguv
  have hf : e.f = EInt.fin 0 := by
    obtain ⟨m, hm, he⟩ := gE_some_elim hguv
    exact hf0 (u, m) (dget?_mem hm) (v, e) (dget?_mem he)
  have hvu : gE g v u = none := by
    cases hx : gE g v u with
    | none => rfl
    | some e2 =>
      exfalso
      obtain ⟨m, hm, he⟩ := gE_some_elim hguv
      have hh := hnoap (u, m) (dget?_mem hm) (v, e) (dget?_mem he)
      rw [has_edge_of_gE hx] at hh
      cases hh
  constructor
  · rw [optimize_gE g hkey hnd hin hnoap u v, hguv, hf]
  · rw [optimize_gE g hkey hnd hin hnoap v u, hvu, hguv]

/-- The fold of `cfpStep` is absorbed by the negative sentinel. -/
theorem foldl_cfpStep_neg (gp : Digraph) :
    ∀ (path : List (String × String)),
      path.foldl (cfpStep gp) EInt.neg = EInt.neg := by
  intro path
  induction path with
  | nil => rfl
  | cons uv rest ih =>
    rw [List.foldl_cons]
    have hstep : cfpStep gp EInt.neg uv = EInt.neg := by
      show (if (res_cap gp uv.1 uv.2).blt EInt.neg
        then res_cap gp uv.1 uv.2 else EInt.neg) = EInt.neg
      have hblt : (res_cap gp uv.1 uv.2).blt EInt.neg = false := by
        cases res_cap gp uv.1 uv.2 <;> rfl
      rw [hblt]
      rfl
    rw [hstep, ih]

/-- The fold of `cfpStep` bounds from below every finite residual along
the path (and the accumulator). -/
theorem path_cfp_min (gp : Digraph) :
    ∀ (path : List (String × String)) (acc : EInt) (r : Int),
      path.foldl (cfpStep gp) acc = EInt.fin r →
      (∀ k : Int, acc = EInt.fin k → r ≤ k) ∧
      (∀ uv ∈ path, ∀ k : Int, res_cap gp uv.1 uv.2 = EInt.fin k → r ≤ k) := by
  intro path
  induction path with
  | nil =>
    intro acc r h
    rw [List.foldl_nil] at h
    refine ⟨?_, ?_⟩
    · intro k hk
      rw [hk] at h
      exact le_of_eq (EInt.fin.inj h).symm
    · intro uv huv
      cases huv
  | cons uv rest ih =>
    intro acc r h
    rw [List.foldl_cons] at h
    by_cases hblt : (res_cap gp uv.1 uv.2).blt acc = true
    · rw [cfpStep_pos gp acc uv hblt] at h
      obtain ⟨hacc', hrest⟩ := ih (res_cap gp uv.1 uv.2) r h
      refine ⟨?_, ?_⟩
      · intro k hk
        cases hres : res_cap gp uv.1 uv.2 with
        | fin k2 =>
          rw [hres, hk] at hblt
          have hk2 : k2 < k := by
            have : decide (k2 < k) = true := hblt
            exact of_decide_eq_true this
          have := hacc' k2 hres
          omega
        | inf =>
          exfalso
          rw [hres] at hblt
          cases acc <;> cases hblt
        | neg =>
          exfalso
          rw [hres, foldl_cfpStep_neg] at h
          cases h
      · intro w hw k hk
        cases hw with
        | head => exact hacc' k hk
        | tail _ h2 => exact hrest w h2 k hk
    · rw [cfpStep_neg gp acc uv hblt] at h
      obtain ⟨hacc', hrest⟩ := ih acc r h
      refine ⟨hacc', ?_⟩
      intro w hw k hk
      cases hw with
      | head =>
        cases hacc : acc with
        | fin k2 =>
          have hk2 : k2 ≤ k := by
            rw [hk, hacc] at hblt
            have : decide (k < k2) = false := Bool.eq_false_iff.mpr hblt
            have := of_decide_eq_false this
            omega
          have := hacc' k2 hacc
          omega
        | inf =>
          exfalso
          rw [hk, hacc] at hblt
          exact hblt rfl
        | neg =>
          exfalso
          rw [hacc, foldl_cfpStep_neg] at h
          cases h
      | tail _ h2 => exact hrest w h2 k hk

/-- The fold of `cfpStep` stays at least 1 (or infinite) when every path
residual is. -/
theorem path_cfp_good (gp : Digraph) :
    ∀ (path : List (String × String)) (acc : EInt),
      (∀ uv ∈ path, (∃ k : Int, 1 ≤ k ∧
        res_cap gp uv.1 uv.2 = EInt.fin k) ∨
        res_cap gp uv.1 uv.2 = EInt.inf) →
      ((∃ k : Int, 1 ≤ k ∧ acc = EInt.fin k) ∨ acc = EInt.inf) →
      ((∃ k : Int, 1 ≤ k ∧
        path.foldl (cfpStep gp) acc = EInt.fin k) ∨
        path.foldl (cfpStep gp) acc = EInt.inf) := by
  intro path
  induction path with
  | nil =>
    intro acc _ hacc
    rw [List.foldl_nil]
    exact hacc
  | cons uv rest ih =>
    intro acc hall hacc
    rw [List.foldl_cons]
    by_cases hblt : (res_cap gp uv.1 uv.2).blt acc = true
    · rw [cfpStep_pos gp acc uv hblt]
      exact ih (res_cap gp uv.1 uv.2)
        (fun w hw => hall w (List.mem_cons_of_mem uv hw))
        (hall uv (List.mem_cons_self uv rest))
    · rw [cfpStep_neg gp acc uv hblt]
      exact ih acc (fun w hw => hall w (List.mem_cons_of_mem uv hw)) hacc

end Advogato

namespace Advogato

/-- `collect_path` succeeds whenever the fuel exceeds the number of table
entries strictly below the start's distance (predecessor chains strictly
descend). -/
theorem collect_path_succeeds (g : Digraph) (skip : String → String → Bool)
    (s : String) (pg : List (String × Vertex_prop))
    (hpg : PgInv g skip s pg) :
    ∀ (k : Nat) (label : String) (vp : Vertex_prop),
      dget? pg label = some vp →
      pg.countP (fun q => q.2.d.blt vp.d) ≤ k →
      ∀ fuel, k < fuel → (collect_path pg fuel label).isSome = true := by
  intro k
  induction k with
  | zero =>
    intro label vp hvp _ fuel hfuel
    cases fuel with
    | zero => exact absurd hfuel (by omega)
    | succ f =>
      have hstep : collect_path pg (f + 1) label =
          match dget? pg label with
          | none => none
          | some vp =>
            match vp.pi with
            | none => some []
            | some p =>
              match collect_path pg f p with
              | none => none
              | some rest => some ((p, label) :: rest) := rfl
      rw [hstep]
      cases hpi : vp.pi with
      | none => simp only [hvp, hpi, Option.isSome_some]
      | some p =>
        exfalso
        obtain ⟨pp, hpp, ⟨n, hn1, hn2⟩, _, _⟩ := (hpg label vp hvp).2.2 p hpi
        have hblt : pp.d.blt vp.d = true := by
          rw [hn1, hn2]
          show decide ((n : Int) < (n : Int) + 1) = true
          rw [decide_eq_true_eq]
          omega
        have hpos : 0 < pg.countP (fun q => q.2.d.blt vp.d) :=
          List.countP_pos.mpr ⟨(p, pp), dget?_mem hpp, hblt⟩
        omega
  | succ k ih =>
    intro label vp hvp hcount fuel hfuel
    cases fuel with
    | zero => exact absurd hfuel (by omega)
    | succ f =>
      have hstep : collect_path pg (f + 1) label =
          match dget? pg label with
          | none => none
          | some vp =>
            match vp.pi with
            | none => some []
            | some p =>
              match collect_path pg f p with
              | none => none
              | some rest => some ((p, label) :: rest) := rfl
      rw [hstep]
      cases hpi : vp.pi with
      | none => simp only [hvp, hpi, Option.isSome_some]
      | some p =>
        obtain ⟨pp, hpp, ⟨n, hn1, hn2⟩, _, _⟩ := (hpg label vp hvp).2.2 p hpi
        have hmono : ∀ q ∈ pg, (q.2.d.blt pp.d) = true →
            (q.2.d.blt vp.d) = true := by
          intro q _ hq
          rw [hn1] at hq
          rw [hn2]
          cases hqd : q.2.d with
          | neg => rfl
          | inf =>
            rw [hqd] at hq
            cases hq
          | fin a =>
            rw [hqd] at hq
            have : a < (n : Int) := of_decide_eq_true hq
            show decide (a < (n : Int) + 1) = true
            rw [decide_eq_true_eq]
            omega
        have hself : pp.d.blt pp.d = false := by
          rw [hn1]
          show decide ((n : Int) < (n : Int)) = false
          rw [decide_eq_false_iff_not]
          omega
        have hppblt : pp.d.blt vp.d = true := by
          rw [hn1, hn2]
          show decide ((n : Int) < (n : Int) + 1) = true
          rw [decide_eq_true_eq]
          omega
        have hstrict : pg.countP (fun q => q.2.d.blt pp.d) <
            pg.countP (fun q => q.2.d.blt vp.d) :=
          countP_lt_mono _ _ pg hmono (p, pp) (dget?_mem hpp) hppblt hself
        have hrec := ih p pp hpp (by omega) f (by omega)
        cases hcp : collect_path pg f p with
        | none =>
          rw [hcp] at hrec
          cases hrec
        | some rest => simp only [hvp, hpi, hcp, Option.isSome_some]

/-- The labels collected by `collect_path` are pairwise distinct (their
distances strictly descend along the chain). -/
theorem collect_path_nodup (g : Digraph) (skip : String → String → Bool)
    (s : String) (pg : List (String × Vertex_prop))
    (hpg : PgInv g skip s pg) :
    ∀ (n : Nat) (label : String) (l : List (String × String))
      (vp : Vertex_prop),
      collect_path pg n label = some l → dget? pg label = some vp →
      (∀ dl : Int, vp.d = EInt.fin dl →
        ∀ x ∈ l.map Prod.fst, ∃ xp, dget? pg x = some xp ∧
          ∃ dx : Int, xp.d = EInt.fin dx ∧ dx < dl) ∧
      (label :: l.map Prod.fst).Nodup := by
  intro n
  induction n with
  | zero =>
    intro label l vp h
    cases h
  | succ n ih =>
    intro label l vp h hvp
    have hstep : collect_path pg (n + 1) label =
        match dget? pg label with
        | none => none
        | some vp =>
          match vp.pi with
          | none => some []
          | some p =>
            match collect_path pg n p with
            | none => none
            | some rest => some ((p, label) :: rest) := rfl
    rw [hstep] at h
    simp only [hvp] at h
    cases hpi : vp.pi with
    | none =>
      simp only [hpi] at h
      have hl : l = [] := (Option.some.inj h).symm
      subst hl
      refine ⟨?_, ?_⟩
      · intro dl _ x hx
        cases hx
      · simp
    | some p =>
      simp only [hpi] at h
      cases hcp : collect_path pg n p with
      | none =>
        simp only [hcp] at h
        exact Option.noConfusion h
      | some rest =>
        simp only [hcp] at h
        have hl : l = (p, label) :: rest := (Option.some.inj h).symm
        subst hl
        obtain ⟨pp, hpp, ⟨m, hm1, hm2⟩, _, _⟩ := (hpg label vp hvp).2.2 p hpi
        obtain ⟨ihd, ihnd⟩ := ih p rest pp hcp hpp
        refine ⟨?_, ?_⟩
        · intro dl hdl x hx
          have hdl' : dl = (m : Int) + 1 := by
            rw [hm2] at hdl
            exact (EInt.fin.inj hdl).symm
          rw [List.map_cons] at hx
          cases hx with
          | head => exact ⟨pp, hpp, m, hm1, by omega⟩
          | tail _ h2 =>
            obtain ⟨xp, hxp, dx, hdx, hlt⟩ := ihd m hm1 x h2
            exact ⟨xp, hxp, dx, hdx, by omega⟩
        · rw [List.map_cons, List.nodup_cons]
          refine ⟨?_, ihnd⟩
          intro hmem
          have hmem' : label ∈ p :: List.map Prod.fst rest := hmem
          cases hmem' with
          | head =>
            rw [hpp] at hvp
            have : pp = vp := Option.some.inj hvp
            rw [this, hm2] at hm1
            have h3 : (m : Int) + 1 = (m : Int) := EInt.fin.inj hm1
            omega
          | tail _ h2 =>
            obtain ⟨xp, hxp, dx, hdx, hlt⟩ := ihd m hm1 label h2
            rw [hvp] at hxp
            have : vp = xp := Option.some.inj hxp
            rw [← this, hm2] at hdx
            have : (m : Int) + 1 = dx := EInt.fin.inj hdx
            omega

/-- Every pair of a walk has its source among the earlier vertices and its
target among the later ones. -/
theorem isWalk_mem_verts :
    ∀ (path : List (String × String)) (a b : String), IsWalk a path b →
      ∀ uv ∈ path, uv.1 ∈ a :: path.map Prod.snd ∧
        uv.2 ∈ path.map Prod.snd := by
  intro path
  induction path with
  | nil =>
    intro a b _ uv huv
    cases huv
  | cons w rest ih =>
    intro a b hw uv huv
    obtain ⟨ha, hrest⟩ := hw
    rw [List.map_cons]
    cases huv with
    | head =>
      refine ⟨?_, List.mem_cons_self _ _⟩
      rw [ha]
      exact List.mem_cons_self _ _
    | tail _ h2 =>
      obtain ⟨h1, h2'⟩ := ih w.2 b hrest uv h2
      refine ⟨?_, List.mem_cons_of_mem _ h2'⟩
      rcases List.mem_cons.mp h1 with h3 | h3
      · rw [h3]
        exact List.mem_cons_of_mem _ (List.mem_cons_self _ _)
      · exact List.mem_cons_of_mem _ (List.mem_cons_of_mem _ h3)

/-- The forward vertex list of a walk is the reverse of the backward one
`collect_path` produces. -/
theorem walk_verts_rev :
    ∀ (l : List (String × String)) (a b : String), IsWalk a l b →
      a :: l.map Prod.snd = (b :: l.reverse.map Prod.fst).reverse := by
  intro l
  induction l with
  | nil =>
    intro a b hw
    have hab : a = b := hw
    rw [hab]
    rfl
  | cons w rest ih =>
    intro a b hw
    obtain ⟨ha, hrest⟩ := hw
    have hih := ih w.2 b hrest
    rw [List.map_cons,
      show (w :: rest).reverse = rest.reverse ++ [w] from List.reverse_cons w rest,
      List.map_append,
      show List.map Prod.fst [w] = [w.1] from rfl,
      show b :: (List.map Prod.fst rest.reverse ++ [w.1]) =
        (b :: List.map Prod.fst rest.reverse) ++ [w.1] from rfl,
      List.reverse_append, ← hih, ha]
    rfl

end Advogato

namespace Advogato

/-- Stored-edge lookup through the nested `dmod` of `augment_edge`. -/
theorem gE_mk_dmod2 (V : List (String × List (String × Edge)))
    (a b x y : String) (fe : Edge → Edge) :
    gE ⟨dmod V a (fun m => dmod m b fe)⟩ x y =
      if a = x then
        (if b = y then (gE ⟨V⟩ x y).map fe else gE ⟨V⟩ x y)
      else gE ⟨V⟩ x y := by
  show (match dget? (dmod V a (fun m => dmod m b fe)) x with
    | some m => dget? m y
    | none => none) = _
  rw [dget?_dmod]
  by_cases hax : a = x
  · rw [if_pos hax, if_pos hax]
    cases hv : dget? V x with
    | none =>
      show (none : Option Edge) = _
      by_cases hby : b = y
      · rw [if_pos hby]
        show (none : Option Edge) = (gE ⟨V⟩ x y).map fe
        unfold gE
        rw [hv]
        rfl
      · rw [if_neg hby]
        show (none : Option Edge) = gE ⟨V⟩ x y
        unfold gE
        rw [hv]
    | some m =>
      show dget? (dmod m b fe) y = _
      rw [dget?_dmod]
      by_cases hby : b = y
      · rw [if_pos hby, if_pos hby]
        show (dget? m y).map fe = (gE ⟨V⟩ x y).map fe
        unfold gE
        rw [hv]
      · rw [if_neg hby, if_neg hby]
        show dget? m y = gE ⟨V⟩ x y
        unfold gE
        rw [hv]
  · rw [if_neg hax, if_neg hax]
    show gE ⟨V⟩ x y = gE ⟨V⟩ x y
    rfl

/-- The forward replacement flow, written through `gE`. -/
theorem newf_eq_gE_add (gp : Digraph) (cfp : EInt) (u v : String) :
    (match dget? gp.V u with
     | some m =>
       match dget? m v with
       | some e => e.f.add cfp
       | none => EInt.fin 0
     | none => EInt.fin 0) =
      match gE gp u v with
      | some e => e.f.add cfp
      | none => EInt.fin 0 := by
  unfold gE
  cases dget? gp.V u with
  | some m => rfl
  | none => rfl

/-- The reverse replacement flow, written through `gE`. -/
theorem newf_eq_gE_sub (gp : Digraph) (cfp : EInt) (u v : String) :
    (match dget? gp.V u with
     | some m =>
       match dget? m v with
       | some e => e.f.sub cfp
       | none => EInt.fin 0
     | none => EInt.fin 0) =
      match gE gp u v with
      | some e => e.f.sub cfp
      | none => EInt.fin 0 := by
  unfold gE
  cases dget? gp.V u with
  | some m => rfl
  | none => rfl

/-- Inner-dict key distinctness survives the nested `dmod`. -/
theorem innerNodup_mk_dmod (V : List (String × List (String × Edge)))
    (a b : String) (fe : Edge → Edge) (h : InnerNodup ⟨V⟩) :
    InnerNodup ⟨dmod V a (fun m => dmod m b fe)⟩ := by
  intro p hp
  cases mem_dmod hp with
  | inl h2 => exact h p h2
  | inr h2 =>
    obtain ⟨m0, hm0, hpval⟩ := h2
    rw [hpval]
    show (dkeys (dmod m0 b fe)).Nodup
    rw [dkeys_dmod]
    exact h (a, m0) hm0

end Advogato

namespace Advogato

/-- Stored-edge lookup through `augment_edge`'s two G′ updates. -/
theorem gE_gp_update (W : List (String × List (String × Edge)))
    (aa bb : String) (hne : aa ≠ bb) (fe1 fe2 : Edge → Edge)
    (x y : String) :
    gE ⟨dmod (dmod W aa (fun m => dmod m bb fe1)) bb
        (fun m => dmod m aa fe2)⟩ x y =
      if aa = x ∧ bb = y then (gE ⟨W⟩ x y).map fe1
      else if bb = x ∧ aa = y then (gE ⟨W⟩ x y).map fe2
      else gE ⟨W⟩ x y := by
  rw [gE_mk_dmod2, gE_mk_dmod2]
  by_cases hbx : bb = x
  · rw [if_pos hbx]
    by_cases hay : aa = y
    · rw [if_pos hay, if_neg (fun hax : aa = x => hne (hax.trans hbx.symm)),
        if_neg (fun hc : aa = x ∧ bb = y => hne (hc.1.trans hbx.symm)),
        if_pos ⟨hbx, hay⟩]
    · rw [if_neg hay, if_neg (fun hax : aa = x => hne (hax.trans hbx.symm)),
        if_neg (fun hc : aa = x ∧ bb = y => hne (hc.1.trans hbx.symm)),
        if_neg (fun hc : bb = x ∧ aa = y => hay hc.2)]
  · rw [if_neg hbx]
    by_cases hax : aa = x
    · by_cases hby : bb = y
      · rw [if_pos hax, if_pos hby, if_pos ⟨hax, hby⟩]
      · rw [if_pos hax, if_neg hby,
          if_neg (fun hc : aa = x ∧ bb = y => hby hc.2),
          if_neg (fun hc : bb = x ∧ aa = y => hbx hc.1)]
    · rw [if_neg hax, if_neg (fun hc : aa = x ∧ bb = y => hax hc.1),
        if_neg (fun hc : bb = x ∧ aa = y => hbx hc.1)]

end Advogato

namespace Advogato

/-- One augmentation step along a path edge keeps the synchronisation and
capacity invariants, and touches no stored edge outside the pair
`(uv.1, uv.2)` / `(uv.2, uv.1)`. -/
theorem augment_step5 (gi gpi : Digraph) (cfpI : Int) (hcfp1 : 1 ≤ cfpI)
    (st : Digraph × Digraph) (uv : String × String) (hne : uv.1 ≠ uv.2)
    (hsync : Sync st.1 st.2) (hi2 : I2 st.1)
    (hnd1 : (dkeys st.1.V).Nodup) (hin1 : InnerNodup st.1)
    (hnap : NAP st.1)
    (hgi1 : gE gi uv.1 uv.2 = gE st.1 uv.1 uv.2)
    (hgi2 : gE gi uv.2 uv.1 = gE st.1 uv.2 uv.1)
    (hskip : res_cap gi uv.1 uv.2 ≠ EInt.fin 0)
    (ha3 : gE st.2 uv.1 uv.2 = gE gpi uv.1 uv.2)
    (hbound : ∀ k : Int, res_cap gpi uv.1 uv.2 = EInt.fin k → cfpI ≤ k) :
    Sync (augment_edge st (.fin cfpI) uv).1
      (augment_edge st (.fin cfpI) uv).2 ∧
    I2 (augment_edge st (.fin cfpI) uv).1 ∧
    (dkeys (augment_edge st (.fin cfpI) uv).1.V).Nodup ∧
    InnerNodup (augment_edge st (.fin cfpI) uv).1 ∧
    (∀ x y, ¬(x = uv.1 ∧ y = uv.2) → ¬(x = uv.2 ∧ y = uv.1) →
      gE (augment_edge st (.fin cfpI) uv).1 x y = gE st.1 x y ∧
      gE (augment_edge st (.fin cfpI) uv).2 x y = gE st.2 x y) := by
  by_cases hfwd : st.1.has_edge uv.1 uv.2 = true
  · obtain ⟨e, hEe⟩ : ∃ e, gE st.1 uv.1 uv.2 = some e := by
      rw [has_edge_eq_isSome_gE] at hfwd
      exact Option.isSome_iff_exists.mp hfwd
    obtain ⟨hfwdgp, htrgp⟩ := hsync uv.1 uv.2 e hEe
    obtain ⟨m, hm, hme⟩ := gE_some_elim hEe
    have hmemV : (uv.1, m) ∈ st.1.V := dget?_mem hm
    have hmemE : (uv.2, e) ∈ m := dget?_mem hme
    obtain ⟨fv, hfv, hfv0, hfvc⟩ := hi2 _ hmemV _ hmemE
    have hrevnone : gE st.1 uv.2 uv.1 = none := by
      have hh := hnap uv.1 uv.2 hfwd
      rw [has_edge_eq_isSome_gE] at hh
      cases hx : gE st.1 uv.2 uv.1 with
      | none => rfl
      | some e2 =>
        rw [hx] at hh
        cases hh
    have h1 := augment_edge_fst_fwd st (.fin cfpI) uv hfwd
    have h2 := augment_edge_snd_fwd st (.fin cfpI) uv hfwd
    have hnf : (match dget? st.2.V uv.1 with
        | some m =>
          match dget? m uv.2 with
          | some e => e.f.add (EInt.fin cfpI)
          | none => EInt.fin 0
        | none => EInt.fin 0) = e.f.add (EInt.fin cfpI) := by
      rw [newf_eq_gE_add, hfwdgp]
    have hg1 : ∀ x y, gE (augment_edge st (.fin cfpI) uv).1 x y =
        if uv.1 = x then
          (if uv.2 = y then (gE st.1 x y).map
            (fun e => { e with f := e.f.add (EInt.fin cfpI) })
          else gE st.1 x y)
        else gE st.1 x y := by
      intro x y
      rw [h1, gE_mk_dmod2]
    have hg2 : ∀ x y, gE (augment_edge st (.fin cfpI) uv).2 x y =
        if uv.1 = x ∧ uv.2 = y then (gE st.2 x y).map (fun e =>
          { e with f :=
            (match dget? st.2.V uv.1 with
             | some m =>
               match dget? m uv.2 with
               | some e => e.f.add (EInt.fin cfpI)
               | none => EInt.fin 0
             | none => EInt.fin 0) })
        else if uv.2 = x ∧ uv.1 = y then (gE st.2 x y).map (fun e =>
          { e with c :=
            (match dget? st.2.V uv.1 with
             | some m =>
               match dget? m uv.2 with
               | some e => e.f.add (EInt.fin cfpI)
               | none => EInt.fin 0
             | none => EInt.fin 0) })
        else gE st.2 x y := by
      intro x y
      rw [h2, gE_gp_update st.2.V uv.1 uv.2 hne]
    have hgp_uv : gE (augment_edge st (.fin cfpI) uv).2 uv.1 uv.2 =
        some { v := uv.2, c := e.c, f := e.f.add (EInt.fin cfpI) } := by
      rw [hg2, if_pos ⟨rfl, rfl⟩, hfwdgp]
      simp only [Option.map_some']
      rw [hnf]
    have hgp_vu : gE (augment_edge st (.fin cfpI) uv).2 uv.2 uv.1 =
        some { v := uv.1, c := e.f.add (EInt.fin cfpI), f := EInt.fin 0 } := by
      rw [hg2, if_neg (fun hc : uv.1 = uv.2 ∧ uv.2 = uv.1 => hne hc.1),
        if_pos ⟨rfl, rfl⟩, htrgp]
      simp only [Option.map_some']
      rw [hnf]
    have hgp_other : ∀ x y, ¬(x = uv.1 ∧ y = uv.2) →
        ¬(x = uv.2 ∧ y = uv.1) →
        gE (augment_edge st (.fin cfpI) uv).2 x y = gE st.2 x y := by
      intro x y hxy1 hxy2
      rw [hg2,
        if_neg (fun hc : uv.1 = x ∧ uv.2 = y =>
          hxy1 ⟨hc.1.symm, hc.2.symm⟩),
        if_neg (fun hc : uv.2 = x ∧ uv.1 = y =>
          hxy2 ⟨hc.1.symm, hc.2.symm⟩)]
    have hg1_other : ∀ x y, ¬(x = uv.1 ∧ y = uv.2) →
        gE (augment_edge st (.fin cfpI) uv).1 x y = gE st.1 x y := by
      intro x y hxy1
      rw [hg1]
      by_cases hx1 : uv.1 = x
      · rw [if_pos hx1]
        by_cases hy2 : uv.2 = y
        · exact absurd ⟨hx1.symm, hy2.symm⟩ hxy1
        · rw [if_neg hy2]
      · rw [if_neg hx1]
    refine ⟨?_, ?_, ?_, ?_, ?_⟩
    · intro x y e' hxy'
      by_cases hx1 : uv.1 = x
      · by_cases hy2 : uv.2 = y
        · subst hx1
          subst hy2
          rw [hg1, if_pos rfl, if_pos rfl, hEe] at hxy'
          have he' : e' = { e with f := e.f.add (EInt.fin cfpI) } :=
            (Option.some.inj hxy').symm
          constructor
          · rw [hgp_uv, he']
          · rw [hgp_vu, he']
        · have hxy'2 : gE st.1 x y = some e' := by
            rw [hg1, if_pos hx1, if_neg hy2] at hxy'
            exact hxy'
          obtain ⟨hs1, hs2⟩ := hsync x y e' hxy'2
          constructor
          · rw [hgp_other x y (fun hc => hy2 hc.2.symm)
              (fun hc => hne (hx1.trans hc.1))]
            exact hs1
          · rw [hgp_other y x (fun hc => hne (hx1.trans hc.2))
              (fun hc => hy2 hc.1.symm)]
            exact hs2
      · have hxy'2 : gE st.1 x y = some e' := by
          rw [hg1, if_neg hx1] at hxy'
          exact hxy'
        by_cases hvu : x = uv.2 ∧ y = uv.1
        · exfalso
          rw [hvu.1, hvu.2, hrevnone] at hxy'2
          cases hxy'2
        · obtain ⟨hs1, hs2⟩ := hsync x y e' hxy'2
          constructor
          · rw [hgp_other x y (fun hc => hx1 hc.1.symm) hvu]
            exact hs1
          · rw [hgp_other y x (fun hc => hvu ⟨hc.2, hc.1⟩)
              (fun hc => hx1 hc.2.symm)]
            exact hs2
    · intro p' hp' q' hq'
      rw [h1] at hp'
      cases mem_dmod hp' with
      | inl hold => exact hi2 p' hold q' hq'
      | inr h2' =>
        obtain ⟨m0, hm0, hpval⟩ := h2'
        have hm0eq : m0 = m := by
          have hh := dget?_of_mem_nodup st.1.V hnd1 (uv.1, m0) hm0
          rw [hm] at hh
          exact (Option.some.inj hh).symm
        rw [hpval] at hq'
        cases mem_dmod hq' with
        | inl holdq =>
          rw [hm0eq] at holdq
          exact hi2 (uv.1, m) hmemV q' holdq
        | inr h3' =>
          obtain ⟨e0, he0, hqval⟩ := h3'
          rw [hm0eq] at he0
          have he0eq : e0 = e := by
            have hh := dget?_of_mem_nodup m (hin1 (uv.1, m) hmemV)
              (uv.2, e0) he0
            rw [hme] at hh
            exact (Option.some.inj hh).symm
          rw [hqval, he0eq]
          refine ⟨fv + cfpI, ?_, by omega, ?_⟩
          · show e.f.add (EInt.fin cfpI) = EInt.fin (fv + cfpI)
            rw [hfv]
            rfl
          · intro cv hcv
            have hcv' : e.c = EInt.fin cv := hcv
            have hgpi : gE gpi uv.1 uv.2 =
                some { v := uv.2, c := e.c, f := e.f } := by
              rw [← ha3]
              exact hfwdgp
            have hres : res_cap gpi uv.1 uv.2 = EInt.fin (cv - fv) := by
              rw [res_cap_of_gE hgpi]
              show e.c.sub e.f = _
              rw [hcv', hfv]
              rfl
            have := hbound (cv - fv) hres
            omega
    · rw [h1]
      show (dkeys (dmod st.1.V uv.1 _)).Nodup
      rw [dkeys_dmod]
      exact hnd1
    · rw [h1]
      exact innerNodup_mk_dmod st.1.V uv.1 uv.2 _ hin1
    · intro x y hxy1 hxy2
      exact ⟨hg1_other x y hxy1, hgp_other x y hxy1 hxy2⟩
  · have hfwdnone : gE st.1 uv.1 uv.2 = none := by
      rw [has_edge_eq_isSome_gE] at hfwd
      cases hx : gE st.1 uv.1 uv.2 with
      | none => rfl
      | some e2 =>
        exfalso
        apply hfwd
        rw [hx]
        rfl
    obtain ⟨e, hEe⟩ : ∃ e, gE st.1 uv.2 uv.1 = some e := by
      have hex := res_cap_exist gi uv.1 uv.2 hskip
      have hgi1' : gi.has_edge uv.1 uv.2 = false := by
        rw [has_edge_eq_isSome_gE, hgi1, hfwdnone]
        rfl
      have hgi2' : gi.has_edge uv.2 uv.1 = true := by
        cases hex with
        | inl hc =>
          rw [hgi1'] at hc
          cases hc
        | inr hc => exact hc
      rw [has_edge_eq_isSome_gE, hgi2] at hgi2'
      exact Option.isSome_iff_exists.mp hgi2'
    obtain ⟨hfwdgp, htrgp⟩ := hsync uv.2 uv.1 e hEe
    obtain ⟨m, hm, hme⟩ := gE_some_elim hEe
    have hmemV : (uv.2, m) ∈ st.1.V := dget?_mem hm
    have hmemE : (uv.1, e) ∈ m := dget?_mem hme
    obtain ⟨fv, hfv, hfv0, hfvc⟩ := hi2 _ hmemV _ hmemE
    have h1 := augment_edge_fst_rev st (.fin cfpI) uv hfwd
    have h2 := augment_edge_snd_rev st (.fin cfpI) uv hfwd
    have hnf : (match dget? st.2.V uv.2 with
        | some m =>
          match dget? m uv.1 with
          | some e => e.f.sub (EInt.fin cfpI)
          | none => EInt.fin 0
        | none => EInt.fin 0) = e.f.sub (EInt.fin cfpI) := by
      rw [newf_eq_gE_sub, hfwdgp]
    have hgpi : gE gpi uv.1 uv.2 =
        some { v := uv.2, c := e.f, f := EInt.fin 0 } := by
      rw [← ha3]
      exact htrgp
    have hresv : res_cap gpi uv.1 uv.2 = EInt.fin fv := by
      rw [res_cap_of_gE hgpi]
      show e.f.sub (EInt.fin 0) = _
      rw [hfv]
      show EInt.fin (fv - 0) = EInt.fin fv
      norm_num
    have hbnd : cfpI ≤ fv := hbound fv hresv
    have hg1 : ∀ x y, gE (augment_edge st (.fin cfpI) uv).1 x y =
        if uv.2 = x then
          (if uv.1 = y then (gE st.1 x y).map
            (fun e => { e with f := e.f.sub (EInt.fin cfpI) })
          else gE st.1 x y)
        else gE st.1 x y := by
      intro x y
      rw [h1, gE_mk_dmod2]
    have hg2 : ∀ x y, gE (augment_edge st (.fin cfpI) uv).2 x y =
        if uv.2 = x ∧ uv.1 = y then (gE st.2 x y).map (fun e =>
          { e with f :=
            (match dget? st.2.V uv.2 with
             | some m =>
               match dget? m uv.1 with
               | some e => e.f.sub (EInt.fin cfpI)
               | none => EInt.fin 0
             | none => EInt.fin 0) })
        else if uv.1 = x ∧ uv.2 = y then (gE st.2 x y).map (fun e =>
          { e with c :=
            (match dget? st.2.V uv.2 with
             | some m =>
               match dget? m uv.1 with
               | some e => e.f.sub (EInt.fin cfpI)
               | none => EInt.fin 0
             | none => EInt.fin 0) })
        else gE st.2 x y := by
      intro x y
      rw [h2, gE_gp_update st.2.V uv.2 uv.1 (fun hc => hne hc.symm)]
    have hgp_vu : gE (augment_edge st (.fin cfpI) uv).2 uv.2 uv.1 =
        some { v := uv.1, c := e.c, f := e.f.sub (EInt.fin cfpI) } := by
      rw [hg2, if_pos ⟨rfl, rfl⟩, hfwdgp]
      simp only [Option.map_some']
      rw [hnf]
    have hgp_uv : gE (augment_edge st (.fin cfpI) uv).2 uv.1 uv.2 =
        some { v := uv.2, c := e.f.sub (EInt.fin cfpI), f := EInt.fin 0 } := by
      rw [hg2, if_neg (fun hc : uv.2 = uv.1 ∧ uv.1 = uv.2 => hne hc.2),
        if_pos ⟨rfl, rfl⟩, htrgp]
      simp only [Option.map_some']
      rw [hnf]
    have hgp_other : ∀ x y, ¬(x = uv.1 ∧ y = uv.2) →
        ¬(x = uv.2 ∧ y = uv.1) →
        gE (augment_edge st (.fin cfpI) uv).2 x y = gE st.2 x y := by
      intro x y hxy1 hxy2
      rw [hg2,
        if_neg (fun hc : uv.2 = x ∧ uv.1 = y =>
          hxy2 ⟨hc.1.symm, hc.2.symm⟩),
        if_neg (fun hc : uv.1 = x ∧ uv.2 = y =>
          hxy1 ⟨hc.1.symm, hc.2.symm⟩)]
    have hg1_other : ∀ x y, ¬(x = uv.2 ∧ y = uv.1) →
        gE (augment_edge st (.fin cfpI) uv).1 x y = gE st.1 x y := by
      intro x y hxy2
      rw [hg1]
      by_cases hx2 : uv.2 = x
      · rw [if_pos hx2]
        by_cases hy1 : uv.1 = y
        · exact absurd ⟨hx2.symm, hy1.symm⟩ hxy2
        · rw [if_neg hy1]
      · rw [if_neg hx2]
    refine ⟨?_, ?_, ?_, ?_, ?_⟩
    · intro x y e' hxy'
      by_cases hx2 : uv.2 = x
      · by_cases hy1 : uv.1 = y
        · subst hx2
          subst hy1
          rw [hg1, if_pos rfl, if_pos rfl, hEe] at hxy'
          have he' : e' = { e with f := e.f.sub (EInt.fin cfpI) } :=
            (Option.some.inj hxy').symm
          constructor
          · rw [hgp_vu, he']
          · rw [hgp_uv, he']
        · have hxy'2 : gE st.1 x y = some e' := by
            rw [hg1, if_pos hx2, if_neg hy1] at hxy'
            exact hxy'
          obtain ⟨hs1, hs2⟩ := hsync x y e' hxy'2
          constructor
          · rw [hgp_other x y (fun hc => hne (hc.1.symm.trans hx2.symm))
              (fun hc => hy1 hc.2.symm)]
            exact hs1
          · rw [hgp_other y x (fun hc => hy1 hc.1.symm)
              (fun hc => hne (hc.2.symm.trans hx2.symm))]
            exact hs2
      · have hxy'2 : gE st.1 x y = some e' := by
          rw [hg1, if_neg hx2] at hxy'
          exact hxy'
        by_cases huv2 : x = uv.1 ∧ y = uv.2
        · exfalso
          rw [huv2.1, huv2.2, hfwdnone] at hxy'2
          cases hxy'2
        · obtain ⟨hs1, hs2⟩ := hsync x y e' hxy'2
          constructor
          · rw [hgp_other x y huv2 (fun hc => hx2 hc.1.symm)]
            exact hs1
          · rw [hgp_other y x (fun hc => hx2 hc.2.symm)
              (fun hc => huv2 ⟨hc.2, hc.1⟩)]
            exact hs2
    · intro p' hp' q' hq'
      rw [h1] at hp'
      cases mem_dmod hp' with
      | inl hold => exact hi2 p' hold q' hq'
      | inr h2' =>
        obtain ⟨m0, hm0, hpval⟩ := h2'
        have hm0eq : m0 = m := by
          have hh := dget?_of_mem_nodup st.1.V hnd1 (uv.2, m0) hm0
          rw [hm] at hh
          exact (Option.some.inj hh).symm
        rw [hpval] at hq'
        cases mem_dmod hq' with
        | inl holdq =>
          rw [hm0eq] at holdq
          exact hi2 (uv.2, m) hmemV q' holdq
        | inr h3' =>
          obtain ⟨e0, he0, hqval⟩ := h3'
          rw [hm0eq] at he0
          have he0eq : e0 = e := by
            have hh := dget?_of_mem_nodup m (hin1 (uv.2, m) hmemV)
              (uv.1, e0) he0
            rw [hme] at hh
            exact (Option.some.inj hh).symm
          rw [hqval, he0eq]
          refine ⟨fv - cfpI, ?_, by omega, ?_⟩
          · show e.f.sub (EInt.fin cfpI) = EInt.fin (fv - cfpI)
            rw [hfv]
            rfl
          · intro cv hcv
            have hcv' : e.c = EInt.fin cv := hcv
            have := hfvc cv hcv'
            omega
    · rw [h1]
      show (dkeys (dmod st.1.V uv.2 _)).Nodup
      rw [dkeys_dmod]
      exact hnd1
    · rw [h1]
      exact innerNodup_mk_dmod st.1.V uv.2 uv.1 _ hin1
    · intro x y hxy1 hxy2
      exact ⟨hg1_other x y hxy2, hgp_other x y hxy1 hxy2⟩

end Advogato

/-- Overwriting the first entry of key `k` (present, with a value satisfying
the count predicate) by a value that does not satisfy it lowers the count by
one. -/
theorem countP_dset_first {α : Type} (pred : String × α → Bool) :
    ∀ (m : List (String × α)) (k : String) (x v : α),
      dget? m k = some v → pred (k, v) = true → pred (k, x) = false →
      (dset m k x).countP pred + 1 = m.countP pred := by
  intro m
  induction m with
  | nil =>
    intro k x v hv _ _
    cases hv
  | cons hd rest ih =>
    intro k x v hv hpv hpx
    obtain ⟨k', v'⟩ := hd
    simp only [dget?] at hv
    simp only [dset]
    by_cases hk : k' = k
    · rw [if_pos hk] at hv
      rw [if_pos hk, List.countP_cons, List.countP_cons, hpx]
      have hv' : v' = v := Option.some.inj hv
      rw [hk, hv', hpv]
      simp
    · rw [if_neg hk] at hv
      rw [if_neg hk, List.countP_cons, List.countP_cons,
        ← ih k x v hv hpv hpx]
      omega

/-- Modifying the entry at `k` by a function whose results never satisfy the
count predicate cannot raise the count. -/
theorem countP_dmod_le {α : Type} (pred : String × α → Bool) (f : α → α)
    (k : String) (hf : ∀ v, pred (k, f v) = false) :
    ∀ m : List (String × α), (dmod m k f).countP pred ≤ m.countP pred := by
  intro m
  induction m with
  | nil =>
    simp [dmod]
  | cons hd rest ih =>
    obtain ⟨k', v'⟩ := hd
    simp only [dmod]
    by_cases hk : k' = k
    · rw [if_pos hk, List.countP_cons, List.countP_cons, hk, hf v']
      simp only [Bool.false_eq_true, if_false]
      omega
    · rw [if_neg hk, List.countP_cons, List.countP_cons]
      omega

namespace Advogato

/-- One exploration pass cannot raise the measure
`#white entries + queue length`: every enqueue greys a white vertex. -/
theorem bfs_explore_measure (skip : String → String → Bool) (ulabel : String)
    (ud : EInt) (edges : List (String × Edge))
    (st : List (String × Vertex_prop) × List String) :
    (bfs_explore skip ulabel ud edges st).1.countP
        (fun pr => decide (pr.2.color = Color.white)) +
      (bfs_explore skip ulabel ud edges st).2.length ≤
    st.1.countP (fun pr => decide (pr.2.color = Color.white)) +
      st.2.length := by
  unfold bfs_explore
  apply foldl_invariant_mem _
    (fun st' : List (String × Vertex_prop) × List String =>
      st'.1.countP (fun pr => decide (pr.2.color = Color.white)) +
        st'.2.length ≤
      st.1.countP (fun pr => decide (pr.2.color = Color.white)) +
        st.2.length)
    edges st (le_refl _)
  intro b a _ hb
  refine le_trans ?_ hb
  beta_reduce
  split
  · exact le_refl _
  · split
    · exact le_refl _
    · next vp hvp =>
      split
      · next hwhite =>
        have hdrop := countP_dset_first
          (fun pr : String × Vertex_prop => decide (pr.2.color = Color.white))
          b.1 a.2.v
          { vp with color := .grey, d := ud.add (.fin 1), pi := some ulabel }
          vp hvp (by simp [hwhite]) (by simp)
        simp only [List.length_append, List.length_cons, List.length_nil]
        omega
      · exact le_refl _

/-- The BFS loop completes whenever the fuel exceeds the measure
`#white entries + queue length`. -/
theorem bfs_loop_isSome (g : Digraph) (skip : String → String → Bool) :
    ∀ (fuel : Nat) (vprops : List (String × Vertex_prop)) (q : List String),
      vprops.countP (fun pr => decide (pr.2.color = Color.white)) + q.length <
        fuel →
      (bfs_loop g skip fuel vprops q).isSome = true := by
  intro fuel
  induction fuel with
  | zero =>
    intro vprops q h
    omega
  | succ n ih =>
    intro vprops q h
    cases q with
    | nil => rfl
    | cons u rest =>
      rw [show bfs_loop g skip (n + 1) vprops (u :: rest) =
          (match dget? vprops u with
           | none => bfs_loop g skip n vprops rest
           | some up =>
             bfs_loop g skip n
               (dmod (bfs_explore skip u up.d ((dget? g.V u).getD [])
                 (vprops, rest)).1 u (fun w => { w with color := .black }))
               (bfs_explore skip u up.d ((dget? g.V u).getD [])
                 (vprops, rest)).2) from rfl]
      cases hup : dget? vprops u with
      | none =>
        apply ih
        simp only [List.length_cons] at h
        omega
      | some up =>
        apply ih
        have hm : (bfs_explore skip u up.d ((dget? g.V u).getD [])
              (vprops, rest)).1.countP
              (fun pr => decide (pr.2.color = Color.white)) +
            (bfs_explore skip u up.d ((dget? g.V u).getD [])
              (vprops, rest)).2.length ≤
            vprops.countP (fun pr => decide (pr.2.color = Color.white)) +
              rest.length :=
          bfs_explore_measure skip u up.d ((dget? g.V u).getD [])
            (vprops, rest)
        have hblack := countP_dmod_le
          (fun pr : String × Vertex_prop => decide (pr.2.color = Color.white))
          (fun w => { w with color := .black }) u (fun v => by simp)
          (bfs_explore skip u up.d ((dget? g.V u).getD []) (vprops, rest)).1
        simp only [List.length_cons] at h
        omega

/-- The initial `vprops` has at most one white entry per vertex of `g` (the
source entry, wherever stored, is grey). -/
theorem bfs_init_countP (g : Digraph) (s : String) :
    (bfs_init g s).countP (fun pr => decide (pr.2.color = Color.white)) ≤
      g.V.length := by
  have hlen : (g.V.map (fun p =>
      if p.1 = s then (s, Vertex_prop.mk .grey (.fin 0) none s)
      else (p.1, Vertex_prop.mk .white .inf none p.1))).countP
        (fun pr => decide (pr.2.color = Color.white)) ≤ g.V.length := by
    refine le_trans (List.countP_le_length _) (le_of_eq ?_)
    exact List.length_map _ _
  show (if dmem (g.V.map (fun p =>
      if p.1 = s then (s, Vertex_prop.mk .grey (.fin 0) none s)
      else (p.1, Vertex_prop.mk .white .inf none p.1))) s
    then (g.V.map (fun p =>
      if p.1 = s then (s, Vertex_prop.mk .grey (.fin 0) none s)
      else (p.1, Vertex_prop.mk .white .inf none p.1)))
    else (g.V.map (fun p =>
      if p.1 = s then (s, Vertex_prop.mk .grey (.fin 0) none s)
      else (p.1, Vertex_prop.mk .white .inf none p.1))) ++
        [(s, Vertex_prop.mk .grey (.fin 0) none s)]).countP
      (fun pr => decide (pr.2.color = Color.white)) ≤ g.V.length
  split
  · exact hlen
  · rw [List.countP_append]
    simp only [List.countP_cons, List.countP_nil]
    simp only [decide_eq_true_eq]
    have : ¬ (Vertex_prop.mk Color.grey (.fin 0) none s).color = Color.white := by
      intro hc
      cases hc
    simp only [this, if_false]
    omega

/-- `Digraph.bfs` always completes: its internal fuel covers the measure. -/
theorem bfs_isSome (g : Digraph) (s : String) (skip : String → String → Bool) :
    (g.bfs s skip).isSome = true := by
  unfold Digraph.bfs
  cases hrun : bfs_loop g skip (bfsFuel g) (bfs_init g s) [s] with
  | none =>
    exfalso
    have hs := bfs_loop_isSome g skip (bfsFuel g) (bfs_init g s) [s] (by
      have h1 := bfs_init_countP g s
      unfold bfsFuel
      simp only [List.length_cons, List.length_nil]
      omega)
    rw [hrun] at hs
    cases hs
  | some vprops => rfl

end Advogato

namespace Advogato

/-- Augmenting an edge never changes the stored-edge structure of the flow
network (only a flow field is rewritten). -/
theorem has_edge_augment_fst (st : Digraph × Digraph) (cfp : EInt)
    (uv : String × String) (x y : String) :
    (augment_edge st cfp uv).1.has_edge x y = st.1.has_edge x y := by
  by_cases h : st.1.has_edge uv.1 uv.2 = true
  · rw [augment_edge_fst_fwd st cfp uv h]
    exact has_edge_dmod2 st.1.V uv.1 uv.2 x y _
  · rw [augment_edge_fst_rev st cfp uv h]
    exact has_edge_dmod2 st.1.V uv.2 uv.1 x y _

/-- A row's contribution to `capIntoT` only reads the `v` and `c` fields, so
an update preserving those leaves it unchanged. -/
theorem filterMapRow_dmod (t : String) (fe : Edge → Edge)
    (hv : ∀ e, (fe e).v = e.v) (hc : ∀ e, toIntZ (fe e).c = toIntZ e.c) :
    ∀ (m : List (String × Edge)) (b : String),
      ((dmod m b fe).filter (fun q => q.2.v == t)).map
          (fun q => toIntZ q.2.c) =
        (m.filter (fun q => q.2.v == t)).map (fun q => toIntZ q.2.c) := by
  intro m
  induction m with
  | nil =>
    intro b
    rfl
  | cons hd rest ih =>
    intro b
    obtain ⟨k, e⟩ := hd
    simp only [dmod]
    by_cases hk : k = b
    · rw [if_pos hk]
      simp only [List.filter_cons]
      have hvv : (((k, fe e).2.v == t)) = (((k, e).2.v == t)) := by
        show ((fe e).v == t) = (e.v == t)
        rw [hv]
      rw [hvv]
      by_cases ht : (((k, e).2.v == t)) = true
      · rw [if_pos ht, if_pos ht]
        simp only [List.map_cons]
        rw [show toIntZ (k, fe e).2.c = toIntZ (k, e).2.c from hc e]
      · rw [if_neg ht, if_neg ht]
    · rw [if_neg hk]
      simp only [List.filter_cons]
      by_cases ht : (((k, e).2.v == t)) = true
      · rw [if_pos ht, if_pos ht, List.map_cons, List.map_cons, ih b]
      · rw [if_neg ht, if_neg ht, ih b]

/-- The capacity into `t` is unchanged by any in-place edge update that
preserves targets and capacities. -/
theorem capIntoT_mk_dmod2 (t : String)
    (V : List (String × List (String × Edge))) (a b : String)
    (fe : Edge → Edge) (hv : ∀ e, (fe e).v = e.v)
    (hc : ∀ e, toIntZ (fe e).c = toIntZ e.c) :
    capIntoT ⟨dmod V a (fun m => dmod m b fe)⟩ t = capIntoT ⟨V⟩ t := by
  unfold capIntoT
  induction V with
  | nil => rfl
  | cons hd rest ih =>
    obtain ⟨k, m⟩ := hd
    simp only [dmod]
    by_cases hk : k = a
    · rw [if_pos hk]
      simp only [List.map_cons, List.sum_cons]
      rw [show ((dmod m b fe).filter (fun q => q.2.v == t)).map
            (fun q => toIntZ q.2.c) =
          (m.filter (fun q => q.2.v == t)).map (fun q => toIntZ q.2.c) from
        filterMapRow_dmod t fe hv hc m b]
    · rw [if_neg hk]
      simp only [List.map_cons, List.sum_cons]
      rw [show ((dmod rest a (fun m => dmod m b fe)).map (fun p =>
          ((p.2.filter (fun q => q.2.v == t)).map (fun q => toIntZ q.2.c)).sum)).sum =
        (rest.map (fun p =>
          ((p.2.filter (fun q => q.2.v == t)).map
            (fun q => toIntZ q.2.c)).sum)).sum from ih]

/-- Augmenting an edge (which only rewrites a flow field) preserves the
capacity entering `t`. -/
theorem capIntoT_augment_fst (st : Digraph × Digraph) (cfp : EInt)
    (uv : String × String) (t : String) :
    capIntoT (augment_edge st cfp uv).1 t = capIntoT st.1 t := by
  by_cases h : st.1.has_edge uv.1 uv.2 = true
  · rw [augment_edge_fst_fwd st cfp uv h]
    exact capIntoT_mk_dmod2 t st.1.V uv.1 uv.2 _ (fun e => rfl) (fun e => rfl)
  · rw [augment_edge_fst_rev st cfp uv h]
    exact capIntoT_mk_dmod2 t st.1.V uv.2 uv.1 _ (fun e => rfl) (fun e => rfl)

/-- A per-edge property closed under the update is preserved by the double
`dmod`. -/
theorem edgeAll_mk_dmod2 (Q : Edge → Prop)
    (V : List (String × List (String × Edge))) (a b : String)
    (fe : Edge → Edge) (hfe : ∀ e, Q e → Q (fe e))
    (h : ∀ p ∈ V, ∀ q ∈ p.2, Q q.2) :
    ∀ p ∈ dmod V a (fun m => dmod m b fe), ∀ q ∈ p.2, Q q.2 := by
  intro p hp q hq
  cases mem_dmod hp with
  | inl hold => exact h p hold q hq
  | inr h2 =>
    obtain ⟨m0, hm0, hpval⟩ := h2
    rw [hpval] at hq
    cases mem_dmod hq with
    | inl holdq => exact h (a, m0) hm0 q holdq
    | inr h3 =>
      obtain ⟨e0, he0, hqval⟩ := h3
      rw [hqval]
      exact hfe e0 (h (a, m0) hm0 (b, e0) he0)

/-- A per-edge property closed under flow rewrites is preserved by
augmentation on the flow network. -/
theorem augment_fst_edgeAll (Q : Edge → Prop)
    (hQ : ∀ (e : Edge) (x : EInt), Q e → Q { e with f := x })
    (st : Digraph × Digraph) (cfp : EInt) (uv : String × String)
    (h : ∀ p ∈ st.1.V, ∀ q ∈ p.2, Q q.2) :
    ∀ p ∈ (augment_edge st cfp uv).1.V, ∀ q ∈ p.2, Q q.2 := by
  by_cases hf : st.1.has_edge uv.1 uv.2 = true
  · rw [augment_edge_fst_fwd st cfp uv hf]
    exact edgeAll_mk_dmod2 Q st.1.V uv.1 uv.2 _ (fun e he => hQ e _ he) h
  · rw [augment_edge_fst_rev st cfp uv hf]
    exact edgeAll_mk_dmod2 Q st.1.V uv.2 uv.1 _ (fun e he => hQ e _ he) h

/-- Under the capacity invariant, the flow into `t` is bounded by the
total (finite) capacity into `t`. -/
theorem inflow_le_capIntoT (g : Digraph) (t : String) (hi2 : I2 g)
    (htin : TInFinV g t) : inflow_int g t ≤ capIntoT g t := by
  unfold inflow_int capIntoT
  refine List.sum_le_sum ?_
  intro p hp
  refine List.sum_le_sum ?_
  intro q hq
  have hq2 := List.mem_filter.mp hq
  obtain ⟨fv, hfv, hfv0, hfvc⟩ := hi2 p hp q hq2.1
  have hvt : q.2.v = t := by simpa using hq2.2
  have hcfin := htin p hp q hq2.1 hvt
  obtain ⟨cv, hcv⟩ := (isFin_iff _).mp hcfin
  rw [hfv, hcv]
  exact hfvc cv hcv

/-- Under the capacity invariant every flow is nonnegative, hence so is the
flow out of any vertex. -/
theorem outflow_int_nonneg (g : Digraph) (x : String) (hi2 : I2 g) :
    0 ≤ outflow_int g x := by
  unfold outflow_int
  apply List.sum_nonneg
  intro a ha
  obtain ⟨p, hp, hpa⟩ := List.mem_map.mp ha
  rw [← hpa]
  by_cases hpx : (p.1 == x) = true
  · rw [if_pos hpx]
    apply List.sum_nonneg
    intro b hb
    obtain ⟨q, hq, hqb⟩ := List.mem_map.mp hb
    obtain ⟨fv, hfv, hfv0, _⟩ := hi2 p hp q hq
    rw [← hqb, hfv]
    exact hfv0
  · rw [if_neg hpx]

/-- On a synchronised pair, every edge with nonzero residual capacity in the
flow network has residual capacity at least one (or infinite) in the fused
residual structure. -/
theorem good_residual (g gp : Digraph) (hsync : Sync g gp) (hi2 : I2 g)
    (hcfi : CFinOrInf g) (u v : String)
    (hskip : res_cap g u v ≠ EInt.fin 0) :
    (∃ k : Int, 1 ≤ k ∧ res_cap gp u v = EInt.fin k) ∨
      res_cap gp u v = EInt.inf := by
  cases hfwd : gE g u v with
  | some e =>
    obtain ⟨m, hm, hme⟩ := gE_some_elim hfwd
    obtain ⟨fv, hfv, hfv0, hfvc⟩ := hi2 (u, m) (dget?_mem hm) (v, e)
      (dget?_mem hme)
    have hco := hcfi (u, m) (dget?_mem hm) (v, e) (dget?_mem hme)
    have hgpf := (hsync u v e hfwd).1
    have hrgp : res_cap gp u v = e.c.sub e.f := by
      rw [res_cap_of_gE hgpf]
    have hrg : res_cap g u v = e.c.sub e.f := res_cap_of_gE hfwd
    cases hco with
    | inr hcinf =>
      right
      rw [hrgp, hcinf, hfv]
      rfl
    | inl hcfin =>
      obtain ⟨cv, hcv⟩ := (isFin_iff _).mp hcfin
      left
      refine ⟨cv - fv, ?_, ?_⟩
      · have hne0 : EInt.fin (cv - fv) ≠ EInt.fin 0 := by
          rw [hrg, hcv, hfv] at hskip
          exact hskip
        have hne0' : cv - fv ≠ 0 := fun hc => hne0 (by rw [hc])
        have hle := hfvc cv hcv
        omega
      · rw [hrgp, hcv, hfv]
        rfl
  | none =>
    cases hrev : gE g v u with
    | some e =>
      obtain ⟨m, hm, hme⟩ := gE_some_elim hrev
      obtain ⟨fv, hfv, hfv0, _⟩ := hi2 (v, m) (dget?_mem hm) (u, e)
        (dget?_mem hme)
      have hgpr := (hsync v u e hrev).2
      have hrgp : res_cap gp u v = (EInt.fin fv).sub (EInt.fin 0) := by
        rw [res_cap_of_gE hgpr]
        show e.f.sub (EInt.fin 0) = _
        rw [hfv]
      have hrg : res_cap g u v = e.f := res_cap_of_gE_rev hfwd hrev
      have hfvne : fv ≠ 0 := by
        intro hc
        apply hskip
        rw [hrg, hfv, hc]
      left
      refine ⟨fv, by omega, ?_⟩
      rw [hrgp]
      show EInt.fin (fv - 0) = EInt.fin fv
      norm_num
    | none =>
      exfalso
      apply hskip
      exact res_cap_none (gE_none_inner hfwd) (gE_none_inner hrev)

end Advogato

namespace Advogato

/-- Pushing the bottleneck along a path with pairwise-distinct vertices
keeps the flow network and the fused residual structure synchronised, keeps
the capacity invariant, and keeps the dictionary shape. -/
theorem fold_augment5 (g1 gp1 : Digraph) (cfpI : Int) (hcfp1 : 1 ≤ cfpI)
    (hnap1 : NAP g1) :
    ∀ (path : List (String × String)) (a b : String) (st : Digraph × Digraph),
      IsWalk a path b →
      (a :: path.map Prod.snd).Nodup →
      (∀ uv ∈ path, gE st.1 uv.1 uv.2 = gE g1 uv.1 uv.2 ∧
        gE st.1 uv.2 uv.1 = gE g1 uv.2 uv.1 ∧
        gE st.2 uv.1 uv.2 = gE gp1 uv.1 uv.2) →
      (∀ uv ∈ path, res_cap g1 uv.1 uv.2 ≠ EInt.fin 0) →
      (∀ uv ∈ path, ∀ k : Int,
        res_cap gp1 uv.1 uv.2 = EInt.fin k → cfpI ≤ k) →
      (∀ x y, st.1.has_edge x y = g1.has_edge x y) →
      Sync st.1 st.2 → I2 st.1 → (dkeys st.1.V).Nodup → InnerNodup st.1 →
      (∀ x y,
        (path.foldl (fun st uv => augment_edge st (.fin cfpI) uv)
          st).1.has_edge x y = g1.has_edge x y) ∧
      Sync (path.foldl (fun st uv => augment_edge st (.fin cfpI) uv) st).1
        (path.foldl (fun st uv => augment_edge st (.fin cfpI) uv) st).2 ∧
      I2 (path.foldl (fun st uv => augment_edge st (.fin cfpI) uv) st).1 ∧
      (dkeys (path.foldl (fun st uv => augment_edge st (.fin cfpI) uv)
        st).1.V).Nodup ∧
      InnerNodup (path.foldl (fun st uv => augment_edge st (.fin cfpI) uv)
        st).1 := by
  intro path
  induction path with
  | nil =>
    intro a b st _ _ _ _ _ hhe hsync hi2 hnd hin
    exact ⟨hhe, hsync, hi2, hnd, hin⟩
  | cons uv rest ih =>
    intro a b st hw hnodup hagree hskips hbound hhe hsync hi2 hnd hin
    obtain ⟨ha, hrest⟩ := hw
    simp only [List.map_cons] at hnodup
    have hanotin : a ∉ uv.2 :: rest.map Prod.snd :=
      (List.nodup_cons.mp hnodup).1
    have hnodup' : (uv.2 :: rest.map Prod.snd).Nodup :=
      (List.nodup_cons.mp hnodup).2
    have hne : uv.1 ≠ uv.2 := fun hc => hanotin (by
      rw [← ha] at hc
      rw [← hc]
      exact List.mem_cons_self _ _)
    have hnap : NAP st.1 := by
      intro x y hxy
      rw [hhe] at hxy
      rw [hhe]
      exact hnap1 x y hxy
    obtain ⟨hag1, hag2, hag3⟩ := hagree uv (List.mem_cons_self uv rest)
    obtain ⟨hsync', hi2', hnd', hin', hframe⟩ :=
      augment_step5 g1 gp1 cfpI hcfp1 st uv hne hsync hi2 hnd hin hnap
        hag1.symm hag2.symm (hskips uv (List.mem_cons_self uv rest)) hag3
        (hbound uv (List.mem_cons_self uv rest))
    have hhe' : ∀ x y,
        (augment_edge st (.fin cfpI) uv).1.has_edge x y =
          g1.has_edge x y := by
      intro x y
      rw [has_edge_augment_fst]
      exact hhe x y
    have hverts := isWalk_mem_verts rest uv.2 b hrest
    have hagree' : ∀ w ∈ rest,
        gE (augment_edge st (.fin cfpI) uv).1 w.1 w.2 = gE g1 w.1 w.2 ∧
        gE (augment_edge st (.fin cfpI) uv).1 w.2 w.1 = gE g1 w.2 w.1 ∧
        gE (augment_edge st (.fin cfpI) uv).2 w.1 w.2 = gE gp1 w.1 w.2 := by
      intro w hwmem
      obtain ⟨hw1, hw2⟩ := hverts w hwmem
      have hw1a : w.1 ≠ uv.1 := fun hc => hanotin (by
        rw [ha, ← hc]
        exact hw1)
      have hw2a : w.2 ≠ uv.1 := fun hc => hanotin (by
        rw [ha, ← hc]
        exact List.mem_cons_of_mem _ hw2)
      obtain ⟨hg1w, hg2w, hg3w⟩ := hagree w (List.mem_cons_of_mem uv hwmem)
      have hfr1 := hframe w.1 w.2 (fun hc => hw1a hc.1) (fun hc => hw2a hc.2)
      have hfr2 := hframe w.2 w.1 (fun hc => hw2a hc.1) (fun hc => hw1a hc.2)
      exact ⟨hfr1.1.trans hg1w, hfr2.1.trans hg2w, hfr1.2.trans hg3w⟩
    rw [List.foldl_cons]
    exact ih uv.2 b (augment_edge st (.fin cfpI) uv) hrest hnodup' hagree'
      (fun w hw2 => hskips w (List.mem_cons_of_mem uv hw2))
      (fun w hw2 => hbound w (List.mem_cons_of_mem uv hw2))
      hhe' hsync' hi2' hnd' hin'

end Advogato

namespace Advogato

/-- The augmentation loop completes whenever the fuel exceeds the remaining
headroom `capIntoT g0 t - excess(t)`: every iteration that finds `t`
reachable pushes a bottleneck of at least one unit into `t`, and the excess
at `t` never exceeds the (invariant) capacity into `t`. -/
theorem ff_loop_term (g0 : Digraph) (s t : String) (hst : s ≠ t)
    (hnap0 : NAP g0) :
    ∀ (fuel : Nat) (g gp : Digraph),
      FFInv g0 t (g, gp) →
      Sync g gp → I2 g → (dkeys g.V).Nodup → InnerNodup g →
      CFinOrInf g → TInFinV g t →
      capIntoT g t = capIntoT g0 t →
      (capIntoT g0 t - (inflow_int g t - outflow_int g t)).toNat < fuel →
      (ff_loop s t fuel g gp).isSome = true := by
  intro fuel
  induction fuel with
  | zero =>
    intro g gp _ _ _ _ _ _ _ _ hmeas
    omega
  | succ n ih =>
    intro g gp hinv hsync hi2 hnd hin hcfi htin hcap hmeas
    rw [show ff_loop s t (n + 1) g gp =
        (match gp.bfs s (has_zero_res_cap g) with
         | none => none
         | some pg =>
           if dmem pg t then
             match collect_path pg (pg.length + 1) t with
             | none => none
             | some path0 =>
               let path := path0.reverse
               let cfp := path_cfp gp path
               let st := path.foldl (fun st uv => augment_edge st cfp uv)
                 (g, gp)
               ff_loop s t n st.1 st.2
           else some (g, gp)) from rfl]
    cases hbfs : gp.bfs s (has_zero_res_cap g) with
    | none =>
      exfalso
      have hb := bfs_isSome gp s (has_zero_res_cap g)
      rw [hbfs] at hb
      cases hb
    | some pg =>
      show (if dmem pg t then
          (match collect_path pg (pg.length + 1) t with
           | none => none
           | some path0 =>
             let path := path0.reverse
             let cfp := path_cfp gp path
             let st := path.foldl (fun st uv => augment_edge st cfp uv)
               (g, gp)
             ff_loop s t n st.1 st.2)
        else some (g, gp)).isSome = true
      have hpginv : PgInv gp (has_zero_res_cap g) s pg :=
        bfs_pginv gp (has_zero_res_cap g) s pg hinv.key2 hinv.nd2 hbfs
      by_cases hmem : dmem pg t = true
      · rw [if_pos hmem]
        obtain ⟨vp, hvp⟩ : ∃ vp, dget? pg t = some vp := by
          unfold dmem at hmem
          exact Option.isSome_iff_exists.mp hmem
        have hcps := collect_path_succeeds gp (has_zero_res_cap g) s pg
          hpginv pg.length t vp hvp (List.countP_le_length _)
          (pg.length + 1) (by omega)
        cases hcp : collect_path pg (pg.length + 1) t with
        | none =>
          rw [hcp] at hcps
          cases hcps
        | some path0 =>
          show (ff_loop s t n
            ((path0.reverse).foldl
              (fun st uv => augment_edge st (path_cfp gp path0.reverse) uv)
              (g, gp)).1
            ((path0.reverse).foldl
              (fun st uv => augment_edge st (path_cfp gp path0.reverse) uv)
              (g, gp)).2).isSome = true
          obtain ⟨hwalk, hedges, hhead⟩ := collect_path_walk gp
            (has_zero_res_cap g) s pg hpginv (pg.length + 1) t path0 hcp
          cases hpath0 : path0 with
          | nil =>
            exfalso
            subst hpath0
            exact hst hwalk
          | cons uvh rest0 =>
            subst hpath0
            obtain ⟨p0, rest0', hform⟩ := hhead (by simp)
            have hmemp0 : (p0, t) ∈ uvh :: rest0 := by
              rw [hform]
              exact List.mem_cons_self _ _
            have hedge_p0 : gp.has_edge p0 t = true :=
              (hedges (p0, t) hmemp0).2
            obtain ⟨m, hm⟩ : ∃ m, dget? gp.V p0 = some m := by
              cases hgm : dget? gp.V p0 with
              | none =>
                rw [has_edge_eq_false hgm] at hedge_p0
                cases hedge_p0
              | some m => exact ⟨m, rfl⟩
            obtain ⟨e, he⟩ : ∃ e, dget? m t = some e := by
              rw [has_edge_eq_dmem hm t] at hedge_p0
              unfold dmem at hedge_p0
              cases hge : dget? m t with
              | none =>
                rw [hge] at hedge_p0
                cases hedge_p0
              | some e => exact ⟨e, rfl⟩
            have hrcfin : EInt.isFin (res_cap gp p0 t) := by
              rw [res_cap_fwd hm he]
              exact isFin_sub e.c e.f
                (hinv.tfin2 (p0, m) (dget?_mem hm) (t, e) (dget?_mem he) rfl)
                (hinv.fin2 (p0, m) (dget?_mem hm) (t, e) (dget?_mem he))
            have hcfpfin : EInt.isFin
                (path_cfp gp ((uvh :: rest0).reverse)) :=
              path_cfp_isFin gp hinv.fin2 hinv.cfi2 _
                ⟨(p0, t), List.mem_reverse.mpr hmemp0, hrcfin⟩
            obtain ⟨cfpI, hcfpI⟩ := (isFin_iff _).mp hcfpfin
            rw [hcfpI]
            have hskips : ∀ uv ∈ (uvh :: rest0).reverse,
                res_cap g uv.1 uv.2 ≠ EInt.fin 0 := by
              intro uv huv
              have h1 := (hedges uv (List.mem_reverse.mp huv)).1
              unfold has_zero_res_cap at h1
              exact of_decide_eq_false h1
            have hgood : ∀ uv ∈ (uvh :: rest0).reverse,
                (∃ k : Int, 1 ≤ k ∧
                  res_cap gp uv.1 uv.2 = EInt.fin k) ∨
                res_cap gp uv.1 uv.2 = EInt.inf := by
              intro uv huv
              exact good_residual g gp hsync hi2 hcfi uv.1 uv.2
                (hskips uv huv)
            have hcfp1 : 1 ≤ cfpI := by
              have hg2 := path_cfp_good gp ((uvh :: rest0).reverse)
                EInt.inf hgood (Or.inr rfl)
              rw [← path_cfp_eq_foldl] at hg2
              cases hg2 with
              | inl hk =>
                obtain ⟨k, hk1, hkeq⟩ := hk
                rw [hcfpI] at hkeq
                rw [EInt.fin.inj hkeq]
                exact hk1
              | inr hinf =>
                rw [hcfpI] at hinf
                cases hinf
            have hnodupfst :=
              (collect_path_nodup gp (has_zero_res_cap g) s pg hpginv
                (pg.length + 1) t (uvh :: rest0) vp hcp hvp).2
            have hwnodup :
                (s :: ((uvh :: rest0).reverse.map Prod.snd)).Nodup := by
              have heq := walk_verts_rev ((uvh :: rest0).reverse) s t hwalk
              rw [heq]
              apply List.nodup_reverse.mpr
              rw [List.reverse_reverse]
              exact hnodupfst
            have hmin := path_cfp_min gp ((uvh :: rest0).reverse) EInt.inf
              cfpI (by rw [← path_cfp_eq_foldl]; exact hcfpI)
            obtain ⟨hinvres, hdelta⟩ := fold_augment g0 t cfpI g
              (fun x y => hinv.hedge x y) ((uvh :: rest0).reverse) s t
              (g, gp) hwalk hskips hinv
            have hnapg : NAP g := by
              intro x y hxy
              rw [hinv.hedge] at hxy
              rw [hinv.hedge]
              exact hnap0 x y hxy
            obtain ⟨hhe', hsync', hi2', hnd', hin'⟩ :=
              fold_augment5 g gp cfpI hcfp1 hnapg ((uvh :: rest0).reverse)
                s t (g, gp) hwalk hwnodup
                (fun uv _ => ⟨rfl, rfl, rfl⟩) hskips hmin.2
                (fun x y => rfl) hsync hi2 hnd hin
            have hstep : ∀ (b : Digraph × Digraph) (a : String × String),
                a ∈ (uvh :: rest0).reverse →
                (CFinOrInf b.1 ∧ TInFinV b.1 t ∧
                  capIntoT b.1 t = capIntoT g t) →
                CFinOrInf (augment_edge b (.fin cfpI) a).1 ∧
                  TInFinV (augment_edge b (.fin cfpI) a).1 t ∧
                  capIntoT (augment_edge b (.fin cfpI) a).1 t =
                    capIntoT g t := by
              intro b a _ hb
              refine ⟨?_, ?_, ?_⟩
              · exact augment_fst_edgeAll
                  (fun e => EInt.isFin e.c ∨ e.c = EInt.inf)
                  (fun e x he => he) b (.fin cfpI) a hb.1
              · exact augment_fst_edgeAll (fun e => e.v = t → EInt.isFin e.c)
                  (fun e x he => he) b (.fin cfpI) a hb.2.1
              · exact (capIntoT_augment_fst b (.fin cfpI) a t).trans hb.2.2
            have hstruct := foldl_invariant_mem
              (fun st uv => augment_edge st (.fin cfpI) uv)
              (fun st' : Digraph × Digraph =>
                CFinOrInf st'.1 ∧ TInFinV st'.1 t ∧
                  capIntoT st'.1 t = capIntoT g t)
              ((uvh :: rest0).reverse) (g, gp) ⟨hcfi, htin, rfl⟩ hstep
            have hdt := hdelta t
            rw [if_pos rfl, if_neg hst] at hdt
            have hexc' :
                inflow_int (((uvh :: rest0).reverse).foldl
                    (fun st uv => augment_edge st (.fin cfpI) uv)
                    (g, gp)).1 t -
                  outflow_int (((uvh :: rest0).reverse).foldl
                    (fun st uv => augment_edge st (.fin cfpI) uv)
                    (g, gp)).1 t =
                inflow_int g t - outflow_int g t + cfpI := by
              rw [hdt]
              ring
            have hle' :
                inflow_int (((uvh :: rest0).reverse).foldl
                    (fun st uv => augment_edge st (.fin cfpI) uv)
                    (g, gp)).1 t -
                  outflow_int (((uvh :: rest0).reverse).foldl
                    (fun st uv => augment_edge st (.fin cfpI) uv)
                    (g, gp)).1 t ≤ capIntoT g0 t := by
              have h1 := inflow_le_capIntoT _ t hi2' hstruct.2.1
              have h2 := outflow_int_nonneg _ t hi2'
              have h3 := hstruct.2.2.trans hcap
              omega
            apply ih _ _ hinvres hsync' hi2' hnd' hin' hstruct.1
              hstruct.2.1 (hstruct.2.2.trans hcap)
            omega
      · rw [if_neg hmem]
        rfl

end Advogato

namespace Advogato

/-- C5: `ford_fulkerson` terminates on every well-formed transformed flow
network (distinct vertex keys and inner keys, target-keyed edge dicts, no
antiparallel pair, zero initial flows, nonnegative finite-or-infinite
capacities, finite capacities into the supersink and no edges out of it):
with fuel `capIntoT g t + 1` — one loop iteration per unit of capacity
entering the supersink, plus the final unreachable-sink check — the run
completes.  Every augmentation pushes a strictly positive integer
bottleneck, so the finite capacity entering the supersink bounds the number
of augmenting-path iterations. -/
theorem ford_fulkerson_terminates (g : Digraph) (s t : String)
    (hst : s ≠ t) (hkey : EdgeKeyed g) (hnd : (dkeys g.V).Nodup)
    (hin : InnerNodup g) (hnoap : NoAP g) (hf0 : FZero g)
    (hcfi : CFinOrInf g) (htin : TInFinV g t) (htout : TNoOut g t)
    (hcnn : CNonneg g) :
    (ford_fulkerson ((capIntoT g t).toNat + 1) g s t).isSome = true := by
  unfold ford_fulkerson
  obtain ⟨hk2, hf2, hc2, ht2, hn2⟩ :=
    optimize_inv g t hnd hf0 hcfi htin htout
  have hffinv : FFInv g t (g, optimize g) :=
    ⟨fun x y => rfl, hkey,
      fun p hp q hq => by
        rw [hf0 p hp q hq]
        exact trivial,
      hk2, hf2, hc2, ht2, hn2⟩
  have hsync : Sync g (optimize g) := optimize_sync g hkey hnd hin hnoap hf0
  have hi2g : I2 g := by
    intro p hp q hq
    exact ⟨0, hf0 p hp q hq, le_refl 0, fun cv hcv => hcnn p hp q hq cv hcv⟩
  have hmeas : (capIntoT g t -
      (inflow_int g t - outflow_int g t)).toNat <
      (capIntoT g t).toNat + 1 := by
    rw [inflow_int_zero g hf0 t, outflow_int_zero g hf0 t]
    omega
  have hterm := ff_loop_term g s t hst (nap_of_noap g hnoap)
    ((capIntoT g t).toNat + 1) g (optimize g) hffinv hsync hi2g hnd hin
    hcfi htin rfl hmeas
  cases hloop : ff_loop s t ((capIntoT g t).toNat + 1) g (optimize g) with
  | none =>
    exfalso
    rw [hloop] at hterm
    cases hterm
  | some st => rfl

end Advogato

set_option maxRecDepth 40000 in
/-- Witness for C5: the concrete transformed network `c3net` (seed
certifying A, total drain capacity 2 into the supersink) completes within
the capacity-derived fuel. -/
theorem ford_fulkerson_terminates_witness :
    (Advogato.ford_fulkerson
        ((Advogato.capIntoT Advogato.c3net "SUPERSINK").toNat + 1)
        Advogato.c3net "seed_IN" "SUPERSINK").isSome = true :=
  Advogato.ford_fulkerson_terminates Advogato.c3net "seed_IN" "SUPERSINK"
    (by decide) (by decide) (by decide) (by decide) (by decide) (by decide)
    (by decide) (by decide) (by decide) (by decide)

namespace Advogato

/-- Extending a non-skipped path by one edge. -/
theorem edgePath_append (g : Digraph) (skip : String → String → Bool) :
    ∀ (l : List String) (a b c : String), EdgePath g skip a l b →
      skip b c = false → g.has_edge b c = true →
      EdgePath g skip a (l ++ [c]) c := by
  intro l
  induction l with
  | nil =>
    intro a b c hab hsk he
    have hab' : a = b := hab
    exact ⟨by rw [hab']; exact hsk, by rw [hab']; exact he, rfl⟩
  | cons v rest ih =>
    intro a b c hab hsk he
    obtain ⟨h1, h2, h3⟩ := hab
    exact ⟨h1, h2, ih v b c h3 hsk he⟩

/-- The exploration fold never touches a non-white entry. -/
theorem bfs_explore_stable (skip : String → String → Bool) (ulabel : String)
    (ud : EInt) :
    ∀ (edges : List (String × Edge))
      (st : List (String × Vertex_prop) × List String) (k : String)
      (vp : Vertex_prop), dget? st.1 k = some vp →
      vp.color ≠ Color.white →
      dget? (bfs_explore skip ulabel ud edges st).1 k = some vp := by
  intro edges
  induction edges with
  | nil =>
    intro st k vp h _
    exact h
  | cons p rest ih =>
    intro st k vp h hnw
    have hstep : bfs_explore skip ulabel ud (p :: rest) st =
        bfs_explore skip ulabel ud rest
          (if skip ulabel p.1 then st
           else
             match dget? st.1 p.2.v with
             | none => st
             | some vp =>
               if vp.color = Color.white then
                 (dset st.1 p.2.v { vp with color := .grey, d := ud.add (.fin 1), pi := some ulabel },
                  st.2 ++ [p.2.v])
               else st) := rfl
    rw [hstep]
    by_cases hskip : skip ulabel p.1 = true
    · rw [if_pos hskip]
      exact ih st k vp h hnw
    · rw [if_neg hskip]
      cases hvp : dget? st.1 p.2.v with
      | none => exact ih st k vp h hnw
      | some vpw =>
        by_cases hwhite : vpw.color = Color.white
        · simp only [hwhite, reduceIte]
          apply ih _ k vp _ hnw
          rw [dget?_dset]
          by_cases hk : p.2.v = k
          · exfalso
            rw [hk, h] at hvp
            rw [Option.some.inj hvp] at hnw
            exact hnw hwhite
          · rw [if_neg hk]
            exact h
        · simp only [hwhite, reduceIte]
          exact ih st k vp h hnw

/-- The exploration fold preserves the key list. -/
theorem bfs_explore_keys6 (skip : String → String → Bool) (ulabel : String)
    (ud : EInt) :
    ∀ (edges : List (String × Edge))
      (st : List (String × Vertex_prop) × List String),
      dkeys (bfs_explore skip ulabel ud edges st).1 = dkeys st.1 := by
  intro edges
  induction edges with
  | nil =>
    intro st
    rfl
  | cons p rest ih =>
    intro st
    have hstep : bfs_explore skip ulabel ud (p :: rest) st =
        bfs_explore skip ulabel ud rest
          (if skip ulabel p.1 then st
           else
             match dget? st.1 p.2.v with
             | none => st
             | some vp =>
               if vp.color = Color.white then
                 (dset st.1 p.2.v { vp with color := .grey, d := ud.add (.fin 1), pi := some ulabel },
                  st.2 ++ [p.2.v])
               else st) := rfl
    rw [hstep]
    by_cases hskip : skip ulabel p.1 = true
    · rw [if_pos hskip]
      exact ih st
    · rw [if_neg hskip]
      cases hvp : dget? st.1 p.2.v with
      | none => exact ih st
      | some vpw =>
        by_cases hwhite : vpw.color = Color.white
        · simp only [hwhite, reduceIte]
          rw [ih]
          show dkeys (dset st.1 p.2.v _) = dkeys st.1
          apply dkeys_dset_mem
          rw [mem_dkeys_iff_dget?, hvp]
          rfl
        · simp only [hwhite, reduceIte]
          exact ih st

/-- The exploration fold appends exactly the newly-greyed vertices to the
queue; every entry of the result is either untouched or a freshly-greyed
white entry at distance `ud + 1`, queued at the end. -/
theorem bfs_explore_new (skip : String → String → Bool) (ulabel : String)
    (ud : EInt) :
    ∀ (edges : List (String × Edge))
      (st : List (String × Vertex_prop) × List String),
      ∃ anew, (bfs_explore skip ulabel ud edges st).2 = st.2 ++ anew ∧
        (∀ w ∈ anew, ∃ vp',
          dget? (bfs_explore skip ulabel ud edges st).1 w = some vp' ∧
          vp'.d = ud.add (EInt.fin 1) ∧ vp'.color ≠ Color.white) ∧
        (∀ k vp',
          dget? (bfs_explore skip ulabel ud edges st).1 k = some vp' →
          dget? st.1 k = some vp' ∨
          ∃ vp, dget? st.1 k = some vp ∧ vp.color = Color.white ∧
            vp' = { vp with color := .grey, d := ud.add (.fin 1), pi := some ulabel } ∧
            k ∈ anew) := by
  intro edges
  induction edges with
  | nil =>
    intro st
    exact ⟨[], (List.append_nil _).symm, fun w hw => absurd hw
      (List.not_mem_nil w), fun k vp' h => Or.inl h⟩
  | cons p rest ih =>
    intro st
    have hstep : bfs_explore skip ulabel ud (p :: rest) st =
        bfs_explore skip ulabel ud rest
          (if skip ulabel p.1 then st
           else
             match dget? st.1 p.2.v with
             | none => st
             | some vp =>
               if vp.color = Color.white then
                 (dset st.1 p.2.v { vp with color := .grey, d := ud.add (.fin 1), pi := some ulabel },
                  st.2 ++ [p.2.v])
               else st) := rfl
    rw [hstep]
    by_cases hskip : skip ulabel p.1 = true
    · rw [if_pos hskip]
      exact ih st
    · rw [if_neg hskip]
      cases hvp : dget? st.1 p.2.v with
      | none => exact ih st
      | some vpw =>
        by_cases hwhite : vpw.color = Color.white
        · simp only [hwhite, reduceIte]
          set w := p.2.v with hwdef
          set newvp : Vertex_prop := { vpw with color := .grey, d := ud.add (.fin 1), pi := some ulabel } with hnewvp
          obtain ⟨anew', h2eq, hnewprop, hchar⟩ :=
            ih (dset st.1 w newvp, st.2 ++ [w])
          refine ⟨w :: anew', ?_, ?_, ?_⟩
          · rw [h2eq]
            show (st.2 ++ [w]) ++ anew' = st.2 ++ ([w] ++ anew')
            rw [List.append_assoc]
          · intro w' hw'
            rcases List.mem_cons.mp hw' with hw' | hw'
            · subst hw'
              have hmid : dget? (dset st.1 w newvp) w = some newvp := by
                rw [dget?_dset, if_pos rfl]
              have hfin := bfs_explore_stable skip ulabel ud rest
                (dset st.1 w newvp, st.2 ++ [w]) w newvp hmid
                (by
                  intro hc
                  rw [hnewvp] at hc
                  cases hc)
              exact ⟨newvp, hfin, rfl, by
                intro hc
                rw [hnewvp] at hc
                cases hc⟩
            · exact hnewprop w' hw'
          · intro k vp' hfin
            rcases hchar k vp' hfin with hmid | ⟨vpm, hvpm, hvpmw, hval, hkm⟩
            · rw [dget?_dset] at hmid
              by_cases hk : w = k
              · rw [if_pos hk] at hmid
                refine Or.inr ⟨vpw, ?_, hwhite, (Option.some.inj hmid).symm,
                  ?_⟩
                · rw [← hk]
                  exact hvp
                · rw [← hk]
                  exact List.mem_cons_self _ _
              · rw [if_neg hk] at hmid
                exact Or.inl hmid
            · rw [dget?_dset] at hvpm
              by_cases hk : w = k
              · exfalso
                rw [if_pos hk] at hvpm
                rw [← Option.some.inj hvpm, hnewvp] at hvpmw
                cases hvpmw
              · rw [if_neg hk] at hvpm
                exact Or.inr ⟨vpm, hvpm, hvpmw, hval,
                  List.mem_cons_of_mem _ hkm⟩
        · simp only [hwhite, reduceIte]
          exact ih st

/-- After the exploration fold, every non-skipped listed edge's target is
discovered at most one level deeper, and the one-level distance bound on
discovered vertices is preserved. -/
theorem bfs_explore_covers (skip : String → String → Bool) (ulabel : String)
    (ud : EInt) (nd : Int) (hnd : ud = EInt.fin nd) :
    ∀ (edges : List (String × Edge))
      (st : List (String × Vertex_prop) × List String),
      (∀ k vp, dget? st.1 k = some vp → vp.color ≠ Color.white →
        ∀ dk : Int, vp.d = EInt.fin dk → dk ≤ nd + 1) →
      (∀ p ∈ edges, dmem st.1 p.2.v = true) →
      (∀ p ∈ edges, skip ulabel p.1 = false →
        ∃ vp', dget? (bfs_explore skip ulabel ud edges st).1 p.2.v =
            some vp' ∧ vp'.color ≠ Color.white ∧
          ∀ dy : Int, vp'.d = EInt.fin dy → dy ≤ nd + 1) ∧
      (∀ k vp, dget? (bfs_explore skip ulabel ud edges st).1 k = some vp →
        vp.color ≠ Color.white → ∀ dk : Int, vp.d = EInt.fin dk →
          dk ≤ nd + 1) := by
  intro edges
  induction edges with
  | nil =>
    intro st hG _
    exact ⟨fun p hp => absurd hp (List.not_mem_nil p), hG⟩
  | cons p rest ih =>
    intro st hG hpres
    have hstep : bfs_explore skip ulabel ud (p :: rest) st =
        bfs_explore skip ulabel ud rest
          (if skip ulabel p.1 then st
           else
             match dget? st.1 p.2.v with
             | none => st
             | some vp =>
               if vp.color = Color.white then
                 (dset st.1 p.2.v { vp with color := .grey, d := ud.add (.fin 1), pi := some ulabel },
                  st.2 ++ [p.2.v])
               else st) := rfl
    rw [hstep]
    by_cases hskip : skip ulabel p.1 = true
    · rw [if_pos hskip]
      obtain ⟨hcov, hG'⟩ := ih st hG
        (fun r hr => hpres r (List.mem_cons_of_mem p hr))
      refine ⟨?_, hG'⟩
      intro r hr hrs
      rcases List.mem_cons.mp hr with hr | hr
      · exfalso
        rw [hr] at hrs
        rw [hrs] at hskip
        cases hskip
      · exact hcov r hr hrs
    · rw [if_neg hskip]
      cases hvp : dget? st.1 p.2.v with
      | none =>
        exfalso
        have := hpres p (List.mem_cons_self p rest)
        unfold dmem at this
        rw [hvp] at this
        cases this
      | some vpw =>
        by_cases hwhite : vpw.color = Color.white
        · simp only [hwhite, reduceIte]
          set w := p.2.v with hwdef
          set newvp : Vertex_prop := { vpw with color := .grey, d := ud.add (.fin 1), pi := some ulabel } with hnewvp
          have hnvd : newvp.d = EInt.fin (nd + 1) := by
            rw [hnewvp]
            show ud.add (EInt.fin 1) = EInt.fin (nd + 1)
            rw [hnd]
            rfl
          have hmidlook : ∀ k, dget? (dset st.1 w newvp) k =
              if w = k then some newvp else dget? st.1 k := by
            intro k
            rw [dget?_dset]
          have hG2 : ∀ k vp, dget? (dset st.1 w newvp) k = some vp →
              vp.color ≠ Color.white → ∀ dk : Int, vp.d = EInt.fin dk →
              dk ≤ nd + 1 := by
            intro k vp hk hnw dk hdk
            rw [hmidlook] at hk
            by_cases hwk : w = k
            · rw [if_pos hwk] at hk
              rw [← Option.some.inj hk, hnvd] at hdk
              rw [EInt.fin.inj hdk]
            · rw [if_neg hwk] at hk
              exact hG k vp hk hnw dk hdk
          have hpres2 : ∀ r ∈ rest, dmem (dset st.1 w newvp) r.2.v = true := by
            intro r hr
            have := hpres r (List.mem_cons_of_mem p hr)
            unfold dmem at this ⊢
            rw [hmidlook]
            by_cases hwk : w = r.2.v
            · rw [if_pos hwk]
              rfl
            · rw [if_neg hwk]
              exact this
          obtain ⟨hcov, hG'⟩ := ih (dset st.1 w newvp, st.2 ++ [w]) hG2 hpres2
          refine ⟨?_, hG'⟩
          intro r hr hrs
          rcases List.mem_cons.mp hr with hr | hr
          · have hmid : dget? (dset st.1 w newvp) w = some newvp := by
              rw [hmidlook, if_pos rfl]
            have hfin := bfs_explore_stable skip ulabel ud rest
              (dset st.1 w newvp, st.2 ++ [w]) w newvp hmid
              (by
                intro hc
                rw [hnewvp] at hc
                cases hc)
            rw [hr]
            refine ⟨newvp, hfin, ?_, ?_⟩
            · intro hc
              rw [hnewvp] at hc
              cases hc
            · intro dy hdy
              rw [hnvd] at hdy
              rw [← EInt.fin.inj hdy]
          · exact hcov r hr hrs
        · simp only [hwhite, reduceIte]
          obtain ⟨hcov, hG'⟩ := ih st hG
            (fun r hr => hpres r (List.mem_cons_of_mem p hr))
          refine ⟨?_, hG'⟩
          intro r hr hrs
          rcases List.mem_cons.mp hr with hr | hr
          · have hfin := bfs_explore_stable skip ulabel ud rest st r.2.v vpw
              (by rw [← hr] at hvp; exact hvp) hwhite
            refine ⟨vpw, hfin, hwhite, ?_⟩
            intro dy hdy
            exact hG p.2.v vpw hvp hwhite dy hdy
          · exact hcov r hr hrs

/-- The source entry of `bfs_init`. -/
theorem bfs_init_src (g : Digraph) (s : String) :
    dget? (bfs_init g s) s =
      some (Vertex_prop.mk .grey (.fin 0) none s) := by
  unfold bfs_init
  by_cases hm : dmem (g.V.map (fun p =>
      if p.1 = s then (s, Vertex_prop.mk .grey (.fin 0) none s)
      else (p.1, Vertex_prop.mk .white .inf none p.1))) s = true
  · rw [if_pos hm]
    unfold dmem at hm
    cases hb : dget? (g.V.map (fun p =>
        if p.1 = s then (s, Vertex_prop.mk .grey (.fin 0) none s)
        else (p.1, Vertex_prop.mk .white .inf none p.1))) s with
    | none =>
      rw [hb] at hm
      cases hm
    | some vp =>
      have hvv := bfs_init_base_dget? s g.V s vp hb
      rw [if_pos rfl] at hvv
      rw [hvv]
  · rw [if_neg hm]
    rw [dget?_append]
    unfold dmem at hm
    cases hb : dget? (g.V.map (fun p =>
        if p.1 = s then (s, Vertex_prop.mk .grey (.fin 0) none s)
        else (p.1, Vertex_prop.mk .white .inf none p.1))) s with
    | none =>
      simp [dget?]
    | some vp =>
      exfalso
      apply hm
      rw [hb]
      rfl

/-- `bfs_init` tracks every vertex of `g`. -/
theorem bfs_init_keys_sup (g : Digraph) (s : String) :
    ∀ v, dmem g.V v = true → dmem (bfs_init g s) v = true := by
  intro v hv
  unfold dmem at hv ⊢
  have hv2 : v ∈ dkeys g.V := (mem_dkeys_iff_dget? _ _).mpr hv
  rw [← mem_dkeys_iff_dget?]
  unfold bfs_init
  by_cases hm : dmem (g.V.map (fun p =>
      if p.1 = s then (s, Vertex_prop.mk .grey (.fin 0) none s)
      else (p.1, Vertex_prop.mk .white .inf none p.1))) s = true
  · rw [if_pos hm, bfs_init_base_keys]
    exact hv2
  · rw [if_neg hm]
    show v ∈ dkeys (_ ++ _)
    rw [show ∀ (l1 l2 : List (String × Vertex_prop)),
        dkeys (l1 ++ l2) = dkeys l1 ++ dkeys l2 from
      fun l1 l2 => List.map_append _ l1 l2]
    apply List.mem_append_left
    rw [bfs_init_base_keys]
    exact hv2

end Advogato

namespace Advogato

set_option maxHeartbeats 1000000 in
/-- The BFS loop preserves the layering invariant and ends with an empty
queue, no grey vertices, exact one-level edge bounds on processed vertices,
and all discovered vertices within one level of the last layer. -/
theorem bfs_loop_inv6 (g : Digraph) (skip : String → String → Bool)
    (s : String) (hkey : EdgeKeyed g)
    (hclosed : ∀ u v, g.has_edge u v = true → dmem g.V v = true) :
    ∀ (fuel : Nat) (vprops : List (String × Vertex_prop)) (q : List String)
      (res : List (String × Vertex_prop)),
      BInv g skip s vprops → QInv vprops q → BfsInv g skip s vprops q →
      bfs_loop g skip fuel vprops q = some res →
      BInv g skip s res ∧ BfsInv g skip s res [] ∧
        ∀ k vp, dget? res k = some vp → vp.color ≠ Color.grey := by
  intro fuel
  induction fuel with
  | zero =>
    intro vprops q res hB hQ hI hrun
    cases q with
    | nil =>
      cases hrun
      exact ⟨hB, ⟨hI.src, hI.white_pi, hI.keys, hI.grey_q, hI.black_edge,
        hI.layer⟩,
        fun k vp h hc => absurd (hI.grey_q k vp h hc) (List.not_mem_nil k)⟩
    | cons u rest => cases hrun
  | succ n ih =>
    intro vprops q res hB hQ hI hrun
    cases q with
    | nil =>
      cases hrun
      exact ⟨hB, ⟨hI.src, hI.white_pi, hI.keys, hI.grey_q, hI.black_edge,
        hI.layer⟩,
        fun k vp h hc => absurd (hI.grey_q k vp h hc) (List.not_mem_nil k)⟩
    | cons u rest =>
      have hQrest : QInv vprops rest :=
        fun w hw => hQ w (List.mem_cons_of_mem u hw)
      cases hup : dget? vprops u with
      | none =>
        exfalso
        obtain ⟨up2, hup2, _⟩ := hQ u (List.mem_cons_self u rest)
        rw [hup] at hup2
        cases hup2
      | some up =>
        have hupw : up.color ≠ Color.white := by
          obtain ⟨up2, hup2, h2⟩ := hQ u (List.mem_cons_self u rest)
          rw [hup] at hup2
          rw [← Option.some.inj hup2] at h2
          exact h2
        obtain ⟨ndn, hndn⟩ := ((hB u up hup).2.1 hupw).1
        have hedges : ∀ p ∈ (dget? g.V u).getD [], p.1 = p.2.v ∧
            g.has_edge u p.1 = true := by
          intro p hp
          cases hgv : dget? g.V u with
          | none =>
            rw [hgv] at hp
            cases hp
          | some m =>
            rw [hgv] at hp
            have hmem : (u, m) ∈ g.V := dget?_mem hgv
            refine ⟨hkey (u, m) hmem p hp, ?_⟩
            show Digraph.has_edge g u p.1 = true
            unfold Digraph.has_edge
            rw [hgv]
            show (dget? m p.1).isSome = true
            rw [← mem_dkeys_iff_dget?]
            exact List.mem_map_of_mem Prod.fst hp
        obtain ⟨L, q1, q2, heq, h1, h2, hG⟩ := hI.layer
        obtain ⟨ndI, hudI, hGpre, r1L, r2L, hrsplit, hr1, hr2⟩ :
            ∃ ndI : Int, up.d = EInt.fin ndI ∧
              (∀ k vp, dget? vprops k = some vp →
                vp.color ≠ Color.white → ∀ dk : Int,
                vp.d = EInt.fin dk → dk ≤ ndI + 1) ∧
              ∃ r1L r2L, rest = r1L ++ r2L ∧
                (∀ w ∈ r1L, ∀ wp, dget? vprops w = some wp →
                  wp.d = EInt.fin ndI) ∧
                (∀ w ∈ r2L, ∀ wp, dget? vprops w = some wp →
                  wp.d = EInt.fin (ndI + 1)) := by
          cases q1 with
          | nil =>
            simp only [List.nil_append] at heq
            have hu2 : u ∈ q2 := by
              rw [← heq]
              exact List.mem_cons_self _ _
            refine ⟨L + 1, h2 u hu2 up hup, ?_, rest, [], ?_, ?_, ?_⟩
            · intro k vp hk hnw dk hdk
              have := hG k vp hk hnw dk hdk
              omega
            · rw [List.append_nil]
            · intro w hw wp hwp
              have hw2 : w ∈ q2 := by
                rw [← heq]
                exact List.mem_cons_of_mem u hw
              exact h2 w hw2 wp hwp
            · intro w hw
              exact absurd hw (List.not_mem_nil w)
          | cons u1 q1rest =>
            simp only [List.cons_append] at heq
            injection heq with heqa heqb
            refine ⟨L, h1 u1 (List.mem_cons_self _ _) up
              (by rw [← heqa]; exact hup), hG, q1rest, q2, heqb, ?_, ?_⟩
            · intro w hw wp hwp
              exact h1 w (List.mem_cons_of_mem u1 hw) wp hwp
            · intro w hw wp hwp
              exact h2 w hw wp hwp
        obtain ⟨rr1, rr2, rr3, rr4⟩ := bfs_explore_inv g skip s u up.d ndn
          hndn ((dget? g.V u).getD []) vprops rest hB hQrest
          ⟨up, hup, hupw, rfl⟩ hedges
        obtain ⟨anew, hq2eq, hanewprop, hchar⟩ :=
          bfs_explore_new skip u up.d ((dget? g.V u).getD []) (vprops, rest)
        have hpres : ∀ p ∈ (dget? g.V u).getD [],
            dmem (vprops, rest).1 p.2.v = true := by
          intro p hp
          obtain ⟨hp1, hp2⟩ := hedges p hp
          rw [hp1] at hp2
          exact hI.keys p.2.v (hclosed u p.2.v hp2)
        obtain ⟨hcov, hGcov⟩ := bfs_explore_covers skip u up.d ndI hudI
          ((dget? g.V u).getD []) (vprops, rest)
          (fun k vp hk => hGpre k vp hk) hpres
        set st := bfs_explore skip u up.d ((dget? g.V u).getD [])
          (vprops, rest) with hst
        have hq2' : st.2 = rest ++ anew := hq2eq
        have hupst : dget? st.1 u = some up := rr3 u up hup hupw
        have hblookup : ∀ k, dget? (dmod st.1 u
            (fun w => { w with color := .black })) k =
            if u = k then (dget? st.1 k).map
              (fun w => { w with color := .black }) else dget? st.1 k := by
          intro k
          rw [dget?_dmod]
        have hnewlook : ∀ k, dget? (dmod st.1 u
            (fun w => { w with color := .black })) k =
            if u = k then some { up with color := Color.black }
            else dget? st.1 k := by
          intro k
          rw [hblookup]
          by_cases hk : u = k
          · rw [if_pos hk, if_pos hk, ← hk, hupst]
            rfl
          · rw [if_neg hk, if_neg hk]
        have hnewchar : ∀ k vp2, dget? (dmod st.1 u
            (fun w => { w with color := .black })) k = some vp2 →
            (u = k ∧ vp2 = { up with color := Color.black }) ∨
            (u ≠ k ∧ dget? st.1 k = some vp2) := by
          intro k vp2 h
          rw [hnewlook] at h
          by_cases hk : u = k
          · rw [if_pos hk] at h
            exact Or.inl ⟨hk, (Option.some.inj h).symm⟩
          · rw [if_neg hk] at h
            exact Or.inr ⟨hk, h⟩
        have hstab : ∀ k vp, dget? vprops k = some vp →
            vp.color ≠ Color.white →
            ∃ vp2, dget? (dmod st.1 u
              (fun w => { w with color := .black })) k = some vp2 ∧
              vp2.d = vp.d ∧ vp2.pi = vp.pi ∧
              vp2.color ≠ Color.white := by
          intro k vp h hnw
          have hst1 := rr3 k vp h hnw
          rw [hnewlook]
          by_cases hk : u = k
          · rw [if_pos hk]
            rw [← hk] at hst1
            rw [hupst] at hst1
            have hvpu : up = vp := Option.some.inj hst1
            refine ⟨{ up with color := Color.black }, rfl, ?_, ?_, ?_⟩
            · rw [← hvpu]
            · rw [← hvpu]
            · intro hc
              cases hc
          · rw [if_neg hk]
            exact ⟨vp, hst1, rfl, rfl, hnw⟩
        have hB2 : BInv g skip s (dmod st.1 u
            (fun w => { w with color := .black })) := by
          intro k vp hvp
          rw [hblookup] at hvp
          by_cases hk : u = k
          · rw [if_pos hk, ← hk, hupst] at hvp
            have hvpval : vp = { up with color := .black } :=
              (Option.some.inj hvp).symm
            obtain ⟨hl, ho3, ho2⟩ := rr1 u up hupst
            refine ⟨?_, ?_, ?_⟩
            · rw [hvpval, ← hk]
              exact hl
            · intro _
              have h3 := ho3 hupw
              rw [hvpval, ← hk]
              exact ⟨h3.1, h3.2⟩
            · intro p hp
              have hp' : up.pi = some p := by
                rw [hvpval] at hp
                exact hp
              obtain ⟨pp, hpp, hppw, hd, hsk, hedge⟩ := ho2 p hp'
              rw [hblookup]
              by_cases hpu : u = p
              · refine ⟨{ pp with color := .black }, ?_, by simp, ?_, ?_, ?_⟩
                · rw [if_pos hpu, ← hpu, hupst]
                  rw [← hpu] at hpp
                  rw [hupst] at hpp
                  rw [Option.some.inj hpp]
                  rfl
                · obtain ⟨m, hm1, hm2⟩ := hd
                  rw [hvpval]
                  exact ⟨m, hm1, hm2⟩
                · rw [← hk]
                  exact hsk
                · rw [← hk]
                  exact hedge
              · refine ⟨pp, ?_, hppw, ?_, ?_, ?_⟩
                · rw [if_neg hpu]
                  exact hpp
                · obtain ⟨m, hm1, hm2⟩ := hd
                  rw [hvpval]
                  exact ⟨m, hm1, hm2⟩
                · rw [← hk]
                  exact hsk
                · rw [← hk]
                  exact hedge
          · rw [if_neg hk] at hvp
            obtain ⟨hl, ho3, ho2⟩ := rr1 k vp hvp
            refine ⟨hl, ho3, ?_⟩
            intro p hp
            obtain ⟨pp, hpp, hppw, hd, hsk, hedge⟩ := ho2 p hp
            rw [hblookup]
            by_cases hpu : u = p
            · refine ⟨{ pp with color := .black }, ?_, by simp, hd, hsk,
                hedge⟩
              rw [if_pos hpu, ← hpu, hupst]
              rw [← hpu] at hpp
              rw [hupst] at hpp
              rw [Option.some.inj hpp]
              rfl
            · refine ⟨pp, ?_, hppw, hd, hsk, hedge⟩
              rw [if_neg hpu]
              exact hpp
        have hQ2 : QInv (dmod st.1 u (fun w => { w with color := .black }))
            st.2 := by
          intro w hw
          obtain ⟨wp, hwp, hwpw⟩ := rr2 w hw
          rw [hblookup]
          by_cases hwu : u = w
          · refine ⟨{ wp with color := .black }, ?_, by simp⟩
            rw [if_pos hwu, ← hwu, hupst]
            rw [← hwu] at hwp
            rw [hupst] at hwp
            rw [Option.some.inj hwp]
            rfl
          · refine ⟨wp, ?_, hwpw⟩
            rw [if_neg hwu]
            exact hwp
        have hI2 : BfsInv g skip s
            (dmod st.1 u (fun w => { w with color := .black })) st.2 := by
          refine ⟨?_, ?_, ?_, ?_, ?_, ?_⟩
          · obtain ⟨sp, hsp, hsd, hspi, hsnw⟩ := hI.src
            obtain ⟨sp2, hsp2, hd2, hpi2, hnw2⟩ := hstab s sp hsp hsnw
            refine ⟨sp2, hsp2, ?_, ?_, hnw2⟩
            · rw [hd2]
              exact hsd
            · rw [hpi2]
              exact hspi
          · intro k vp2 hk hw
            rcases hnewchar k vp2 hk with ⟨_, hval⟩ | ⟨_, hst1⟩
            · exfalso
              rw [hval] at hw
              cases hw
            · rcases hchar k vp2 hst1 with hold | ⟨vp, _, _, hval, _⟩
              · exact hI.white_pi k vp2 hold hw
              · exfalso
                rw [hval] at hw
                cases hw
          · intro v hv
            have h1 := hI.keys v hv
            unfold dmem at h1 ⊢
            have h2 : v ∈ dkeys vprops := (mem_dkeys_iff_dget? _ _).mpr h1
            rw [← mem_dkeys_iff_dget?]
            show v ∈ dkeys (dmod st.1 u _)
            rw [dkeys_dmod, rr4]
            exact h2
          · intro k vp2 hk hgrey
            rcases hnewchar k vp2 hk with ⟨_, hval⟩ | ⟨hku, hst1⟩
            · exfalso
              rw [hval] at hgrey
              cases hgrey
            · rcases hchar k vp2 hst1 with hold | ⟨vp, _, _, _, hkanew⟩
              · have hkq := hI.grey_q k vp2 hold hgrey
                rcases List.mem_cons.mp hkq with hkq | hkq
                · exact absurd hkq.symm hku
                · rw [hq2']
                  exact List.mem_append_left anew hkq
              · rw [hq2']
                exact List.mem_append_right rest hkanew
          · intro x xp2 hx hblack y hsky hedgey
            rcases hnewchar x xp2 hx with ⟨hxu, hval⟩ | ⟨hxu, hxst⟩
            · obtain ⟨m, hgv⟩ : ∃ m, dget? g.V u = some m := by
                cases hgv : dget? g.V u with
                | none =>
                  rw [← hxu] at hedgey
                  rw [has_edge_eq_false hgv] at hedgey
                  cases hedgey
                | some m => exact ⟨m, rfl⟩
              obtain ⟨ey, hey⟩ : ∃ ey, dget? m y = some ey := by
                rw [← hxu] at hedgey
                rw [has_edge_eq_dmem hgv y] at hedgey
                unfold dmem at hedgey
                cases hge : dget? m y with
                | none =>
                  rw [hge] at hedgey
                  cases hedgey
                | some ey => exact ⟨ey, rfl⟩
              have hpmem : (y, ey) ∈ (dget? g.V u).getD [] := by
                rw [hgv]
                exact dget?_mem hey
              have hyv : y = ey.v :=
                hkey (u, m) (dget?_mem hgv) (y, ey) (dget?_mem hey)
              have hsky' : skip u (y, ey).1 = false := by
                rw [← hxu] at hsky
                exact hsky
              obtain ⟨yp', hyploc, hypnw, hypbound⟩ :=
                hcov (y, ey) hpmem hsky'
              have hyploc2 : dget? st.1 y = some yp' := by
                have hyv2 : (y, ey).2.v = y := hyv.symm
                rw [← hyv2]
                exact hyploc
              rw [hnewlook]
              by_cases huy : u = y
              · rw [if_pos huy]
                refine ⟨{ up with color := Color.black }, rfl, ?_, ?_⟩
                · intro hc
                  cases hc
                · intro dx dy hdx hdy
                  have hxd : xp2.d = EInt.fin ndI := by
                    rw [hval]
                    exact hudI
                  rw [hxd] at hdx
                  have hdyv : up.d = EInt.fin dy := hdy
                  rw [hudI] at hdyv
                  have h1 := EInt.fin.inj hdx
                  have h2 := EInt.fin.inj hdyv
                  omega
              · rw [if_neg huy]
                refine ⟨yp', hyploc2, hypnw, ?_⟩
                intro dx dy hdx hdy
                have hxd : xp2.d = EInt.fin ndI := by
                  rw [hval]
                  exact hudI
                rw [hxd] at hdx
                have hdxv := EInt.fin.inj hdx
                have := hypbound dy hdy
                omega
            · rcases hchar x xp2 hxst with hold | ⟨vp, _, _, hval, _⟩
              · obtain ⟨yp, hyp, hypnw, hbd⟩ :=
                  hI.black_edge x xp2 hold hblack y hsky hedgey
                obtain ⟨yp2, hyp2, hd2, _, hnw2⟩ := hstab y yp hyp hypnw
                refine ⟨yp2, hyp2, hnw2, ?_⟩
                intro dx dy hdx hdy
                rw [hd2] at hdy
                exact hbd dx dy hdx hdy
              · exfalso
                rw [hval] at hblack
                cases hblack
          · refine ⟨ndI, r1L, r2L ++ anew, ?_, ?_, ?_, ?_⟩
            · rw [hq2', hrsplit, List.append_assoc]
            · intro w hw wp2 hwp2
              rcases hnewchar w wp2 hwp2 with ⟨hwu, hval⟩ | ⟨hwu, hst1⟩
              · rw [hval]
                show up.d = EInt.fin ndI
                exact hudI
              · rcases hchar w wp2 hst1 with hold | ⟨vp, hvpold, hvpw, _, _⟩
                · exact hr1 w hw wp2 hold
                · exfalso
                  obtain ⟨wp, hwp, hwpnw⟩ := hQrest w (by
                    rw [hrsplit]
                    exact List.mem_append_left r2L hw)
                  rw [hvpold] at hwp
                  rw [← Option.some.inj hwp] at hwpnw
                  exact hwpnw hvpw
            · intro w hw wp2 hwp2
              rcases List.mem_append.mp hw with hw | hw
              · rcases hnewchar w wp2 hwp2 with ⟨hwu, hval⟩ | ⟨hwu, hst1⟩
                · exfalso
                  have hbad := hr2 w hw up (by rw [← hwu]; exact hup)
                  rw [hudI] at hbad
                  have := EInt.fin.inj hbad
                  omega
                · rcases hchar w wp2 hst1 with hold | ⟨vp, hvpold, hvpw, _, _⟩
                  · exact hr2 w hw wp2 hold
                  · exfalso
                    obtain ⟨wp, hwp, hwpnw⟩ := hQrest w (by
                      rw [hrsplit]
                      exact List.mem_append_right r1L hw)
                    rw [hvpold] at hwp
                    rw [← Option.some.inj hwp] at hwpnw
                    exact hwpnw hvpw
              · obtain ⟨vp', hvp'st, hd', hnw'⟩ := hanewprop w hw
                rw [hnewlook] at hwp2
                by_cases hwu : u = w
                · exfalso
                  rw [← hwu] at hvp'st
                  rw [hupst] at hvp'st
                  rw [← Option.some.inj hvp'st] at hd'
                  rw [hudI] at hd'
                  have hd2 : EInt.fin ndI = EInt.fin (ndI + 1) := by
                    rw [hd']
                    rfl
                  have := EInt.fin.inj hd2
                  omega
                · rw [if_neg hwu] at hwp2
                  rw [hvp'st] at hwp2
                  rw [← Option.some.inj hwp2, hd', hudI]
                  rfl
            · intro k vp2 hk hnw dk hdk
              rcases hnewchar k vp2 hk with ⟨hku, hval⟩ | ⟨hku, hst1⟩
              · rw [hval] at hdk
                have hdk2 : up.d = EInt.fin dk := hdk
                rw [hudI] at hdk2
                have := EInt.fin.inj hdk2
                omega
              · exact hGcov k vp2 hst1 hnw dk hdk
        have hrun' : bfs_loop g skip n
            (dmod st.1 u (fun w => { w with color := .black })) st.2 =
            some res := by
          rw [show bfs_loop g skip (n + 1) vprops (u :: rest) =
              (match dget? vprops u with
               | none => bfs_loop g skip n vprops rest
               | some up =>
                 bfs_loop g skip n
                   (dmod (bfs_explore skip u up.d ((dget? g.V u).getD [])
                     (vprops, rest)).1 u (fun w => { w with color := .black }))
                   (bfs_explore skip u up.d ((dget? g.V u).getD [])
                     (vprops, rest)).2) from rfl, hup] at hrun
          exact hrun
        exact ih (dmod st.1 u (fun w => { w with color := .black })) st.2
          res hB2 hQ2 hI2 hrun'

end Advogato

namespace Advogato

/-- Under the BFS predecessor invariant, every discovered vertex's distance
is realised by an actual non-skipped path from the source. -/
theorem binv_shortest_exists (g : Digraph) (skip : String → String → Bool)
    (s : String) (vprops : List (String × Vertex_prop))
    (hB : BInv g skip s vprops)
    (hsrc : ∃ sp, dget? vprops s = some sp ∧ sp.d = EInt.fin 0 ∧
      sp.pi = none ∧ sp.color ≠ Color.white) :
    ∀ (n : Nat) (k : String) (vp : Vertex_prop),
      dget? vprops k = some vp → vp.color ≠ Color.white →
      vp.d = EInt.fin n →
      ∃ l, EdgePath g skip s l k ∧ l.length = n := by
  intro n
  induction n using Nat.strong_induction_on with
  | _ n ihn =>
    intro k vp hvp hnw hd
    obtain ⟨hl, ho3, ho2⟩ := hB k vp hvp
    cases hpi : vp.pi with
    | none =>
      have hks : k = s := by
        rcases (ho3 hnw).2 with h | h
        · exact absurd hpi h
        · exact h
      obtain ⟨sp, hsp, hsd, _, _⟩ := hsrc
      rw [hks, hsp] at hvp
      have hvsp : vp = sp := (Option.some.inj hvp).symm
      have hd0 : vp.d = EInt.fin 0 := by
        rw [hvsp]
        exact hsd
      rw [hd] at hd0
      have hn0 : ((n : Int)) = 0 := EInt.fin.inj hd0
      refine ⟨[], hks.symm, ?_⟩
      show ([] : List String).length = n
      simp
      omega
    | some p =>
      obtain ⟨pp, hpp, hppw, hdlink, hsk, hedge⟩ := ho2 p hpi
      obtain ⟨m, hmd, hvd⟩ := hdlink
      rw [hd] at hvd
      have hmn : ((n : Int)) = ((m : Int)) + 1 := by
        have hinj := EInt.fin.inj hvd
        push_cast at hinj
        omega
      have hmlt : m < n := by omega
      obtain ⟨l, hlp, hll⟩ := ihn m hmlt p pp hpp hppw hmd
      refine ⟨l ++ [k], edgePath_append g skip l s p k hlp hsk hedge, ?_⟩
      rw [List.length_append, hll]
      simp
      omega

/-- After the loop (queue empty, no greys), the recorded distance of any
discovered vertex is at most the length of any non-skipped path to it. -/
theorem dist_le_path (g : Digraph) (skip : String → String → Bool)
    (s : String) (vprops : List (String × Vertex_prop))
    (hB : BInv g skip s vprops)
    (hnogrey : ∀ k vp, dget? vprops k = some vp → vp.color ≠ Color.grey)
    (hE : ∀ x xp, dget? vprops x = some xp → xp.color = Color.black →
      ∀ y, skip x y = false → g.has_edge x y = true →
        ∃ yp, dget? vprops y = some yp ∧ yp.color ≠ Color.white ∧
          ∀ dx dy : Int, xp.d = EInt.fin dx → yp.d = EInt.fin dy →
            dy ≤ dx + 1) :
    ∀ (l : List String) (a b : String), EdgePath g skip a l b →
      ∀ ap, dget? vprops a = some ap → ap.color ≠ Color.white →
      ∀ na : Int, ap.d = EInt.fin na →
      ∃ bp, dget? vprops b = some bp ∧ bp.color ≠ Color.white ∧
        ∀ nb : Int, bp.d = EInt.fin nb → nb ≤ na + l.length := by
  intro l
  induction l with
  | nil =>
    intro a b hab ap hap hnw na hd
    have hab' : a = b := hab
    refine ⟨ap, by rw [← hab']; exact hap, hnw, ?_⟩
    intro nb hnb
    rw [hd] at hnb
    have hinj := EInt.fin.inj hnb
    simp
    omega
  | cons v rest ih =>
    intro a b hab ap hap hnw na hd
    obtain ⟨hsk, hedge, hrest⟩ := hab
    have hblack : ap.color = Color.black := by
      cases hc : ap.color with
      | white => exact absurd hc hnw
      | grey => exact absurd hc (hnogrey a ap hap)
      | black => rfl
    obtain ⟨vp, hvp, hvnw, hbound⟩ := hE a ap hap hblack v hsk hedge
    obtain ⟨nv, hnv⟩ := ((hB v vp hvp).2.1 hvnw).1
    obtain ⟨bp, hbp, hbnw, hb⟩ := ih v b hrest vp hvp hvnw nv hnv
    refine ⟨bp, hbp, hbnw, ?_⟩
    intro nb hnb
    have h1 := hbound na nv hd hnv
    have h2 := hb nb hnb
    simp only [List.length_cons]
    push_cast
    push_cast at h2
    omega

/-- After the loop, discovery is closed under non-skipped edges, so every
vertex reachable from a discovered vertex is discovered. -/
theorem reach_nonwhite (g : Digraph) (skip : String → String → Bool)
    (vprops : List (String × Vertex_prop))
    (hnogrey : ∀ k vp, dget? vprops k = some vp → vp.color ≠ Color.grey)
    (hE : ∀ x xp, dget? vprops x = some xp → xp.color = Color.black →
      ∀ y, skip x y = false → g.has_edge x y = true →
        ∃ yp, dget? vprops y = some yp ∧ yp.color ≠ Color.white ∧
          ∀ dx dy : Int, xp.d = EInt.fin dx → yp.d = EInt.fin dy →
            dy ≤ dx + 1) :
    ∀ (l : List String) (a b : String), EdgePath g skip a l b →
      (∃ ap, dget? vprops a = some ap ∧ ap.color ≠ Color.white) →
      ∃ bp, dget? vprops b = some bp ∧ bp.color ≠ Color.white := by
  intro l
  induction l with
  | nil =>
    intro a b hab ha
    have hab' : a = b := hab
    rw [← hab']
    exact ha
  | cons v rest ih =>
    intro a b hab ha
    obtain ⟨ap, hap, hnw⟩ := ha
    obtain ⟨hsk, hedge, hrest⟩ := hab
    have hblack : ap.color = Color.black := by
      cases hc : ap.color with
      | white => exact absurd hc hnw
      | grey => exact absurd hc (hnogrey a ap hap)
      | black => rfl
    obtain ⟨vp, hvp, hvnw, _⟩ := hE a ap hap hblack v hsk hedge
    exact ih v b hrest ⟨vp, hvp, hvnw⟩

end Advogato

namespace Advogato

/-- C6: for every well-formed graph (target-keyed edge dicts with distinct
vertex keys, edge targets tracked as vertices), every source and every skip
predicate, `Digraph.bfs` maps each vertex it returns to its exact shortest
non-skipped distance from the source (a path of exactly that length exists,
and no shorter one does), maps the source to distance `0` with no
predecessor, and its output contains a vertex if and only if the vertex is
reachable from the source over non-skipped edges — unreachable vertices are
absent. -/
theorem bfs_shortest (g : Digraph) (skip : String → String → Bool)
    (s : String) (pg : List (String × Vertex_prop)) (hkey : EdgeKeyed g)
    (hnd : (dkeys g.V).Nodup)
    (hclosed : ∀ p ∈ g.V, ∀ q ∈ p.2, dmem g.V q.1 = true)
    (hrun : g.bfs s skip = some pg) :
    (∀ k vp, dget? pg k = some vp →
      ∃ n : Nat, vp.d = EInt.fin n ∧
        (∃ l, EdgePath g skip s l k ∧ l.length = n) ∧
        (∀ l, EdgePath g skip s l k → n ≤ l.length)) ∧
    (∃ sp, dget? pg s = some sp ∧ sp.d = EInt.fin 0 ∧ sp.pi = none) ∧
    (∀ v, dmem pg v = true ↔ ∃ l, EdgePath g skip s l v) := by
  have hclosed' : ∀ u v, g.has_edge u v = true → dmem g.V v = true := by
    intro u v he
    unfold Digraph.has_edge at he
    cases hm : dget? g.V u with
    | none =>
      rw [hm] at he
      cases he
    | some m =>
      rw [hm] at he
      have he2 : (dget? m v).isSome = true := he
      cases hgv : dget? m v with
      | none =>
        rw [hgv] at he2
        cases he2
      | some e =>
        exact hclosed (u, m) (dget?_mem hm) (v, e) (dget?_mem hgv)
  unfold Digraph.bfs at hrun
  cases hloop : bfs_loop g skip (bfsFuel g) (bfs_init g s) [s] with
  | none =>
    rw [hloop] at hrun
    cases hrun
  | some F =>
    rw [hloop] at hrun
    have hpg : pg = F.filter (fun p => p.2.pi.isSome || p.1 == s) :=
      (Option.some.inj hrun).symm
    have hI0 : BfsInv g skip s (bfs_init g s) [s] := by
      refine ⟨?_, ?_, ?_, ?_, ?_, ?_⟩
      · refine ⟨_, bfs_init_src g s, rfl, rfl, ?_⟩
        intro hc
        cases hc
      · intro k vp h hw
        have hval := bfs_init_dget? g s k vp h
        by_cases hk : k = s
        · rw [if_pos hk] at hval
          rw [hval] at hw
          cases hw
        · rw [if_neg hk] at hval
          rw [hval]
      · exact bfs_init_keys_sup g s
      · intro k vp h hgrey
        have hval := bfs_init_dget? g s k vp h
        by_cases hk : k = s
        · rw [hk]
          exact List.mem_cons_self _ _
        · rw [if_neg hk] at hval
          rw [hval] at hgrey
          cases hgrey
      · intro x xp h hblack y _ _
        have hval := bfs_init_dget? g s x xp h
        exfalso
        by_cases hk : x = s
        · rw [if_pos hk] at hval
          rw [hval] at hblack
          cases hblack
        · rw [if_neg hk] at hval
          rw [hval] at hblack
          cases hblack
      · refine ⟨0, [s], [], rfl, ?_, ?_, ?_⟩
        · intro w hw wp hwp
          have hws : w = s := by
            rcases List.mem_cons.mp hw with h | h
            · exact h
            · exact absurd h (List.not_mem_nil w)
          rw [hws, bfs_init_src] at hwp
          rw [← Option.some.inj hwp]
        · intro w hw
          exact absurd hw (List.not_mem_nil w)
        · intro k vp h hnw dk hdk
          have hval := bfs_init_dget? g s k vp h
          by_cases hk : k = s
          · rw [if_pos hk] at hval
            rw [hval] at hdk
            have hdk2 : EInt.fin 0 = EInt.fin dk := hdk
            have := EInt.fin.inj hdk2
            omega
          · rw [if_neg hk] at hval
            exfalso
            rw [hval] at hnw
            exact hnw rfl
    obtain ⟨hBf, hIf, hnogrey⟩ := bfs_loop_inv6 g skip s hkey hclosed'
      (bfsFuel g) (bfs_init g s) [s] F (bfs_init_binv g skip s)
      (bfs_init_qinv g s) hI0 hloop
    have hndF : (dkeys F).Nodup := by
      have hkeq := bfs_loop_inv g skip s hkey (bfsFuel g) (bfs_init g s)
        [s] F (bfs_init_binv g skip s) (bfs_init_qinv g s) hloop
      rw [hkeq.2]
      exact bfs_init_nodup g s hnd
    have hE := hIf.black_edge
    have hsrcF := hIf.src
    have hpg_to_F : ∀ k vp, dget? pg k = some vp →
        dget? F k = some vp ∧ vp.color ≠ Color.white := by
      intro k vp h
      rw [hpg] at h
      obtain ⟨h1, h2⟩ := dget?_filter_nodup _ F k vp hndF h
      refine ⟨h1, ?_⟩
      have h2' : (vp.pi.isSome || (k == s)) = true := h2
      simp only [Bool.or_eq_true] at h2'
      rcases h2' with h3 | h3
      · intro hw
        have hpi := hIf.white_pi k vp h1 hw
        rw [hpi] at h3
        cases h3
      · have hks : k = s := by
          have := beq_iff_eq.mp h3
          exact this
        obtain ⟨sp, hsp, _, _, hsnw⟩ := hsrcF
        rw [hks, hsp] at h1
        rw [Option.some.inj h1] at hsnw
        exact hsnw
    have hF_to_pg : ∀ k vp, dget? F k = some vp → vp.color ≠ Color.white →
        dget? pg k = some vp := by
      intro k vp h hnw
      rw [hpg]
      apply dget?_filter_of_pred
      · exact h
      · rcases ((hBf k vp h).2.1 hnw).2 with hpi | hks
        · show (vp.pi.isSome || (k == s)) = true
          cases hp : vp.pi with
          | none => exact absurd hp hpi
          | some p => rfl
        · show (vp.pi.isSome || (k == s)) = true
          rw [hks]
          simp
    refine ⟨?_, ?_, ?_⟩
    · intro k vp hk
      obtain ⟨hkF, hnw⟩ := hpg_to_F k vp hk
      obtain ⟨nn, hnn⟩ := ((hBf k vp hkF).2.1 hnw).1
      refine ⟨nn, hnn,
        binv_shortest_exists g skip s F hBf hsrcF nn k vp hkF hnw hnn, ?_⟩
      intro l hl
      obtain ⟨sp, hsp, hsd, _, hsnw⟩ := hsrcF
      obtain ⟨bp, hbp, _, hb⟩ := dist_le_path g skip s F hBf hnogrey hE
        l s k hl sp hsp hsnw 0 hsd
      rw [hkF] at hbp
      have hvpbp : vp = bp := Option.some.inj hbp
      have hb2 := hb nn (by rw [← hvpbp]; exact hnn)
      push_cast at hb2
      omega
    · obtain ⟨sp, hsp, hsd, hspi, hsnw⟩ := hsrcF
      exact ⟨sp, hF_to_pg s sp hsp hsnw, hsd, hspi⟩
    · intro v
      constructor
      · intro hv
        unfold dmem at hv
        obtain ⟨vp, hvp⟩ := Option.isSome_iff_exists.mp hv
        obtain ⟨hkF, hnw⟩ := hpg_to_F v vp hvp
        obtain ⟨nn, hnn⟩ := ((hBf v vp hkF).2.1 hnw).1
        obtain ⟨l, hl, _⟩ := binv_shortest_exists g skip s F hBf hsrcF nn
          v vp hkF hnw hnn
        exact ⟨l, hl⟩
      · intro hreach
        obtain ⟨l, hl⟩ := hreach
        obtain ⟨sp, hsp, hsd, hspi, hsnw⟩ := hsrcF
        obtain ⟨vp, hvp, hvnw⟩ := reach_nonwhite g skip F hnogrey hE
          l s v hl ⟨sp, hsp, hsnw⟩
        have hin := hF_to_pg v vp hvp hvnw
        unfold dmem
        rw [hin]
        rfl

end Advogato

/-- Witness for C6: the seed-only certification graph with the
constantly-false skip predicate. -/
theorem bfs_shortest_witness :
    (∀ k vp, dget? ((Advogato.Digraph.bfs Advogato.seedH "seed"
        (fun _ _ => false)).getD []) k = some vp →
      ∃ n : Nat, vp.d = EInt.fin n ∧
        (∃ l, Advogato.EdgePath Advogato.seedH (fun _ _ => false) "seed" l k ∧
          l.length = n) ∧
        (∀ l, Advogato.EdgePath Advogato.seedH (fun _ _ => false) "seed" l k →
          n ≤ l.length)) ∧
    (∃ sp, dget? ((Advogato.Digraph.bfs Advogato.seedH "seed"
        (fun _ _ => false)).getD []) "seed" = some sp ∧
      sp.d = EInt.fin 0 ∧ sp.pi = none) ∧
    (∀ v, dmem ((Advogato.Digraph.bfs Advogato.seedH "seed"
        (fun _ _ => false)).getD []) v = true ↔
      ∃ l, Advogato.EdgePath Advogato.seedH (fun _ _ => false) "seed" l v) :=
  Advogato.bfs_shortest Advogato.seedH (fun _ _ => false) "seed"
    ((Advogato.Digraph.bfs Advogato.seedH "seed"
      (fun _ _ => false)).getD [])
    (by decide) (by decide) (by decide) (by decide)
